import Mathlib

/-!
# Panorama feature pipeline (`pset7/asst/panorama.cpp`)

A shallow embedding of the corner scorer, the corner extractor, the descriptor builder, the
feature matcher, the inlier test and the RANSAC loop of `panorama.cpp`, with properties of
each proved over the embedding.

Conventions of the embedding.

* `float` values are exact rationals (`ℚ`): rounding and overflow are not modelled.  IEEE
  behaviour differs from field arithmetic on finite inputs at a division by zero.  In the
  ratio test of the feature matcher the quotient is modelled explicitly (`FloatQuotient`).
  In the descriptor builder the division is a parameter of the definitions: it is the
  quotient of the field for a non-zero divisor, and its value for a zero divisor (a window
  of zero variance, where the source gets `NaN`) is left open.
* The conversion of a `float` to `int` is the truncation toward zero (`truncToInt`), and a
  loop `for (int i = a; i < b; i++)` with a `float` bound is the list of its values
  (`forLoopRange`).
* The descriptor divides by a square root; it is written for every field `K` with a
  square-root function and a division (`ImageOf K`), and run over `ℚ` and over `ℝ`.
* The classes `Point`, `Feature` and `FeatureCorrespondence` are declared in a header that
  is not part of the source file; their constructors, getters and `toCorrespondencePair`
  are defined at the end of `panorama.cpp` and are translated from there.  `Image`,
  `CorrespondencePair`, `Vec3f` and the matrix class are neither declared nor defined in the
  source file; they are modelled from the data model of the specification and from the way
  the source uses them.
* Library routines called by the source (`lumiChromi`, `gaussianBlur_separable`, `gradientX`,
  `gradientY`, `maximum_filter`, `pow(·, 0.5)`, `computeHomography`, `random_shuffle`) are
  parameters of the definitions.
-/

namespace Panorama

/-! ## Data model -/

/-- The `Point` class of the source: the two `int` members `x` and `y` set by the
constructor `Point::Point(int xp, int yp)`. -/
structure Point where
  x : Int
  y : Int

/-- Modelled from the spec: the `Image` class, `image(width, height, channels)` with element
read and write by `(x, y, channel)`; the class is declared in a header that is not part of
the source.  Pixels are read through `pix`; the two-argument call `im(x, y)` of the source
is `im.pix x y 0`. -/
structure Image where
  width : Nat
  height : Nat
  channels : Nat
  pix : Int → Int → Nat → ℚ

/-- The constructor `Image(width, height, channels)`: every pixel is zero. -/
def Image.zeros (w h c : Nat) : Image :=
  { width := w, height := h, channels := c, pix := fun _ _ _ => 0 }

/-- The assignment `im(x, y, c) = v`. -/
def Image.set (im : Image) (x y : Int) (c : Nat) (v : ℚ) : Image :=
  { im with pix := fun x1 y1 c1 => if x1 = x ∧ y1 = y ∧ c1 = c then v else im.pix x1 y1 c1 }

/-- The `Feature` class of the source: the members `pt` and `dsc` set by the constructor
`Feature::Feature(Point ptp, const Image &descp)`; the fields carry the names of the getters
`point()` and `desc()`, which return them. -/
structure Feature where
  point : Point
  desc : Image

/-- The `FeatureCorrespondence` class of the source: the members `f1` and `f2` set by the
constructor `FeatureCorrespondence::FeatureCorrespondence(const Feature &f1p,
const Feature &f2p)`. -/
structure FeatureCorrespondence where
  f1 : Feature
  f2 : Feature

/-! ## Corner scorer -/

/-- The image library called by the source, which is not part of it: `lumiChromi` (the
luminance and the chrominance image), `gaussianBlur_separable`, `gradientX`, `gradientY`
and `maximum_filter`. -/
structure ImageLib where
  lumiChromi : Image → Image × Image
  gaussianBlur_separable : Image → ℚ → Image
  gradientX : Image → Image
  gradientY : Image → Image
  maximum_filter : Image → ℚ → Image

/-- The function `computeTensor` of the source. -/
def computeTensor (lib : ImageLib) (im : Image) (sigmaG factorSigma : ℚ) : Image :=
  let lumi_chromi := lib.lumiChromi im
  let lumi := lumi_chromi.1
  let blurred_lumi := lib.gaussianBlur_separable lumi sigmaG
  let gradientX_lumi := lib.gradientX blurred_lumi
  let gradientY_lumi := lib.gradientY blurred_lumi
  let perPixelContributions :=
    (List.range im.width).foldl
      (fun (out : Image) (i : Nat) =>
        (List.range im.height).foldl
          (fun (out : Image) (j : Nat) =>
            let out := out.set i j 0 (gradientX_lumi.pix i j 0 ^ 2)
            let out := out.set i j 1 (gradientX_lumi.pix i j 0 * gradientY_lumi.pix i j 0)
            out.set i j 2 (gradientY_lumi.pix i j 0 ^ 2))
          out)
      (Image.zeros im.width im.height 3)
  lib.gaussianBlur_separable perPixelContributions (sigmaG * factorSigma)

/-- The Harris score computed in the loop of `cornerResponse` at the pixel `(i, j)` of the
structure tensor: `M.determinant() - k*pow(M.trace(), 2)` for the 2×2 matrix `M` of the
three channels. -/
def harrisR (structure_tensor : Image) (k : ℚ) (i j : Nat) : ℚ :=
  let M : Matrix (Fin 2) (Fin 2) ℚ :=
    !![structure_tensor.pix i j 0, structure_tensor.pix i j 1;
       structure_tensor.pix i j 1, structure_tensor.pix i j 2]
  M.det - k * M.trace ^ 2

/-- The function `cornerResponse` of the source. -/
def cornerResponse (lib : ImageLib) (im : Image) (k sigmaG factorSigma : ℚ) : Image :=
  let structure_tensor := computeTensor lib im sigmaG factorSigma
  let corner_response := Image.zeros im.width im.height 1
  (List.range structure_tensor.width).foldl
    (fun (corner_response : Image) (i : Nat) =>
      (List.range structure_tensor.height).foldl
        (fun (corner_response : Image) (j : Nat) =>
          let R := harrisR structure_tensor k i j
          if R > 0 then corner_response.set i j 0 R else corner_response)
        corner_response)
    corner_response

/-! ## Corner extractor -/

/-- The conversion of a `float` to `int`: truncation toward zero. -/
def truncToInt (q : ℚ) : Int := if 0 ≤ q then ⌊q⌋ else ⌈q⌉

/-- The successive values of `i` in a loop `for (int i = start; i < bound; i++)` whose
bound is a `float`: the integers from `start` that are below `bound`, in increasing
order. -/
def forLoopRange (start : Int) (bound : ℚ) : List Int :=
  (List.range (⌈bound⌉ - start).toNat).map (fun (t : Nat) => start + (t : Int))

/-- The function `HarrisCorners` of the source (the two diagnostic `write` calls apart). -/
def HarrisCorners (lib : ImageLib) (im : Image)
    (k sigmaG factorSigma maxiDiam boundarySize : ℚ) : List Point :=
  let corner_response := cornerResponse lib im k sigmaG factorSigma
  let maximum_corner_response := lib.maximum_filter corner_response maxiDiam
  (forLoopRange (truncToInt boundarySize) ((corner_response.width : ℚ) - boundarySize)).foldl
    (fun (harris_corners : List Point) (i : Int) =>
      (forLoopRange (truncToInt boundarySize)
          ((corner_response.height : ℚ) - boundarySize)).foldl
        (fun (harris_corners : List Point) (j : Int) =>
          if maximum_corner_response.pix i j 0 > 0 ∧
              corner_response.pix i j 0 = maximum_corner_response.pix i j 0 then
            harris_corners ++ [Point.mk i j]
          else harris_corners)
        harris_corners)
    []

/-! ## Descriptor builder -/

/-- Modelled from the spec: the `Image` class over a scalar type `K`.  The source computes
on `float`; the descriptor divides by a square root, which is exact only over the reals,
so the descriptor is written once for every field `K` with a square-root function and is
run over `ℚ` (with `Image`) and over `ℝ`. -/
structure ImageOf (K : Type) where
  width : Nat
  height : Nat
  channels : Nat
  pix : Int → Int → Nat → K

/-- The constructor `Image(width, height, channels)` over `K`: every pixel is zero. -/
def ImageOf.zeros {K : Type} [Zero K] (w h c : Nat) : ImageOf K :=
  { width := w, height := h, channels := c, pix := fun _ _ _ => 0 }

/-- The assignment `im(x, y, c) = v` over `K`. -/
def ImageOf.set {K : Type} (im : ImageOf K) (x y : Int) (c : Nat) (v : K) : ImageOf K :=
  { im with pix := fun x1 y1 c1 => if x1 = x ∧ y1 = y ∧ c1 = c then v else im.pix x1 y1 c1 }

/-- The sum of all elements of an image. -/
def ImageOf.total {K : Type} [Field K] (im : ImageOf K) : K :=
  ∑ x ∈ Finset.range im.width, ∑ y ∈ Finset.range im.height,
    ∑ c ∈ Finset.range im.channels, im.pix (x : Int) (y : Int) c

/-- The value of `number_of_elements()`. -/
def ImageOf.numberOfElements {K : Type} (im : ImageOf K) : Nat :=
  im.width * im.height * im.channels

/-- Modelled from the spec: `Image::mean`, which is not part of the source: the sum of the
elements divided by their number. -/
def ImageOf.mean {K : Type} [Field K] (im : ImageOf K) : K :=
  im.total / (im.numberOfElements : K)

/-- Modelled from the spec: `Image::var`, which is not part of the source: the mean of the
squared deviations from the mean. -/
def ImageOf.var {K : Type} [Field K] (im : ImageOf K) : K :=
  (∑ x ∈ Finset.range im.width, ∑ y ∈ Finset.range im.height,
    ∑ c ∈ Finset.range im.channels, (im.pix (x : Int) (y : Int) c - im.mean) ^ 2) /
    (im.numberOfElements : K)

/-- The first loop of `descriptor`: the window of `blurredIm` around `p` copied into
`output`, an image of side `radiusDescriptor*2+1` converted to `int` (a negative side is
taken as 0). -/
def descriptorWindow {K : Type} [Field K] (blurredIm : ImageOf K) (p : Point)
    (radiusDescriptor : ℚ) : ImageOf K :=
  let output : ImageOf K :=
    ImageOf.zeros (truncToInt (radiusDescriptor * 2 + 1)).toNat
      (truncToInt (radiusDescriptor * 2 + 1)).toNat 1
  (forLoopRange (truncToInt ((p.x : ℚ) - radiusDescriptor))
      ((p.x : ℚ) + radiusDescriptor + 1)).foldl
    (fun (output : ImageOf K) (i : Int) =>
      (forLoopRange (truncToInt ((p.y : ℚ) - radiusDescriptor))
          ((p.y : ℚ) + radiusDescriptor + 1)).foldl
        (fun (output : ImageOf K) (j : Int) =>
          output.set (truncToInt ((i : ℚ) - ((p.x : ℚ) - radiusDescriptor)))
            (truncToInt ((j : ℚ) - ((p.y : ℚ) - radiusDescriptor))) 0 (blurredIm.pix i j 0))
        output)
    output

/-- The second loop of `descriptor`: `subtracted_output(i,j) = output(i,j) - output.mean()`
on a copy of `output`. -/
def subtractMean {K : Type} [Field K] (output : ImageOf K) : ImageOf K :=
  (List.range output.width).foldl
    (fun (subtracted_output : ImageOf K) (i : Nat) =>
      (List.range output.height).foldl
        (fun (subtracted_output : ImageOf K) (j : Nat) =>
          subtracted_output.set (i : Int) (j : Int) 0
            (output.pix (i : Int) (j : Int) 0 - output.mean))
        subtracted_output)
    output

/-- The third loop of `descriptor`:
`final_output(i,j) = subtracted_output(i,j)/pow(subtracted_output.var(), 0.5)` on a copy of
`subtracted_output`.  `sqrtK` is the function `pow(·, 0.5)` and `divK` is the division of
`float`: for a non-zero divisor it is the quotient of the field; for a zero divisor (a
window of zero variance) the source obtains NaN or an infinity, which is no element of `K`,
so the value of `divK` there is left open and nothing is proved about it. -/
def divideByDeviation {K : Type} [Field K] (sqrtK : K → K) (divK : K → K → K)
    (subtracted_output : ImageOf K) : ImageOf K :=
  (List.range subtracted_output.width).foldl
    (fun (final_output : ImageOf K) (i : Nat) =>
      (List.range subtracted_output.height).foldl
        (fun (final_output : ImageOf K) (j : Nat) =>
          final_output.set (i : Int) (j : Int) 0
            (divK (subtracted_output.pix (i : Int) (j : Int) 0)
              (sqrtK subtracted_output.var)))
        final_output)
    subtracted_output

/-- The function `descriptor` of the source; `sqrtK` is the function `pow(·, 0.5)` and
`divK` the division of `float` (see `divideByDeviation`). -/
def descriptor {K : Type} [Field K] (sqrtK : K → K) (divK : K → K → K)
    (blurredIm : ImageOf K) (p : Point) (radiusDescriptor : ℚ) : ImageOf K :=
  let output := descriptorWindow blurredIm p radiusDescriptor
  let subtracted_output := subtractMean output
  let final_output := divideByDeviation sqrtK divK subtracted_output
  final_output

/-- An `Image` as an image over `ℚ`. -/
def Image.toImageOf (im : Image) : ImageOf ℚ :=
  { width := im.width, height := im.height, channels := im.channels, pix := im.pix }

/-- An image over `ℚ` as an `Image`. -/
def ImageOf.toImage (im : ImageOf ℚ) : Image :=
  { width := im.width, height := im.height, channels := im.channels, pix := im.pix }

/-- The function `computeFeatures` of the source; `sqrtf` is the function `pow(·, 0.5)`
and `divf` the division of `float` used by `descriptor`. -/
def computeFeatures (lib : ImageLib) (sqrtf : ℚ → ℚ) (divf : ℚ → ℚ → ℚ) (im : Image)
    (cornersL : List Point) (sigmaBlurDescriptor radiusDescriptor : ℚ) : List Feature :=
  let lumi_chromi := lib.lumiChromi im
  let lumi := lumi_chromi.1
  let blurred_lumi := lib.gaussianBlur_separable lumi sigmaBlurDescriptor
  cornersL.foldl
    (fun (features : List Feature) (point : Point) =>
      let descriptor_for_point :=
        (descriptor sqrtf divf blurred_lumi.toImageOf point radiusDescriptor).toImage
      let new_feature := Feature.mk point descriptor_for_point
      features ++ [new_feature])
    []

/-! ## Float division -/

/-- The value of a `float` division `a / b` of two finite operands: a finite quotient, or
one of the IEEE special values produced by a zero divisor. -/
inductive FloatQuotient where
  | finite (q : ℚ)
  | posInf
  | negInf
  | nan

/-- The division `a / b` on `float`: `x / 0` is `+inf` for `x > 0`, `-inf` for `x < 0` and
NaN for `x = 0`. -/
def fdiv (a b : ℚ) : FloatQuotient :=
  if b = 0 then
    if 0 < a then FloatQuotient.posInf
    else if a < 0 then FloatQuotient.negInf
    else FloatQuotient.nan
  else FloatQuotient.finite (a / b)

/-- The comparison `q >= c` of a quotient with a finite `float`: every comparison with NaN
is false. -/
def FloatQuotient.ge (q : FloatQuotient) (c : ℚ) : Bool :=
  match q with
  | FloatQuotient.finite v => decide (c ≤ v)
  | FloatQuotient.posInf => true
  | FloatQuotient.negInf => false
  | FloatQuotient.nan => false

/-! ## Feature matcher -/

/-- The function `l2Features` of the source: the accumulated squared differences of the two
descriptors over the positions of the first descriptor. -/
def l2Features (f1 f2 : Feature) : ℚ :=
  (List.range f1.desc.width).foldl
    (fun (dist : ℚ) (i : Nat) =>
      (List.range f1.desc.height).foldl
        (fun (dist : ℚ) (j : Nat) =>
          dist + (f1.desc.pix (i : Int) (j : Int) 0 - f2.desc.pix (i : Int) (j : Int) 0) ^ 2)
        dist)
    0

/-- The local variables of the inner loop of `findCorrespondences`. -/
structure ScanState where
  best_dif : ℚ
  best_feature : Feature
  second_best_dif : ℚ
  second_best_feature : Feature
  was_set : Bool

/-- The state before the inner loop of `findCorrespondences` for the feature `f1`. -/
def scanInit (f1 : Feature) : ScanState :=
  { best_dif := 5000000, best_feature := f1,
    second_best_dif := 50000, second_best_feature := f1, was_set := false }

/-- One iteration of the inner loop of `findCorrespondences`. -/
def scanStep (f1 : Feature) (s : ScanState) (f2 : Feature) : ScanState :=
  let dif := l2Features f1 f2
  if dif < s.best_dif then
    { best_dif := dif, best_feature := f2,
      second_best_dif := s.best_dif, second_best_feature := s.best_feature, was_set := true }
  else if dif < s.second_best_dif then
    { s with second_best_dif := dif, second_best_feature := f2 }
  else s

/-- The inner loop of `findCorrespondences`: the scan of `listFeatures2` for one `f1`. -/
def scan (f1 : Feature) (listFeatures2 : List Feature) : ScanState :=
  listFeatures2.foldl (scanStep f1) (scanInit f1)

/-- The test `second_best_dif/best_dif >= threshold_squared && was_set == true`. -/
def accepts (s : ScanState) (threshold_squared : ℚ) : Bool :=
  (fdiv s.second_best_dif s.best_dif).ge threshold_squared && s.was_set

/-- The function `findCorrespondences` of the source. -/
def findCorrespondences (listFeatures1 listFeatures2 : List Feature) (threshold : ℚ) :
    List FeatureCorrespondence :=
  let threshold_squared := threshold ^ 2
  listFeatures1.foldl
    (fun correspondences f1 =>
      let s := scan f1 listFeatures2
      if accepts s threshold_squared then
        correspondences ++ [FeatureCorrespondence.mk f1 s.best_feature]
      else correspondences)
    []

/-! ### Reference definitions for the ratio test -/

/-- Reference definition: the distances from `fA` to the features of `B`, in ascending
order (with multiplicity). -/
def sortedDistances (fA : Feature) (B : List Feature) : List ℚ :=
  (B.map (l2Features fA)).insertionSort (fun a b => a ≤ b)

/-- Reference definition: the smallest distance from `fA` to a feature of `B`. -/
def bestDistance (fA : Feature) (B : List Feature) : ℚ :=
  (sortedDistances fA B).getD 0 0

/-- Reference definition: the second-smallest distance from `fA` to a feature of `B`,
counted with multiplicity. -/
def secondBestDistance (fA : Feature) (B : List Feature) : ℚ :=
  (sortedDistances fA B).getD 1 0

/-- Reference definition: the first feature of `B` at the smallest distance from `fA`. -/
def firstNearest (fA : Feature) (B : List Feature) : Option Feature :=
  B.find? (fun fB => decide (l2Features fA fB = bestDistance fA B))

/-- Reference definition of the matcher: `fA` is paired with its first nearest feature
when the quotient of the second-smallest by the smallest distance reaches the squared
threshold. -/
def ratioTestMatches (A B : List Feature) (threshold : ℚ) : List FeatureCorrespondence :=
  A.filterMap (fun fA =>
    if (fdiv (secondBestDistance fA B) (bestDistance fA B)).ge (threshold ^ 2) then
      (firstNearest fA B).map (FeatureCorrespondence.mk fA)
    else none)

/-- A feature with a one-pixel descriptor of value `v`, at the point `(x, y)`. -/
def Feature.single (x y : Int) (v : ℚ) : Feature :=
  { point := ⟨x, y⟩, desc := { width := 1, height := 1, channels := 1, pix := fun _ _ _ => v } }

/-! ## Inlier test and RANSAC -/

/-- Modelled from the spec: the 3-vector type `Vec3f` of the matrix header, which is not
part of the source. -/
abbrev Vec3f := Fin 3 → ℚ

/-- Modelled from the spec: the dense 3×3 matrix type of the matrix header (`Matrix` in the
source), with `determinant` and the product with a 3-vector. -/
abbrev Mat3 := Matrix (Fin 3) (Fin 3) ℚ

/-- Modelled from the spec: the `CorrespondencePair` class, two homogeneous points `point1`
and `point2` (read as `Vec3f` by `inliers`), declared in a header that is not part of the
source; its six-argument constructor takes the three coordinates of `point1` followed by
the three coordinates of `point2`. -/
structure CorrespondencePair where
  point1 : Vec3f
  point2 : Vec3f

/-- The function `FeatureCorrespondence::toCorrespondencePair` of the source:
`CorrespondencePair((float) f1.point().x, (float) f1.point().y, 1, (float) f2.point().x,
(float) f2.point().y, 1)`, the points of the two features in homogeneous coordinates
`(x, y, 1)`. -/
def FeatureCorrespondence.toCorrespondencePair (c : FeatureCorrespondence) :
    CorrespondencePair :=
  { point1 := ![(c.f1.point.x : ℚ), (c.f1.point.y : ℚ), 1],
    point2 := ![(c.f2.point.x : ℚ), (c.f2.point.y : ℚ), 1] }

/-- The square of `v.norm()`. -/
def squaredNorm (v : Vec3f) : ℚ := v 0 ^ 2 + v 1 ^ 2 + v 2 ^ 2

/-- The comparison `v.norm() < epsilon`.  The Euclidean norm is the non-negative square
root of `squaredNorm v`, which need not be rational, so the comparison is evaluated on the
squares: a non-negative root is below `epsilon` exactly when `epsilon` is positive and the
radicand is below `epsilon ^ 2` (`normLt_iff_sqrt_lt` below). -/
def normLt (v : Vec3f) (epsilon : ℚ) : Bool :=
  decide (0 < epsilon ∧ squaredNorm v < epsilon ^ 2)

/-- The function `inliers` of the source. -/
def inliers (H : Mat3) (listOfCorrespondences : List FeatureCorrespondence) (epsilon : ℚ) :
    List Bool :=
  listOfCorrespondences.foldl
    (fun output feature_corr =>
      let feature_corr_pair := feature_corr.toCorrespondencePair
      let transformed_first_point : Vec3f := H.mulVec feature_corr_pair.point1
      let diff : Vec3f := transformed_first_point - feature_corr_pair.point2
      output ++ [normLt diff epsilon])
    []

/-- The faults of a run that the source does not check for. -/
inductive Fault where
  /-- An element of a `vector` is read at an index that is not below its size. -/
  | indexOutOfRange

/-- The read `v[i]` of a `vector`. -/
def vectorAt {α : Type} (v : List α) (i : Nat) : Except Fault α :=
  match v[i]? with
  | some a => Except.ok a
  | none => Except.error Fault.indexOutOfRange

/-- The function `getListOfPairs` of the source. -/
def getListOfPairs (listOfCorrespondences : List FeatureCorrespondence) :
    Except Fault (List CorrespondencePair) :=
  (List.range 4).foldlM
    (fun out i => do
      let c ← vectorAt listOfCorrespondences i
      pure (out ++ [c.toCorrespondencePair]))
    []

/-- The function `sampleFeatureCorrespondences` of the source.  `random_shuffle k l` is
the result of the `k`-th call of `std::random_shuffle` of the run on the list `l`. -/
def sampleFeatureCorrespondences
    (random_shuffle : Nat → List FeatureCorrespondence → List FeatureCorrespondence)
    (k : Nat) (listOfCorrespondences : List FeatureCorrespondence) :
    List FeatureCorrespondence :=
  random_shuffle k listOfCorrespondences

/-- The number of `true` entries, as counted by the loop over `inlier_vector`. -/
def countInliers (inlier_vector : List Bool) : Nat :=
  inlier_vector.foldl (fun inlier_count inlier_bool =>
    if inlier_bool then inlier_count + 1 else inlier_count) 0

/-- The body of the loop of `RANSAC` up to the count of the inliers: the candidate `H` of
the iteration and its `inlier_count`.  `computeHomography` is the four-point solver. -/
def ransacCandidate
    (computeHomography : CorrespondencePair → CorrespondencePair → CorrespondencePair →
      CorrespondencePair → Mat3)
    (random_corrs : List FeatureCorrespondence) (epsilon : ℚ) : Except Fault (Mat3 × Nat) := do
  let c0 ← vectorAt random_corrs 0
  let c1 ← vectorAt random_corrs 1
  let c2 ← vectorAt random_corrs 2
  let c3 ← vectorAt random_corrs 3
  let listOfFeatureCorrespondences := [c0, c1, c2, c3]
  let listOfCorrespondencePairs ← getListOfPairs listOfFeatureCorrespondences
  let p0 ← vectorAt listOfCorrespondencePairs 0
  let p1 ← vectorAt listOfCorrespondencePairs 1
  let p2 ← vectorAt listOfCorrespondencePairs 2
  let p3 ← vectorAt listOfCorrespondencePairs 3
  let H := computeHomography p0 p1 p2 p3
  let H := if H.det = 0 then (1 : Mat3) else H
  let inlier_vector := inliers H listOfFeatureCorrespondences epsilon
  pure (H, countInliers inlier_vector)

/-- One iteration of the loop of `RANSAC` on the state `(best_H, max_inliers)`. -/
def ransacStep
    (computeHomography : CorrespondencePair → CorrespondencePair → CorrespondencePair →
      CorrespondencePair → Mat3)
    (random_shuffle : Nat → List FeatureCorrespondence → List FeatureCorrespondence)
    (listOfCorrespondences : List FeatureCorrespondence) (epsilon : ℚ)
    (st : Mat3 × Nat) (ransac_iter : Nat) : Except Fault (Mat3 × Nat) := do
  let random_corrs :=
    sampleFeatureCorrespondences random_shuffle ransac_iter listOfCorrespondences
  let cand ← ransacCandidate computeHomography random_corrs epsilon
  if cand.2 ≥ st.2 then pure cand else pure st

/-- The function `RANSAC` of the source. -/
def RANSAC
    (computeHomography : CorrespondencePair → CorrespondencePair → CorrespondencePair →
      CorrespondencePair → Mat3)
    (random_shuffle : Nat → List FeatureCorrespondence → List FeatureCorrespondence)
    (listOfCorrespondences : List FeatureCorrespondence) (Niter : Int) (epsilon : ℚ) :
    Except Fault Mat3 := do
  let st ← (List.range Niter.toNat).foldlM
    (ransacStep computeHomography random_shuffle listOfCorrespondences epsilon)
    ((1 : Mat3), 0)
  pure st.1

/-- Four correspondences of the corners of the unit square with their translates by
`(10, 0)`. -/
def translatedSquare : List FeatureCorrespondence :=
  [FeatureCorrespondence.mk (Feature.single 0 0 0) (Feature.single 10 0 0),
   FeatureCorrespondence.mk (Feature.single 1 0 0) (Feature.single 11 0 0),
   FeatureCorrespondence.mk (Feature.single 0 1 0) (Feature.single 10 1 0),
   FeatureCorrespondence.mk (Feature.single 1 1 0) (Feature.single 11 1 0)]

/-- The homography of the translation by `(10, 0)`. -/
def translation10 : Mat3 := !![1, 0, 10; 0, 1, 0; 0, 0, 1]

/-- An image library whose blur, gradient and maximum filters return their input. -/
def ImageLib.identity : ImageLib :=
  { lumiChromi := fun im => (im, im),
    gaussianBlur_separable := fun im _ => im,
    gradientX := fun im => im,
    gradientY := fun im => im,
    maximum_filter := fun im _ => im }

/-- Five correspondences that map each point to itself: four points on the line `y = 0`
and the point `(0, 1)`. -/
def collinearFive : List FeatureCorrespondence :=
  [FeatureCorrespondence.mk (Feature.single 0 0 0) (Feature.single 0 0 0),
   FeatureCorrespondence.mk (Feature.single 1 0 0) (Feature.single 1 0 0),
   FeatureCorrespondence.mk (Feature.single 2 0 0) (Feature.single 2 0 0),
   FeatureCorrespondence.mk (Feature.single 3 0 0) (Feature.single 3 0 0),
   FeatureCorrespondence.mk (Feature.single 0 1 0) (Feature.single 0 1 0)]

/-- The homography that doubles the `y` coordinate; it fixes every point of the line
`y = 0`. -/
def stretchY : Mat3 := !![1, 0, 0; 0, 2, 0; 0, 0, 1]

/-- An image library whose blur returns, in the dimensions of its argument, the uniform
image of value 1 in the channels 0 and 2 and of value 0 in channel 1, and whose maximum
filter returns its argument (as a filter of diameter 1 does). -/
def ImageLib.uniform : ImageLib :=
  { lumiChromi := fun im => (im, im),
    gaussianBlur_separable := fun im _ =>
      { width := im.width, height := im.height, channels := im.channels,
        pix := fun _ _ c => if c = 1 then 0 else 1 },
    gradientX := fun im => im,
    gradientY := fun im => im,
    maximum_filter := fun im _ => im }

/-- A 3×3 one-channel image over `K` whose pixel `(x, y)` has the value `x`. -/
def rampImage (K : Type) [Field K] : ImageOf K :=
  { width := 3, height := 3, channels := 1, pix := fun x _ _ => (x : K) }

/-- A 4×3 one-channel image whose pixel `(x, y)` has the value `x`; the windows of radius 1
around `(1, 1)` and around `(2, 1)` lie inside it. -/
def wideRamp : Image :=
  { width := 4, height := 3, channels := 1, pix := fun x _ _ => (x : ℚ) }

/-- Three homogeneous points lie on one line: the determinant of their coordinates is
zero. -/
def collinear (a b c : Vec3f) : Bool :=
  decide ((Matrix.of ![a, b, c]).det = 0)

/-- Four homogeneous points lie on one line: every three of them do. -/
def allOnOneLine (p0 p1 p2 p3 : Vec3f) : Bool :=
  collinear p0 p1 p2 && collinear p0 p1 p3 && collinear p0 p2 p3 && collinear p1 p2 p3

/-- A homography with a perspective row: `(x, y)` goes to `(2x / (x + 1), 2y / (x + 1))`. -/
def perspective : Mat3 := !![2, 0, 0; 0, 2, 0; 1, 0, 1]

/-- The corners of the unit square, each with its image under `perspective`:
`(0, 0) ↦ (0, 0)`, `(0, 1) ↦ (0, 2)`, `(1, 0) ↦ (1, 0)`, `(1, 1) ↦ (1, 1)`. -/
def perspectiveSquare : List FeatureCorrespondence :=
  [FeatureCorrespondence.mk (Feature.single 0 0 0) (Feature.single 0 0 0),
   FeatureCorrespondence.mk (Feature.single 0 1 0) (Feature.single 0 2 0),
   FeatureCorrespondence.mk (Feature.single 1 0 0) (Feature.single 1 0 0),
   FeatureCorrespondence.mk (Feature.single 1 1 0) (Feature.single 1 1 0)]

/-- The singular matrix that sends `(x, y)` to `(x, 0)`. -/
def flattenY : Mat3 := !![1, 0, 0; 0, 0, 0; 0, 0, 1]

/-- The corners of the unit square, each with its image under `flattenY`. -/
def flattenedSquare : List FeatureCorrespondence :=
  [FeatureCorrespondence.mk (Feature.single 0 0 0) (Feature.single 0 0 0),
   FeatureCorrespondence.mk (Feature.single 1 0 0) (Feature.single 1 0 0),
   FeatureCorrespondence.mk (Feature.single 0 1 0) (Feature.single 0 0 0),
   FeatureCorrespondence.mk (Feature.single 1 1 0) (Feature.single 1 0 0)]

/-- The first points of the four correspondences that an iteration of `RANSAC` reads from
the shuffled list lie on one line. -/
def sampleOnOneLine (random_corrs : List FeatureCorrespondence) : Bool :=
  match random_corrs with
  | c0 :: c1 :: c2 :: c3 :: _ =>
    allOnOneLine c0.toCorrespondencePair.point1 c1.toCorrespondencePair.point1
      c2.toCorrespondencePair.point1 c3.toCorrespondencePair.point1
  | _ => true

/-! ## Facts about the corner scorer -/

theorem foldl_preserves {α β : Type} (P : β → Prop) (f : β → α → β)
    (h : ∀ b a, P b → P (f b a)) : ∀ (l : List α) (b : β), P b → P (l.foldl f b)
  | [], _, hb => hb
  | a :: l, b, hb => foldl_preserves P f h l (f b a) (h b a hb)

/-- The pixels of channel 0 after one column of the scoring loop. -/
theorem score_column_pix (f : Nat → ℚ) (i : Nat) :
    ∀ (js : List Nat) (cr : Image) (a b : Nat),
      (js.foldl (fun (cr : Image) (j : Nat) =>
        if f j > 0 then cr.set i j 0 (f j) else cr) cr).pix a b 0 =
      if a = i ∧ b ∈ js ∧ 0 < f b then f b else cr.pix a b 0
  | [], cr, a, b => by simp
  | j :: js, cr, a, b => by
    rw [List.foldl_cons, score_column_pix f i js]
    by_cases hj : f j > 0
    · rw [if_pos hj]
      by_cases hb : b = j
      · subst hb
        by_cases ha : a = i
        · subst ha
          simp [Image.set, hj]
        · simp [Image.set, ha]
      · by_cases hbs : b ∈ js
        · by_cases ha : a = i <;> by_cases hf : 0 < f b <;> simp [Image.set, hb, hbs, ha, hf]
        · simp [Image.set, hb, hbs]
    · rw [if_neg hj]
      by_cases hb : b = j
      · subst hb
        have hj0 : ¬ 0 < f b := hj
        simp [hj0]
      · simp [hb]

/-- The pixels of channel 0 after the scoring loop over the columns `cols` and the rows
`rows`. -/
theorem score_loop_pix (f : Nat → Nat → ℚ) (rows : List Nat) :
    ∀ (cols : List Nat) (cr : Image) (a b : Nat),
      (cols.foldl (fun (cr : Image) (i : Nat) =>
        rows.foldl (fun (cr : Image) (j : Nat) =>
          if f i j > 0 then cr.set i j 0 (f i j) else cr) cr) cr).pix a b 0 =
      if a ∈ cols ∧ b ∈ rows ∧ 0 < f a b then f a b else cr.pix a b 0
  | [], cr, a, b => by simp
  | i :: cols, cr, a, b => by
    rw [List.foldl_cons, score_loop_pix f rows cols, score_column_pix (f i) i rows]
    by_cases ha : a = i
    · subst ha
      by_cases hb : b ∈ rows <;> by_cases hf : 0 < f a b <;> simp [hb, hf]
    · simp [ha]

theorem harrisR_eq (T : Image) (k : ℚ) (i j : Nat) :
    harrisR T k i j =
      (T.pix i j 0 * T.pix i j 2 - T.pix i j 1 * T.pix i j 1) -
        k * (T.pix i j 0 + T.pix i j 2) ^ 2 := by
  simp [harrisR, Matrix.det_fin_two_of, Matrix.trace_fin_two_of]

/-- The structure tensor has the width and height of the input when the blur keeps the
dimensions of its argument. -/
theorem computeTensor_dims (lib : ImageLib) (im : Image) (sigmaG factorSigma : ℚ)
    (hblur : ∀ (img : Image) (s : ℚ),
      (lib.gaussianBlur_separable img s).width = img.width ∧
      (lib.gaussianBlur_separable img s).height = img.height) :
    (computeTensor lib im sigmaG factorSigma).width = im.width ∧
    (computeTensor lib im sigmaG factorSigma).height = im.height := by
  unfold computeTensor
  simp only []
  rw [(hblur _ _).1, (hblur _ _).2]
  apply foldl_preserves (fun out : Image => out.width = im.width ∧ out.height = im.height)
  · intro out i hout
    apply foldl_preserves
      (fun out : Image => out.width = im.width ∧ out.height = im.height)
    · intro out j hout
      exact hout
    · exact hout
  · exact ⟨rfl, rfl⟩

theorem cornerResponse_dims (lib : ImageLib) (im : Image) (k sigmaG factorSigma : ℚ) :
    (cornerResponse lib im k sigmaG factorSigma).width = im.width ∧
    (cornerResponse lib im k sigmaG factorSigma).height = im.height := by
  unfold cornerResponse
  simp only []
  apply foldl_preserves (fun out : Image => out.width = im.width ∧ out.height = im.height)
  · intro out i hout
    apply foldl_preserves
      (fun out : Image => out.width = im.width ∧ out.height = im.height)
    · intro out j hout
      split
      · exact hout
      · exact hout
    · exact hout
  · exact ⟨rfl, rfl⟩

theorem cornerResponse_nonneg (lib : ImageLib) (im : Image) (k sigmaG factorSigma : ℚ)
    (x y : Int) (c : Nat) : 0 ≤ (cornerResponse lib im k sigmaG factorSigma).pix x y c := by
  revert x y c
  unfold cornerResponse
  simp only []
  apply foldl_preserves (fun out : Image => ∀ (x y : Int) (c : Nat), 0 ≤ out.pix x y c)
  · intro out i hout
    apply foldl_preserves (fun out : Image => ∀ (x y : Int) (c : Nat), 0 ≤ out.pix x y c)
    · intro out j hout
      split
      · rename_i hR
        intro x y c
        simp only [Image.set]
        split
        · exact le_of_lt hR
        · exact hout x y c
      · exact hout
    · exact hout
  · intro x y c
    exact le_refl _

/-! ## Facts about the feature matcher -/

theorem l2Features_single (x y x1 y1 : Int) (v w : ℚ) :
    l2Features (Feature.single x y v) (Feature.single x1 y1 w) = (v - w) ^ 2 := by
  simp [l2Features, Feature.single, List.range_succ]

theorem scan_concat (f1 : Feature) (p : List Feature) (f : Feature) :
    scan f1 (p ++ [f]) = scanStep f1 (scan f1 p) f := by
  simp [scan, List.foldl_append]

/-- A feature at the current best distance does not displace the best feature. -/
theorem scanStep_tie (f1 : Feature) (s : ScanState) (f : Feature)
    (h : l2Features f1 f = s.best_dif) :
    (scanStep f1 s f).best_feature = s.best_feature ∧
    (scanStep f1 s f).best_dif = s.best_dif := by
  unfold scanStep
  simp only [h, lt_irrefl, if_false]
  split <;> exact ⟨rfl, rfl⟩

theorem getElem?_concat_ge {α : Type} (p : List α) (f g : α) {j : Nat} (hjl : p.length ≤ j)
    (hj : (p ++ [f])[j]? = some g) : g = f := by
  rw [List.getElem?_append_right hjl] at hj
  rcases Nat.eq_zero_or_pos (j - p.length) with h0 | h0
  · rw [h0] at hj; simpa using hj.symm
  · rw [List.getElem?_eq_none (show [f].length ≤ j - p.length from h0)] at hj; cases hj

/-- The push-back loop of `findCorrespondences` is a filter-map over the first list. -/
theorem findCorrespondences_eq_filterMap (A B : List Feature) (t : ℚ) :
    findCorrespondences A B t =
      A.filterMap (fun f1 =>
        if accepts (scan f1 B) (t ^ 2) then
          some (FeatureCorrespondence.mk f1 (scan f1 B).best_feature)
        else none) := by
  unfold findCorrespondences
  have key : ∀ (A : List Feature) (acc : List FeatureCorrespondence),
      A.foldl
        (fun correspondences f1 =>
          if accepts (scan f1 B) (t ^ 2) then
            correspondences ++ [FeatureCorrespondence.mk f1 (scan f1 B).best_feature]
          else correspondences) acc =
      acc ++ A.filterMap (fun f1 =>
        if accepts (scan f1 B) (t ^ 2) then
          some (FeatureCorrespondence.mk f1 (scan f1 B).best_feature)
        else none) := by
    intro A
    induction A with
    | nil => intro acc; simp
    | cons a A ih =>
      intro acc
      rw [List.foldl_cons, ih]
      by_cases h : accepts (scan a B) (t ^ 2) = true
      · simp [List.filterMap_cons, h]
      · simp [List.filterMap_cons, h]
  simpa using key A []

/-- The running best of the scan: either nothing was below the sentinel, or the best is
the first feature of the scanned prefix at the least distance. -/
theorem scan_best_spec (f1 : Feature) (p : List Feature) :
    ((scan f1 p).was_set = false ∧ (scan f1 p).best_dif = 5000000 ∧
        ∀ f ∈ p, 5000000 ≤ l2Features f1 f) ∨
    ((scan f1 p).was_set = true ∧ (scan f1 p).best_dif < 5000000 ∧
        ∃ i : Nat, p[i]? = some (scan f1 p).best_feature ∧
          l2Features f1 (scan f1 p).best_feature = (scan f1 p).best_dif ∧
          (∀ (j : Nat) (f : Feature), p[j]? = some f →
            (scan f1 p).best_dif ≤ l2Features f1 f) ∧
          (∀ (j : Nat) (f : Feature), j < i → p[j]? = some f →
            (scan f1 p).best_dif < l2Features f1 f)) := by
  induction p using List.reverseRecOn with
  | nil => left; simp [scan, scanInit]
  | append_singleton p f ih =>
    rw [scan_concat]
    rcases ih with ⟨hw, hb, hall⟩ | ⟨hw, hb, i, hi, hd, hle, hlt⟩
    · by_cases h : l2Features f1 f < 5000000
      · right
        have hstep : scanStep f1 (scan f1 p) f =
            { best_dif := l2Features f1 f, best_feature := f,
              second_best_dif := (scan f1 p).best_dif,
              second_best_feature := (scan f1 p).best_feature, was_set := true } := by
          simp [scanStep, hb, h]
        rw [hstep]
        refine ⟨rfl, h, p.length, by simp, rfl, ?_, ?_⟩
        · intro j g hj
          rcases Nat.lt_or_ge j p.length with hjl | hjl
          · rw [List.getElem?_append_left hjl] at hj
            exact le_trans (le_of_lt h) (hall g (List.getElem?_mem hj))
          · have : g = f := getElem?_concat_ge p f g hjl hj
            rw [this]
        · intro j g hjl hj
          rw [List.getElem?_append_left hjl] at hj
          exact lt_of_lt_of_le h (hall g (List.getElem?_mem hj))
      · left
        have hstep : scanStep f1 (scan f1 p) f =
            if l2Features f1 f < (scan f1 p).second_best_dif then
              { scan f1 p with second_best_dif := l2Features f1 f, second_best_feature := f }
            else scan f1 p := by
          simp [scanStep, hb, h]
        rw [hstep]
        refine ⟨?_, ?_, ?_⟩
        · split <;> simp [hw]
        · split <;> simp [hb]
        · intro g hg
          rcases List.mem_append.mp hg with hg | hg
          · exact hall g hg
          · have : g = f := by simpa using hg
            rw [this]; exact not_lt.mp h
    · right
      have hidx : i < p.length := by
        rcases List.getElem?_eq_some.mp hi with ⟨h, _⟩; exact h
      by_cases h : l2Features f1 f < (scan f1 p).best_dif
      · have hstep : scanStep f1 (scan f1 p) f =
            { best_dif := l2Features f1 f, best_feature := f,
              second_best_dif := (scan f1 p).best_dif,
              second_best_feature := (scan f1 p).best_feature, was_set := true } := by
          simp [scanStep, h]
        rw [hstep]
        refine ⟨rfl, lt_trans h hb, p.length, by simp, rfl, ?_, ?_⟩
        · intro j g hj
          rcases Nat.lt_or_ge j p.length with hjl | hjl
          · rw [List.getElem?_append_left hjl] at hj
            exact le_trans (le_of_lt h) (hle j g hj)
          · have : g = f := getElem?_concat_ge p f g hjl hj
            rw [this]
        · intro j g hjl hj
          rw [List.getElem?_append_left hjl] at hj
          exact lt_of_lt_of_le h (hle j g hj)
      · have hstep : scanStep f1 (scan f1 p) f =
            if l2Features f1 f < (scan f1 p).second_best_dif then
              { scan f1 p with second_best_dif := l2Features f1 f, second_best_feature := f }
            else scan f1 p := by
          simp [scanStep, h]
        rw [hstep]
        have hbest : (if l2Features f1 f < (scan f1 p).second_best_dif then
              ({ scan f1 p with second_best_dif := l2Features f1 f, second_best_feature := f } :
                ScanState)
            else scan f1 p).best_dif = (scan f1 p).best_dif := by split <;> rfl
        have hfeat : (if l2Features f1 f < (scan f1 p).second_best_dif then
              ({ scan f1 p with second_best_dif := l2Features f1 f, second_best_feature := f } :
                ScanState)
            else scan f1 p).best_feature = (scan f1 p).best_feature := by split <;> rfl
        have hset : (if l2Features f1 f < (scan f1 p).second_best_dif then
              ({ scan f1 p with second_best_dif := l2Features f1 f, second_best_feature := f } :
                ScanState)
            else scan f1 p).was_set = (scan f1 p).was_set := by split <;> rfl
        rw [hbest, hfeat, hset]
        refine ⟨hw, hb, i, ?_, hd, ?_, ?_⟩
        · rw [List.getElem?_append_left hidx]; exact hi
        · intro j g hj
          rcases Nat.lt_or_ge j p.length with hjl | hjl
          · rw [List.getElem?_append_left hjl] at hj
            exact hle j g hj
          · have : g = f := getElem?_concat_ge p f g hjl hj
            rw [this]; exact not_lt.mp h
        · intro j g hjl hj
          rw [List.getElem?_append_left (lt_trans hjl hidx)] at hj
          exact hlt j g hjl hj

theorem insertionSort_concat (l : List ℚ) (a : ℚ) :
    (l ++ [a]).insertionSort (fun a b => a ≤ b) =
      (l.insertionSort (fun a b => a ≤ b)).orderedInsert (fun a b => a ≤ b) a := by
  apply List.eq_of_perm_of_sorted (r := fun a b : ℚ => a ≤ b)
  · refine (List.perm_insertionSort _ _).trans ?_
    refine List.perm_append_singleton a l |>.trans ?_
    refine List.Perm.trans ?_ (List.perm_orderedInsert _ _ _).symm
    exact List.Perm.cons a (List.perm_insertionSort _ _).symm
  · exact List.sorted_insertionSort _ _
  · exact List.Sorted.orderedInsert _ _ (List.sorted_insertionSort _ _)

theorem sortedDistances_concat (f1 : Feature) (p : List Feature) (f : Feature) :
    sortedDistances f1 (p ++ [f]) =
      (sortedDistances f1 p).orderedInsert (fun a b => a ≤ b) (l2Features f1 f) := by
  simp [sortedDistances, insertionSort_concat]

theorem sortedDistances_sorted (f1 : Feature) (p : List Feature) :
    (sortedDistances f1 p).Sorted (fun a b => a ≤ b) :=
  List.sorted_insertionSort _ _

/-- Inserting into a sorted list with two or more elements: the two least elements after
the insertion, by the same case distinction as the inner loop of the matcher. -/
theorem orderedInsert_two (d b s2 : ℚ) (r : List ℚ) (hbs : b ≤ s2) :
    (d < b → ∃ r1, (b :: s2 :: r).orderedInsert (fun a b => a ≤ b) d = d :: b :: r1) ∧
    (¬ d < b → d < s2 →
      ∃ r1, (b :: s2 :: r).orderedInsert (fun a b => a ≤ b) d = b :: d :: r1) ∧
    (¬ d < b → ¬ d < s2 →
      ∃ r1, (b :: s2 :: r).orderedInsert (fun a b => a ≤ b) d = b :: s2 :: r1) := by
  refine ⟨?_, ?_, ?_⟩
  · intro h
    exact ⟨s2 :: r, by simp [List.orderedInsert, le_of_lt h]⟩
  · intro h1 h2
    rcases eq_or_lt_of_le (not_lt.mp h1) with he | hlt
    · exact ⟨s2 :: r, by simp [List.orderedInsert, he]⟩
    · exact ⟨s2 :: r, by simp [List.orderedInsert, not_le.mpr hlt, le_of_lt h2]⟩
  · intro h1 h2
    rcases eq_or_lt_of_le (not_lt.mp h1) with he | hlt
    · have hs : s2 = b := le_antisymm (he ▸ not_lt.mp h2) hbs
      exact ⟨s2 :: r, by simp [List.orderedInsert, he, hs]⟩
    · rcases eq_or_lt_of_le (not_lt.mp h2) with he2 | hlt2
      · exact ⟨s2 :: r, by simp [List.orderedInsert, not_le.mpr hlt, he2]⟩
      · exact ⟨r.orderedInsert (fun a b => a ≤ b) d,
          by simp [List.orderedInsert, not_le.mpr hlt, not_le.mpr hlt2]⟩

theorem find?_of_first_index {α : Type} (q : α → Bool) :
    ∀ (l : List α) (i : Nat) (b : α), l[i]? = some b → q b = true →
      (∀ (j : Nat) (a : α), j < i → l[j]? = some a → q a = false) → l.find? q = some b
  | [], i, b, h, _, _ => by simp at h
  | a :: l, 0, b, h, hb, _ => by
    have : a = b := by simpa using h
    simp [List.find?_cons, this, hb]
  | a :: l, i + 1, b, h, hb, hlt => by
    have ha : q a = false := hlt 0 a (Nat.succ_pos i) (by simp)
    rw [List.find?_cons, ha]
    refine find?_of_first_index q l i b (by simpa using h) hb ?_
    intro j c hj hc
    exact hlt (j + 1) c (Nat.succ_lt_succ hj) (by simpa using hc)

/-- With every distance below the sentinel, the scan of a non-empty prefix holds the two
least distances of the prefix; the sentinel stands for the second one while the prefix has
a single feature. -/
theorem scan_sorted_spec (f1 : Feature) (p : List Feature)
    (hs : ∀ f ∈ p, l2Features f1 f < 5000000) :
    p = [] ∨ ((scan f1 p).was_set = true ∧
      ((sortedDistances f1 p = [(scan f1 p).best_dif] ∧
          (scan f1 p).second_best_dif = 5000000) ∨
        ∃ r, sortedDistances f1 p =
          (scan f1 p).best_dif :: (scan f1 p).second_best_dif :: r)) := by
  induction p using List.reverseRecOn with
  | nil => left; rfl
  | append_singleton p f ih =>
    right
    have hf : l2Features f1 f < 5000000 := hs f (by simp)
    have hp : ∀ g ∈ p, l2Features f1 g < 5000000 := fun g hg => hs g (by simp [hg])
    rw [scan_concat, sortedDistances_concat]
    rcases ih hp with hnil | ⟨hw, hone | ⟨r, hr⟩⟩
    · subst hnil
      simp [scan, scanInit, scanStep, hf, sortedDistances]
    · obtain ⟨h1, h2⟩ := hone
      rw [h1]
      by_cases h : l2Features f1 f < (scan f1 p).best_dif
      · refine ⟨by simp [scanStep, h], Or.inr ⟨[], ?_⟩⟩
        simp [scanStep, h, List.orderedInsert, le_of_lt h]
      · have h3 : l2Features f1 f < (scan f1 p).second_best_dif := by rw [h2]; exact hf
        refine ⟨by simp [scanStep, h, h3, hw], Or.inr ⟨[], ?_⟩⟩
        rcases eq_or_lt_of_le (not_lt.mp h) with he | hlt
        · simp [scanStep, h, h3, List.orderedInsert, he]
        · simp [scanStep, h, h3, List.orderedInsert, not_le.mpr hlt]
    · have hsorted := sortedDistances_sorted f1 p
      rw [hr] at hsorted
      have hbs : (scan f1 p).best_dif ≤ (scan f1 p).second_best_dif := by
        have := List.rel_of_sorted_cons hsorted (scan f1 p).second_best_dif (by simp)
        exact this
      rw [hr]
      obtain ⟨c1, c2, c3⟩ := orderedInsert_two (l2Features f1 f) (scan f1 p).best_dif
        (scan f1 p).second_best_dif r hbs
      by_cases h : l2Features f1 f < (scan f1 p).best_dif
      · obtain ⟨r1, hr1⟩ := c1 h
        refine ⟨by simp [scanStep, h], Or.inr ⟨r1, ?_⟩⟩
        rw [hr1]; simp [scanStep, h]
      · by_cases h3 : l2Features f1 f < (scan f1 p).second_best_dif
        · obtain ⟨r1, hr1⟩ := c2 h h3
          refine ⟨by simp [scanStep, h, h3, hw], Or.inr ⟨r1, ?_⟩⟩
          rw [hr1]; simp [scanStep, h, h3]
        · obtain ⟨r1, hr1⟩ := c3 h h3
          refine ⟨by simp [scanStep, h, h3, hw], Or.inr ⟨r1, ?_⟩⟩
          rw [hr1]; simp [scanStep, h, h3]

theorem sortedDistances_length (f1 : Feature) (p : List Feature) :
    (sortedDistances f1 p).length = p.length := by
  simp [sortedDistances, List.length_insertionSort]

/-- With two or more features, all below the sentinel, the scan ends with the reference
values of the ratio test. -/
theorem scan_eq_reference (f1 : Feature) (B : List Feature) (h2 : 2 ≤ B.length)
    (hs : ∀ f ∈ B, l2Features f1 f < 5000000) :
    (scan f1 B).was_set = true ∧ (scan f1 B).best_dif = bestDistance f1 B ∧
      (scan f1 B).second_best_dif = secondBestDistance f1 B ∧
      firstNearest f1 B = some (scan f1 B).best_feature := by
  have hlen := sortedDistances_length f1 B
  rcases scan_sorted_spec f1 B hs with hnil | ⟨hw, ⟨h1, _⟩ | ⟨r, hr⟩⟩
  · subst hnil; simp at h2
  · rw [h1] at hlen; simp at hlen; omega
  · have hb : (scan f1 B).best_dif = bestDistance f1 B := by simp [bestDistance, hr]
    refine ⟨hw, hb, by simp [secondBestDistance, hr], ?_⟩
    rcases scan_best_spec f1 B with ⟨hw0, _, _⟩ | ⟨_, _, i, hi, hd, _, hlt⟩
    · rw [hw] at hw0; cases hw0
    · unfold firstNearest
      refine find?_of_first_index _ B i _ hi (by simp [hd, hb]) ?_
      intro j a hj ha
      have := hlt j a hj ha
      rw [hb] at this
      simp [ne_of_gt this]

theorem filterMap_congr_mem {α β : Type} (f g : α → Option β) :
    ∀ (l : List α), (∀ a ∈ l, f a = g a) → l.filterMap f = l.filterMap g
  | [], _ => rfl
  | a :: l, h => by
    rw [List.filterMap_cons, List.filterMap_cons, h a (by simp),
      filterMap_congr_mem f g l (fun b hb => h b (by simp [hb]))]

/-- The acceptance test is antitone in the squared threshold. -/
theorem accepts_antitone (s : ScanState) (c1 c2 : ℚ) (h : c1 ≤ c2)
    (h2 : accepts s c2 = true) : accepts s c1 = true := by
  unfold accepts at *
  rw [Bool.and_eq_true] at *
  refine ⟨?_, h2.2⟩
  have h3 := h2.1
  revert h3
  cases fdiv s.second_best_dif s.best_dif with
  | finite v => simp only [FloatQuotient.ge, decide_eq_true_eq]; intro h3; exact le_trans h h3
  | posInf => simp [FloatQuotient.ge]
  | negInf => simp [FloatQuotient.ge]
  | nan => simp [FloatQuotient.ge]

/-- Raising the squared threshold only removes correspondences. -/
theorem findCorrespondences_sublist_of_sq_le (A B : List Feature) (t1 t2 : ℚ)
    (h : t1 ^ 2 ≤ t2 ^ 2) :
    (findCorrespondences A B t2).Sublist (findCorrespondences A B t1) := by
  rw [findCorrespondences_eq_filterMap, findCorrespondences_eq_filterMap]
  induction A with
  | nil => simp
  | cons a A ih =>
    rw [List.filterMap_cons, List.filterMap_cons]
    by_cases h2 : accepts (scan a B) (t2 ^ 2) = true
    · have h1 := accepts_antitone (scan a B) _ _ h h2
      simp only [h1, h2, if_true]
      exact List.Sublist.cons₂ _ ih
    · by_cases h1 : accepts (scan a B) (t1 ^ 2) = true
      · simp only [h1, h2, if_true]
        exact List.Sublist.cons _ ih
      · simp only [h1, h2]
        exact ih

/-! ## Facts about the inlier test and RANSAC -/

/-- The push-back loop of `inliers` is a map over the correspondences. -/
theorem inliers_eq_map (H : Mat3) (L : List FeatureCorrespondence) (epsilon : ℚ) :
    inliers H L epsilon =
      L.map (fun c =>
        normLt (H.mulVec c.toCorrespondencePair.point1 - c.toCorrespondencePair.point2)
          epsilon) := by
  unfold inliers
  have key : ∀ (L : List FeatureCorrespondence) (acc : List Bool),
      L.foldl
        (fun output feature_corr =>
          output ++ [normLt (H.mulVec feature_corr.toCorrespondencePair.point1 -
            feature_corr.toCorrespondencePair.point2) epsilon]) acc =
      acc ++ L.map (fun c =>
        normLt (H.mulVec c.toCorrespondencePair.point1 - c.toCorrespondencePair.point2)
          epsilon) := by
    intro L
    induction L with
    | nil => intro acc; simp
    | cons a L ih => intro acc; rw [List.foldl_cons, ih]; simp
  simpa using key L []

/-- The comparison on the squares is the comparison of the Euclidean norm with `epsilon`
over the reals. -/
theorem normLt_iff_sqrt_lt (v : Vec3f) (epsilon : ℚ) :
    normLt v epsilon = true ↔
      Real.sqrt ((v 0 : ℝ) ^ 2 + (v 1 : ℝ) ^ 2 + (v 2 : ℝ) ^ 2) < (epsilon : ℝ) := by
  unfold normLt squaredNorm
  rw [decide_eq_true_eq]
  constructor
  · rintro ⟨hpos, hlt⟩
    have hpos1 : (0 : ℝ) < (epsilon : ℝ) := by exact_mod_cast hpos
    rw [Real.sqrt_lt' hpos1]
    exact_mod_cast hlt
  · intro h
    have hpos1 : (0 : ℝ) < (epsilon : ℝ) := lt_of_le_of_lt (Real.sqrt_nonneg _) h
    refine ⟨by exact_mod_cast hpos1, ?_⟩
    rw [Real.sqrt_lt' hpos1] at h
    exact_mod_cast h

/-- The candidate of an iteration whose shuffled list has at least four elements. -/
theorem ransacCandidate_cons4
    (cH : CorrespondencePair → CorrespondencePair → CorrespondencePair →
      CorrespondencePair → Mat3)
    (c0 c1 c2 c3 : FeatureCorrespondence) (rest : List FeatureCorrespondence) (epsilon : ℚ) :
    ransacCandidate cH (c0 :: c1 :: c2 :: c3 :: rest) epsilon =
      Except.ok
        ((if (cH c0.toCorrespondencePair c1.toCorrespondencePair c2.toCorrespondencePair
              c3.toCorrespondencePair).det = 0 then (1 : Mat3)
          else cH c0.toCorrespondencePair c1.toCorrespondencePair c2.toCorrespondencePair
              c3.toCorrespondencePair),
         countInliers (inliers
          (if (cH c0.toCorrespondencePair c1.toCorrespondencePair c2.toCorrespondencePair
              c3.toCorrespondencePair).det = 0 then (1 : Mat3)
          else cH c0.toCorrespondencePair c1.toCorrespondencePair c2.toCorrespondencePair
              c3.toCorrespondencePair) [c0, c1, c2, c3] epsilon)) := by
  have hp : getListOfPairs [c0, c1, c2, c3] =
      Except.ok [c0.toCorrespondencePair, c1.toCorrespondencePair, c2.toCorrespondencePair,
        c3.toCorrespondencePair] := by
    rfl
  unfold ransacCandidate
  simp only [vectorAt, List.getElem?_cons_zero, List.getElem?_cons_succ, hp]
  rfl

theorem ransacCandidate_ok_of_length
    (cH : CorrespondencePair → CorrespondencePair → CorrespondencePair →
      CorrespondencePair → Mat3)
    (l : List FeatureCorrespondence) (epsilon : ℚ) (h : 4 ≤ l.length) :
    ∃ v : Mat3 × Nat, ransacCandidate cH l epsilon = Except.ok v ∧ v.1.det ≠ 0 := by
  match l, h with
  | c0 :: c1 :: c2 :: c3 :: rest, _ =>
    refine ⟨_, ransacCandidate_cons4 cH c0 c1 c2 c3 rest epsilon, ?_⟩
    by_cases hd : (cH c0.toCorrespondencePair c1.toCorrespondencePair
        c2.toCorrespondencePair c3.toCorrespondencePair).det = 0
    · simp [hd]
    · simp [hd]

theorem ransacCandidate_error_of_length
    (cH : CorrespondencePair → CorrespondencePair → CorrespondencePair →
      CorrespondencePair → Mat3)
    (l : List FeatureCorrespondence) (epsilon : ℚ) (h : l.length < 4) :
    ransacCandidate cH l epsilon = Except.error Fault.indexOutOfRange := by
  match l, h with
  | [], _ => rfl
  | [_], _ => rfl
  | [_, _], _ => rfl
  | [_, _, _], _ => rfl

theorem foldlM_range_succ
    (step : Mat3 × Nat → Nat → Except Fault (Mat3 × Nat)) (init st : Mat3 × Nat) (n : Nat)
    (h : (List.range n).foldlM step init = Except.ok st) :
    (List.range (n + 1)).foldlM step init = step st n := by
  rw [List.range_succ, List.foldlM_append, h]
  show (do let s ← step st n; pure s) = step st n
  cases step st n <;> rfl

/-- The state of the loop of `RANSAC` after `n` iterations, when every iteration can read
its four samples: the initial state, or the candidate of the last iteration among those of
the greatest inlier count. -/
theorem ransac_loop_spec
    (cH : CorrespondencePair → CorrespondencePair → CorrespondencePair →
      CorrespondencePair → Mat3)
    (shuffle : Nat → List FeatureCorrespondence → List FeatureCorrespondence)
    (L : List FeatureCorrespondence) (epsilon : ℚ)
    (hok : ∀ k, ∃ v : Mat3 × Nat,
      ransacCandidate cH (sampleFeatureCorrespondences shuffle k L) epsilon = Except.ok v)
    (n : Nat) :
    ∃ st : Mat3 × Nat,
      (List.range n).foldlM (ransacStep cH shuffle L epsilon) ((1 : Mat3), 0) = Except.ok st ∧
      ((n = 0 ∧ st = ((1 : Mat3), 0)) ∨
        ∃ i : Nat, i < n ∧
          ransacCandidate cH (sampleFeatureCorrespondences shuffle i L) epsilon =
            Except.ok st ∧
          (∀ (j : Nat) (v : Mat3 × Nat), j < n →
            ransacCandidate cH (sampleFeatureCorrespondences shuffle j L) epsilon =
              Except.ok v → v.2 ≤ st.2) ∧
          (∀ (j : Nat) (v : Mat3 × Nat), i < j → j < n →
            ransacCandidate cH (sampleFeatureCorrespondences shuffle j L) epsilon =
              Except.ok v → v.2 < st.2)) := by
  induction n with
  | zero => exact ⟨((1 : Mat3), 0), rfl, Or.inl ⟨rfl, rfl⟩⟩
  | succ n ih =>
    obtain ⟨st, hst, hinv⟩ := ih
    obtain ⟨v, hv⟩ := hok n
    rw [foldlM_range_succ _ _ st n hst]
    have hstep : ransacStep cH shuffle L epsilon st n =
        if v.2 ≥ st.2 then Except.ok v else Except.ok st := by
      unfold ransacStep
      simp only [hv]
      rfl
    rw [hstep]
    by_cases hge : v.2 ≥ st.2
    · rw [if_pos hge]
      refine ⟨v, rfl, Or.inr ⟨n, Nat.lt_succ_self n, hv, ?_, ?_⟩⟩
      · intro j w hj hw
        rcases Nat.lt_succ_iff_lt_or_eq.mp hj with hlt | heq
        · rcases hinv with ⟨h0, _⟩ | ⟨i, _, _, hle, _⟩
          · omega
          · exact le_trans (hle j w hlt hw) hge
        · subst heq
          rw [hv] at hw
          cases hw
          exact le_refl _
      · intro j w hnj hj _
        omega
    · rw [if_neg hge]
      refine ⟨st, rfl, Or.inr ?_⟩
      rcases hinv with ⟨_, hst0⟩ | ⟨i, hi, hc, hle, hlt⟩
      · rw [hst0] at hge
        exact absurd (Nat.zero_le _) hge
      · refine ⟨i, Nat.lt_succ_of_lt hi, hc, ?_, ?_⟩
        · intro j w hj hw
          rcases Nat.lt_succ_iff_lt_or_eq.mp hj with hlt1 | heq
          · exact hle j w hlt1 hw
          · subst heq
            rw [hv] at hw
            cases hw
            exact le_of_lt (not_le.mp hge)
        · intro j w hij hj hw
          rcases Nat.lt_succ_iff_lt_or_eq.mp hj with hlt1 | heq
          · exact hlt j w hij hlt1 hw
          · subst heq
            rw [hv] at hw
            cases hw
            exact not_le.mp hge

theorem RANSAC_eq_of_loop
    (cH : CorrespondencePair → CorrespondencePair → CorrespondencePair →
      CorrespondencePair → Mat3)
    (shuffle : Nat → List FeatureCorrespondence → List FeatureCorrespondence)
    (L : List FeatureCorrespondence) (Niter : Int) (epsilon : ℚ) (st : Mat3 × Nat)
    (h : (List.range Niter.toNat).foldlM (ransacStep cH shuffle L epsilon) ((1 : Mat3), 0) =
      Except.ok st) :
    RANSAC cH shuffle L Niter epsilon = Except.ok st.1 := by
  unfold RANSAC
  rw [h]
  rfl

/-- Every iteration can read its four samples when the list has four elements and the
shuffle permutes it. -/
theorem ransacCandidate_ok_of_perm
    (cH : CorrespondencePair → CorrespondencePair → CorrespondencePair →
      CorrespondencePair → Mat3)
    (shuffle : Nat → List FeatureCorrespondence → List FeatureCorrespondence)
    (L : List FeatureCorrespondence) (epsilon : ℚ) (h4 : 4 ≤ L.length)
    (hperm : ∀ k, (shuffle k L).Perm L) (k : Nat) :
    ∃ v : Mat3 × Nat,
      ransacCandidate cH (sampleFeatureCorrespondences shuffle k L) epsilon = Except.ok v ∧
      v.1.det ≠ 0 := by
  apply ransacCandidate_ok_of_length
  unfold sampleFeatureCorrespondences
  rw [(hperm k).length_eq]
  exact h4

theorem translation10_det : translation10.det = 1 := by
  simp [translation10, Matrix.det_fin_three, Matrix.vecHead, Matrix.vecTail]

theorem translation10_ne_one : translation10 ≠ 1 := by
  intro h
  have h02 := congrFun (congrFun h 0) 2
  simp [translation10] at h02

/-- With `epsilon = 0` nothing is an inlier: the candidate fitted to the translated square
is the translation, with inlier count zero. -/
theorem translatedSquare_candidate (k : Nat) :
    ransacCandidate (fun _ _ _ _ => translation10)
      (sampleFeatureCorrespondences (fun _ l => l) k translatedSquare) 0 =
      Except.ok (translation10, 0) := by
  unfold sampleFeatureCorrespondences translatedSquare
  rw [ransacCandidate_cons4]
  simp [translation10_det, inliers_eq_map, normLt, countInliers]

theorem RANSAC_of_nonpos
    (cH : CorrespondencePair → CorrespondencePair → CorrespondencePair →
      CorrespondencePair → Mat3)
    (shuffle : Nat → List FeatureCorrespondence → List FeatureCorrespondence)
    (L : List FeatureCorrespondence) (Niter : Int) (epsilon : ℚ) (h : Niter ≤ 0) :
    RANSAC cH shuffle L Niter epsilon = Except.ok 1 := by
  apply RANSAC_eq_of_loop cH shuffle L Niter epsilon ((1 : Mat3), 0)
  rw [Int.toNat_of_nonpos h]
  rfl

/-- The loop stops at the first iteration that cannot read its four samples. -/
theorem RANSAC_error_of_first
    (cH : CorrespondencePair → CorrespondencePair → CorrespondencePair →
      CorrespondencePair → Mat3)
    (shuffle : Nat → List FeatureCorrespondence → List FeatureCorrespondence)
    (L : List FeatureCorrespondence) (Niter : Int) (epsilon : ℚ) (h : 1 ≤ Niter)
    (herr : ransacCandidate cH (sampleFeatureCorrespondences shuffle 0 L) epsilon =
      Except.error Fault.indexOutOfRange) :
    RANSAC cH shuffle L Niter epsilon = Except.error Fault.indexOutOfRange := by
  obtain ⟨n, hn⟩ : ∃ n, Niter.toNat = n + 1 := ⟨Niter.toNat - 1, by omega⟩
  have hstep : ransacStep cH shuffle L epsilon ((1 : Mat3), 0) 0 =
      Except.error Fault.indexOutOfRange := by
    unfold ransacStep
    simp only [herr]
    rfl
  unfold RANSAC
  rw [hn, List.range_succ_eq_map, List.foldlM_cons, hstep]
  rfl

/-! ## Properties of the feature matcher -/

/-- C1, as stated, fails: with both distances at or above the sentinel 5000000 the code
accepts nothing, while the quotient of the two least distances (16/9) reaches the squared
threshold 1. -/
theorem findCorrespondences_ratio_test_counterexample :
    2 ≤ [Feature.single 1 1 3000, Feature.single 2 2 4000].length ∧
    findCorrespondences [Feature.single 0 0 0]
      [Feature.single 1 1 3000, Feature.single 2 2 4000] 1 = [] ∧
    ratioTestMatches [Feature.single 0 0 0]
      [Feature.single 1 1 3000, Feature.single 2 2 4000] 1 =
      [FeatureCorrespondence.mk (Feature.single 0 0 0) (Feature.single 1 1 3000)] := by
  refine ⟨by simp, ?_, ?_⟩
  · norm_num [findCorrespondences, scan, scanStep, scanInit, accepts, l2Features_single]
  · have hb : bestDistance (Feature.single 0 0 0)
        [Feature.single 1 1 3000, Feature.single 2 2 4000] = 9000000 := by
      norm_num [bestDistance, sortedDistances, l2Features_single, List.orderedInsert]
    have hs : secondBestDistance (Feature.single 0 0 0)
        [Feature.single 1 1 3000, Feature.single 2 2 4000] = 16000000 := by
      norm_num [secondBestDistance, sortedDistances, l2Features_single, List.orderedInsert]
    have hf : firstNearest (Feature.single 0 0 0)
        [Feature.single 1 1 3000, Feature.single 2 2 4000] =
        some (Feature.single 1 1 3000) := by
      norm_num [firstNearest, hb, l2Features_single]
    simp only [ratioTestMatches, List.filterMap_cons, List.filterMap_nil, hb, hs, hf]
    norm_num [fdiv, FloatQuotient.ge]

/-- C1 (amended): when `B` has at least two features and every distance from a feature of
`A` to a feature of `B` is below the sentinel 5000000, `findCorrespondences` pairs a feature
`fA` with the first feature of `B` at the smallest distance exactly when the float quotient
of the second-smallest by the smallest distance (counted with multiplicity) is at least the
squared threshold; the quotient by a zero smallest distance is `+inf` (accepted) when the
second-smallest is positive and NaN (rejected) when it is zero. -/
theorem findCorrespondences_ratio_test (A B : List Feature) (threshold : ℚ)
    (h2 : 2 ≤ B.length)
    (hs : ∀ fA ∈ A, ∀ fB ∈ B, l2Features fA fB < 5000000) :
    findCorrespondences A B threshold = ratioTestMatches A B threshold := by
  rw [findCorrespondences_eq_filterMap]
  unfold ratioTestMatches
  apply filterMap_congr_mem
  intro fA hA
  obtain ⟨hw, hb, hsec, hfirst⟩ := scan_eq_reference fA B h2 (hs fA hA)
  simp only [accepts, hw, Bool.and_true, hb, hsec, hfirst, Option.map_some']

/-- Witness of C1 (amended): one feature matched against two features at the distances
1 and 4. -/
theorem findCorrespondences_ratio_test_witness :
    2 ≤ [Feature.single 1 1 1, Feature.single 2 2 2].length ∧
    findCorrespondences [Feature.single 0 0 0] [Feature.single 1 1 1, Feature.single 2 2 2] 1 =
      ratioTestMatches [Feature.single 0 0 0] [Feature.single 1 1 1, Feature.single 2 2 2] 1 :=
  ⟨by simp, findCorrespondences_ratio_test _ _ _ (by simp)
    (by
      intro fA hA fB hB
      simp only [List.mem_singleton] at hA
      simp only [List.mem_cons, List.mem_singleton, List.not_mem_nil, or_false] at hB
      subst hA
      rcases hB with rfl | rfl <;> norm_num [l2Features_single])⟩

/-- C2: every correspondence `(fA, f2)` returned by `findCorrespondences` has for `f2` the
first feature of `B` at the least distance from `fA`: `f2` stands at some position `i` of
`B`, no feature of `B` is nearer to `fA`, and every feature before position `i` is strictly
farther; and a step of the scan on a feature at a distance equal to the current best
distance leaves the best feature and the best distance as they are. -/
theorem findCorrespondences_tie_break (A B : List Feature) (threshold : ℚ)
    (c : FeatureCorrespondence) (hc : c ∈ findCorrespondences A B threshold) :
    (c.f1 ∈ A ∧ ∃ i : Nat, B[i]? = some c.f2 ∧
      (∀ (j : Nat) (f : Feature), B[j]? = some f →
        l2Features c.f1 c.f2 ≤ l2Features c.f1 f) ∧
      (∀ (j : Nat) (f : Feature), j < i → B[j]? = some f →
        l2Features c.f1 c.f2 < l2Features c.f1 f)) ∧
    (∀ (s : ScanState) (f : Feature), l2Features c.f1 f = s.best_dif →
      (scanStep c.f1 s f).best_feature = s.best_feature ∧
      (scanStep c.f1 s f).best_dif = s.best_dif) := by
  refine ⟨?_, fun s f hf => scanStep_tie c.f1 s f hf⟩
  rw [findCorrespondences_eq_filterMap, List.mem_filterMap] at hc
  obtain ⟨fA, hA, hacc⟩ := hc
  by_cases h : accepts (scan fA B) (threshold ^ 2) = true
  · rw [if_pos h] at hacc
    have hc : c = FeatureCorrespondence.mk fA (scan fA B).best_feature :=
      (Option.some.inj hacc).symm
    subst hc
    refine ⟨hA, ?_⟩
    rcases scan_best_spec fA B with ⟨hw0, _, _⟩ | ⟨_, _, i, hi, hd, hle, hlt⟩
    · have hw : (scan fA B).was_set = true := by
        unfold accepts at h
        rw [Bool.and_eq_true] at h
        exact h.2
      rw [hw] at hw0; cases hw0
    · exact ⟨i, hi, fun j f hj => hd ▸ hle j f hj, fun j f hji hj => hd ▸ hlt j f hji hj⟩
  · rw [if_neg h] at hacc; cases hacc

/-- Witness of C2: two features of `B` at the same distance 1 from `fA`; the first one is
the match. -/
theorem findCorrespondences_tie_break_witness :
    FeatureCorrespondence.mk (Feature.single 0 0 0) (Feature.single 1 1 1) ∈
      findCorrespondences [Feature.single 0 0 0]
        [Feature.single 1 1 1, Feature.single 2 2 1] 1 ∧
    ∃ i : Nat, [Feature.single 1 1 1, Feature.single 2 2 1][i]? =
        some (Feature.single 1 1 1) ∧
      (∀ (j : Nat) (f : Feature), [Feature.single 1 1 1, Feature.single 2 2 1][j]? = some f →
        l2Features (Feature.single 0 0 0) (Feature.single 1 1 1) ≤
          l2Features (Feature.single 0 0 0) f) ∧
      (∀ (j : Nat) (f : Feature), j < i →
        [Feature.single 1 1 1, Feature.single 2 2 1][j]? = some f →
        l2Features (Feature.single 0 0 0) (Feature.single 1 1 1) <
          l2Features (Feature.single 0 0 0) f) :=
  have hmem : FeatureCorrespondence.mk (Feature.single 0 0 0) (Feature.single 1 1 1) ∈
      findCorrespondences [Feature.single 0 0 0]
        [Feature.single 1 1 1, Feature.single 2 2 1] 1 := by
    norm_num [findCorrespondences, scan, scanStep, scanInit, accepts, l2Features_single,
      fdiv, FloatQuotient.ge]
  ⟨hmem, (findCorrespondences_tie_break _ _ 1 _ hmem).1.2⟩

/-- C3, as stated, fails: the threshold is squared, so the negative threshold -3 rejects a
match (quotient 4 < 9) that the larger threshold 1 accepts. -/
theorem findCorrespondences_monotone_counterexample :
    (-3 : ℚ) ≤ 1 ∧
    (findCorrespondences [Feature.single 0 0 0]
      [Feature.single 1 1 1, Feature.single 2 2 2] (-3)).length <
    (findCorrespondences [Feature.single 0 0 0]
      [Feature.single 1 1 1, Feature.single 2 2 2] 1).length := by
  refine ⟨by norm_num, ?_⟩
  have h1 : findCorrespondences [Feature.single 0 0 0]
      [Feature.single 1 1 1, Feature.single 2 2 2] (-3) = [] := by
    norm_num [findCorrespondences, scan, scanStep, scanInit, accepts, l2Features_single,
      fdiv, FloatQuotient.ge]
  have h2 : findCorrespondences [Feature.single 0 0 0]
      [Feature.single 1 1 1, Feature.single 2 2 2] 1 =
      [FeatureCorrespondence.mk (Feature.single 0 0 0) (Feature.single 1 1 1)] := by
    norm_num [findCorrespondences, scan, scanStep, scanInit, accepts, l2Features_single,
      fdiv, FloatQuotient.ge]
  rw [h1, h2]; simp

/-- C3 (amended): for every pair of feature lists `A` and `B` and every two non-negative
thresholds `t1 <= t2`, the number of correspondences returned with threshold `t2` is less
than or equal to the number returned with threshold `t1`. -/
theorem findCorrespondences_monotone (A B : List Feature) (t1 t2 : ℚ)
    (h0 : 0 ≤ t1) (h : t1 ≤ t2) :
    (findCorrespondences A B t2).length ≤ (findCorrespondences A B t1).length :=
  (findCorrespondences_sublist_of_sq_le A B t1 t2 (pow_le_pow_left₀ h0 h 2)).length_le

/-- Witness of C3 (amended): thresholds 1 and 3 on one feature matched against two. -/
theorem findCorrespondences_monotone_witness :
    (0 : ℚ) ≤ 1 ∧ (1 : ℚ) ≤ 3 ∧
    (findCorrespondences [Feature.single 0 0 0]
      [Feature.single 1 1 1, Feature.single 2 2 2] 3).length ≤
    (findCorrespondences [Feature.single 0 0 0]
      [Feature.single 1 1 1, Feature.single 2 2 2] 1).length :=
  ⟨by norm_num, by norm_num,
    findCorrespondences_monotone _ _ 1 3 (by norm_num) (by norm_num)⟩

/-- C4: the first features of the correspondences returned by `findCorrespondences` form a
subsequence of `A` in the order of `A`, the output is no longer than `A`, the second feature
of every correspondence is an element of `B`, and two distinct features of `A` may be
matched to the same feature of `B`. -/
theorem findCorrespondences_shape (A B : List Feature) (threshold : ℚ) :
    ((findCorrespondences A B threshold).map FeatureCorrespondence.f1).Sublist A ∧
    (findCorrespondences A B threshold).length ≤ A.length ∧
    (∀ c ∈ findCorrespondences A B threshold, c.f2 ∈ B) ∧
    (∃ (A1 B1 : List Feature) (t : ℚ) (a1 a2 b : Feature), a1 ≠ a2 ∧
      findCorrespondences A1 B1 t =
        [FeatureCorrespondence.mk a1 b, FeatureCorrespondence.mk a2 b]) := by
  refine ⟨?_, ?_, ?_, ?_⟩
  · rw [findCorrespondences_eq_filterMap, List.map_filterMap]
    have hfun : (fun x => Option.map FeatureCorrespondence.f1
        (if accepts (scan x B) (threshold ^ 2) = true then
          some (FeatureCorrespondence.mk x (scan x B).best_feature) else none)) =
        Option.guard (fun x => accepts (scan x B) (threshold ^ 2) = true) := by
      funext x
      by_cases h : accepts (scan x B) (threshold ^ 2) = true <;> simp [Option.guard, h]
    rw [hfun, List.filterMap_eq_filter]
    exact List.filter_sublist A
  · rw [findCorrespondences_eq_filterMap]
    exact List.length_filterMap_le _ _
  · intro c hc
    rw [findCorrespondences_eq_filterMap, List.mem_filterMap] at hc
    obtain ⟨fA, _, hacc⟩ := hc
    by_cases h : accepts (scan fA B) (threshold ^ 2) = true
    · rw [if_pos h] at hacc
      have hc : c = FeatureCorrespondence.mk fA (scan fA B).best_feature :=
        (Option.some.inj hacc).symm
      subst hc
      rcases scan_best_spec fA B with ⟨hw0, _, _⟩ | ⟨_, _, i, hi, _⟩
      · have hw : (scan fA B).was_set = true := by
          unfold accepts at h
          rw [Bool.and_eq_true] at h
          exact h.2
        rw [hw] at hw0; cases hw0
      · exact List.getElem?_mem hi
    · rw [if_neg h] at hacc; cases hacc
  · refine ⟨[Feature.single 0 0 0, Feature.single 5 5 0],
      [Feature.single 1 1 1, Feature.single 2 2 3], 1,
      Feature.single 0 0 0, Feature.single 5 5 0, Feature.single 1 1 1, ?_, ?_⟩
    · intro h
      have hx := congrArg (fun f => f.point.x) h
      simp [Feature.single] at hx
    · norm_num [findCorrespondences, scan, scanStep, scanInit, accepts, l2Features_single,
        fdiv, FloatQuotient.ge]

/-! ## Properties of the inlier test and RANSAC -/

/-- C5: `inliers H L epsilon` has the length of `L`, and its `i`-th entry is true exactly
when the Euclidean norm of `H * (x1, y1, 1) - (x2, y2, 1)` is strictly below `epsilon`,
where `(x1, y1)` and `(x2, y2)` are the points of the first and second feature of `L[i]`;
so `H` maps the first point of every flagged correspondence within `epsilon` of the
second. -/
theorem inliers_mask (H : Mat3) (L : List FeatureCorrespondence) (epsilon : ℚ) :
    (inliers H L epsilon).length = L.length ∧
    ∀ (i : Nat) (c : FeatureCorrespondence), L[i]? = some c →
      ∃ b : Bool, (inliers H L epsilon)[i]? = some b ∧
        (b = true ↔
          Real.sqrt
            ((((H.mulVec ![(c.f1.point.x : ℚ), (c.f1.point.y : ℚ), 1] -
                  ![(c.f2.point.x : ℚ), (c.f2.point.y : ℚ), 1]) 0 : ℚ) : ℝ) ^ 2 +
              (((H.mulVec ![(c.f1.point.x : ℚ), (c.f1.point.y : ℚ), 1] -
                  ![(c.f2.point.x : ℚ), (c.f2.point.y : ℚ), 1]) 1 : ℚ) : ℝ) ^ 2 +
              (((H.mulVec ![(c.f1.point.x : ℚ), (c.f1.point.y : ℚ), 1] -
                  ![(c.f2.point.x : ℚ), (c.f2.point.y : ℚ), 1]) 2 : ℚ) : ℝ) ^ 2) <
            (epsilon : ℝ)) := by
  rw [inliers_eq_map]
  refine ⟨List.length_map _ _, ?_⟩
  intro i c hc
  refine ⟨normLt (H.mulVec c.toCorrespondencePair.point1 - c.toCorrespondencePair.point2)
    epsilon, ?_, ?_⟩
  · rw [List.getElem?_map, hc]; rfl
  · exact normLt_iff_sqrt_lt _ epsilon

/-- Witness of C5: the translation by `(10, 0)` on one correspondence `(0,0) → (10,0)`. -/
theorem inliers_mask_witness :
    ∃ b : Bool, (inliers !![1, 0, 10; 0, 1, 0; 0, 0, 1]
        [FeatureCorrespondence.mk (Feature.single 0 0 0) (Feature.single 10 0 0)] 1)[0]? =
        some b ∧
      (b = true ↔
        Real.sqrt
          (((((!![1, 0, 10; 0, 1, 0; 0, 0, 1] : Mat3).mulVec
                ![((Feature.single 0 0 0).point.x : ℚ), ((Feature.single 0 0 0).point.y : ℚ), 1] -
              ![((Feature.single 10 0 0).point.x : ℚ), ((Feature.single 10 0 0).point.y : ℚ), 1])
                0 : ℚ) : ℝ) ^ 2 +
            ((((!![1, 0, 10; 0, 1, 0; 0, 0, 1] : Mat3).mulVec
                ![((Feature.single 0 0 0).point.x : ℚ), ((Feature.single 0 0 0).point.y : ℚ), 1] -
              ![((Feature.single 10 0 0).point.x : ℚ), ((Feature.single 10 0 0).point.y : ℚ), 1])
                1 : ℚ) : ℝ) ^ 2 +
            ((((!![1, 0, 10; 0, 1, 0; 0, 0, 1] : Mat3).mulVec
                ![((Feature.single 0 0 0).point.x : ℚ), ((Feature.single 0 0 0).point.y : ℚ), 1] -
              ![((Feature.single 10 0 0).point.x : ℚ), ((Feature.single 10 0 0).point.y : ℚ), 1])
                2 : ℚ) : ℝ) ^ 2) <
          ((1 : ℚ) : ℝ)) :=
  (inliers_mask !![1, 0, 10; 0, 1, 0; 0, 0, 1]
    [FeatureCorrespondence.mk (Feature.single 0 0 0) (Feature.single 10 0 0)] 1).2 0
    (FeatureCorrespondence.mk (Feature.single 0 0 0) (Feature.single 10 0 0)) rfl

/-- C6: for a correspondence list with at least four elements, whatever the shuffles and
the results of the four-point solver, `RANSAC` returns a matrix and its determinant is not
zero. -/
theorem RANSAC_nonsingular
    (computeHomography : CorrespondencePair → CorrespondencePair → CorrespondencePair →
      CorrespondencePair → Mat3)
    (random_shuffle : Nat → List FeatureCorrespondence → List FeatureCorrespondence)
    (L : List FeatureCorrespondence) (Niter : Int) (epsilon : ℚ)
    (h4 : 4 ≤ L.length) (hperm : ∀ k, (random_shuffle k L).Perm L) :
    ∃ H : Mat3, RANSAC computeHomography random_shuffle L Niter epsilon = Except.ok H ∧
      H.det ≠ 0 := by
  have hok := fun k =>
    ransacCandidate_ok_of_perm computeHomography random_shuffle L epsilon h4 hperm k
  obtain ⟨st, hst, hinv⟩ := ransac_loop_spec computeHomography random_shuffle L epsilon
    (fun k => (hok k).imp fun _ h => h.1) Niter.toNat
  refine ⟨st.1, RANSAC_eq_of_loop _ _ _ _ _ st hst, ?_⟩
  rcases hinv with ⟨_, h1⟩ | ⟨i, _, hc, _, _⟩
  · rw [h1]; simp
  · obtain ⟨v, hv, hdet⟩ := hok i
    rw [hc] at hv
    cases hv
    exact hdet

/-- Witness of C6: a solver that returns the zero matrix on every sample; `RANSAC`
still returns a matrix of non-zero determinant. -/
theorem RANSAC_nonsingular_witness :
    4 ≤ translatedSquare.length ∧
    ∃ H : Mat3, RANSAC (fun _ _ _ _ => 0) (fun _ l => l) translatedSquare 3 1 = Except.ok H ∧
      H.det ≠ 0 :=
  ⟨by simp [translatedSquare],
    RANSAC_nonsingular (fun _ _ _ _ => 0) (fun _ l => l) translatedSquare 3 1
      (by simp [translatedSquare]) (fun _ => List.Perm.refl _)⟩

/-- C7: for a correspondence list with at least four elements and `Niter >= 1`, whatever
the shuffles, every iteration yields a candidate, and `RANSAC` returns the candidate of an
iteration `i` whose inlier count is the greatest over all iterations; every later iteration
has a strictly smaller count, so among the iterations of the greatest count `i` is the
last. -/
theorem RANSAC_selects_last_best
    (computeHomography : CorrespondencePair → CorrespondencePair → CorrespondencePair →
      CorrespondencePair → Mat3)
    (random_shuffle : Nat → List FeatureCorrespondence → List FeatureCorrespondence)
    (L : List FeatureCorrespondence) (Niter : Int) (epsilon : ℚ)
    (h4 : 4 ≤ L.length) (hperm : ∀ k, (random_shuffle k L).Perm L) (hN : 1 ≤ Niter) :
    (∀ k : Nat, ∃ v : Mat3 × Nat,
      ransacCandidate computeHomography (sampleFeatureCorrespondences random_shuffle k L)
        epsilon = Except.ok v) ∧
    ∃ (i : Nat) (H : Mat3) (count : Nat), (i : Int) < Niter ∧
      RANSAC computeHomography random_shuffle L Niter epsilon = Except.ok H ∧
      ransacCandidate computeHomography (sampleFeatureCorrespondences random_shuffle i L)
        epsilon = Except.ok (H, count) ∧
      (∀ (j : Nat) (v : Mat3 × Nat), (j : Int) < Niter →
        ransacCandidate computeHomography (sampleFeatureCorrespondences random_shuffle j L)
          epsilon = Except.ok v → v.2 ≤ count) ∧
      (∀ (j : Nat) (v : Mat3 × Nat), i < j → (j : Int) < Niter →
        ransacCandidate computeHomography (sampleFeatureCorrespondences random_shuffle j L)
          epsilon = Except.ok v → v.2 < count) := by
  have hok : ∀ k : Nat, ∃ v : Mat3 × Nat,
      ransacCandidate computeHomography (sampleFeatureCorrespondences random_shuffle k L)
        epsilon = Except.ok v := fun k =>
    (ransacCandidate_ok_of_perm computeHomography random_shuffle L epsilon h4 hperm k).imp
      fun _ h => h.1
  refine ⟨hok, ?_⟩
  obtain ⟨st, hst, hinv⟩ :=
    ransac_loop_spec computeHomography random_shuffle L epsilon hok Niter.toNat
  rcases hinv with ⟨h0, _⟩ | ⟨i, hi, hc, hle, hlt⟩
  · omega
  · refine ⟨i, st.1, st.2, by omega, RANSAC_eq_of_loop _ _ _ _ _ st hst, hc, ?_, ?_⟩
    · intro j v hj hv
      exact hle j v (by omega) hv
    · intro j v hij hj hv
      exact hlt j v hij (by omega) hv

/-- Witness of C7: three iterations on four correspondences. -/
theorem RANSAC_selects_last_best_witness :
    4 ≤ translatedSquare.length ∧ (1 : Int) ≤ 3 ∧
    ∃ (i : Nat) (H : Mat3) (count : Nat), (i : Int) < 3 ∧
      RANSAC (fun _ _ _ _ => translation10) (fun _ l => l) translatedSquare 3 1 =
        Except.ok H ∧
      ransacCandidate (fun _ _ _ _ => translation10)
        (sampleFeatureCorrespondences (fun _ l => l) i translatedSquare) 1 =
        Except.ok (H, count) ∧
      (∀ (j : Nat) (v : Mat3 × Nat), (j : Int) < 3 →
        ransacCandidate (fun _ _ _ _ => translation10)
          (sampleFeatureCorrespondences (fun _ l => l) j translatedSquare) 1 =
          Except.ok v → v.2 ≤ count) ∧
      (∀ (j : Nat) (v : Mat3 × Nat), i < j → (j : Int) < 3 →
        ransacCandidate (fun _ _ _ _ => translation10)
          (sampleFeatureCorrespondences (fun _ l => l) j translatedSquare) 1 =
          Except.ok v → v.2 < count) :=
  ⟨by simp [translatedSquare], by decide,
    (RANSAC_selects_last_best (fun _ _ _ _ => translation10) (fun _ l => l)
      translatedSquare 3 1 (by simp [translatedSquare]) (fun _ => List.Perm.refl _)
      (by decide)).2⟩

/-- C8, as stated, fails: with `epsilon = 0` no candidate has an inlier, yet `RANSAC`
returns the candidate of its single iteration, the translation by `(10, 0)`, which is not
the identity. -/
theorem RANSAC_identity_default_counterexample :
    4 ≤ translatedSquare.length ∧
    (∀ k : Nat, ransacCandidate (fun _ _ _ _ => translation10)
      (sampleFeatureCorrespondences (fun _ l => l) k translatedSquare) 0 =
      Except.ok (translation10, 0)) ∧
    RANSAC (fun _ _ _ _ => translation10) (fun _ l => l) translatedSquare 1 0 =
      Except.ok translation10 ∧
    translation10 ≠ 1 := by
  refine ⟨by simp [translatedSquare], translatedSquare_candidate, ?_, translation10_ne_one⟩
  apply RANSAC_eq_of_loop _ _ _ 1 0 (translation10, 0)
  have h1 : (1 : Int).toNat = 0 + 1 := rfl
  rw [h1, foldlM_range_succ _ _ ((1 : Mat3), 0) 0 rfl]
  unfold ransacStep
  simp only [translatedSquare_candidate]
  rfl

/-- C8 (amended): for a correspondence list with at least four elements, if no iteration's
candidate reaches an inlier count greater than zero, then `RANSAC` returns the identity
when `Niter <= 0` (no iteration runs) and otherwise the candidate of the last iteration,
which is the fitted matrix, or the identity when the fit was singular. -/
theorem RANSAC_zero_inliers
    (computeHomography : CorrespondencePair → CorrespondencePair → CorrespondencePair →
      CorrespondencePair → Mat3)
    (random_shuffle : Nat → List FeatureCorrespondence → List FeatureCorrespondence)
    (L : List FeatureCorrespondence) (Niter : Int) (epsilon : ℚ)
    (h4 : 4 ≤ L.length) (hperm : ∀ k, (random_shuffle k L).Perm L)
    (hzero : ∀ (k : Nat) (v : Mat3 × Nat), (k : Int) < Niter →
      ransacCandidate computeHomography (sampleFeatureCorrespondences random_shuffle k L)
        epsilon = Except.ok v → v.2 = 0) :
    (Niter ≤ 0 → RANSAC computeHomography random_shuffle L Niter epsilon = Except.ok 1) ∧
    (1 ≤ Niter → ∃ H : Mat3,
      ransacCandidate computeHomography
        (sampleFeatureCorrespondences random_shuffle (Niter.toNat - 1) L) epsilon =
        Except.ok (H, 0) ∧
      RANSAC computeHomography random_shuffle L Niter epsilon = Except.ok H) := by
  refine ⟨RANSAC_of_nonpos _ _ _ _ _, ?_⟩
  intro hN
  have hok : ∀ k : Nat, ∃ v : Mat3 × Nat,
      ransacCandidate computeHomography (sampleFeatureCorrespondences random_shuffle k L)
        epsilon = Except.ok v := fun k =>
    (ransacCandidate_ok_of_perm computeHomography random_shuffle L epsilon h4 hperm k).imp
      fun _ h => h.1
  obtain ⟨st, hst, hinv⟩ :=
    ransac_loop_spec computeHomography random_shuffle L epsilon hok Niter.toNat
  rcases hinv with ⟨h0, _⟩ | ⟨i, hi, hc, _, hlt⟩
  · omega
  · have hst0 : st.2 = 0 := hzero i st (by omega) hc
    have hlast : i = Niter.toNat - 1 := by
      by_contra hne
      obtain ⟨v, hv⟩ := hok (Niter.toNat - 1)
      have := hlt (Niter.toNat - 1) v (by omega) (by omega) hv
      omega
    refine ⟨st.1, ?_, RANSAC_eq_of_loop _ _ _ _ _ st hst⟩
    rw [← hlast, hc, ← hst0]

/-- Witness of C8 (amended): two iterations with `epsilon = 0` on the translated square. -/
theorem RANSAC_zero_inliers_witness :
    4 ≤ translatedSquare.length ∧ (1 : Int) ≤ 2 ∧
    ∃ H : Mat3,
      ransacCandidate (fun _ _ _ _ => translation10)
        (sampleFeatureCorrespondences (fun _ l => l) ((2 : Int).toNat - 1) translatedSquare)
        0 = Except.ok (H, 0) ∧
      RANSAC (fun _ _ _ _ => translation10) (fun _ l => l) translatedSquare 2 0 =
        Except.ok H :=
  ⟨by simp [translatedSquare], by decide,
    (RANSAC_zero_inliers (fun _ _ _ _ => translation10) (fun _ l => l) translatedSquare 2 0
      (by simp [translatedSquare]) (fun _ => List.Perm.refl _)
      (fun k v _ hv => by
        rw [translatedSquare_candidate k] at hv
        cases hv
        rfl)).2 (by decide)⟩

/-- C9, as stated, fails: on the empty list `RANSAC` with `Niter = 0` returns the identity
matrix, and with `Niter = 1` it reads the shuffled list out of range; in neither case is a
failure reported. -/
theorem RANSAC_insufficient_counterexample :
    RANSAC (fun _ _ _ _ => translation10) (fun _ l => l) [] 0 4 = Except.ok 1 ∧
    RANSAC (fun _ _ _ _ => translation10) (fun _ l => l) [] 1 4 =
      Except.error Fault.indexOutOfRange :=
  ⟨RANSAC_of_nonpos _ _ _ _ _ (le_refl 0),
    RANSAC_error_of_first _ _ _ _ _ (le_refl 1) rfl⟩

/-- C9 (amended): for a correspondence list with fewer than four elements `RANSAC` reports
no failure of its own: with `Niter <= 0` no iteration runs and it returns the identity
matrix, and with `Niter >= 1` the first iteration reads the shuffled list at an index that
is out of range. -/
theorem RANSAC_insufficient
    (computeHomography : CorrespondencePair → CorrespondencePair → CorrespondencePair →
      CorrespondencePair → Mat3)
    (random_shuffle : Nat → List FeatureCorrespondence → List FeatureCorrespondence)
    (L : List FeatureCorrespondence) (Niter : Int) (epsilon : ℚ)
    (h : L.length < 4) (hperm : ∀ k, (random_shuffle k L).Perm L) :
    (Niter ≤ 0 → RANSAC computeHomography random_shuffle L Niter epsilon = Except.ok 1) ∧
    (1 ≤ Niter → RANSAC computeHomography random_shuffle L Niter epsilon =
      Except.error Fault.indexOutOfRange) := by
  refine ⟨RANSAC_of_nonpos _ _ _ _ _, ?_⟩
  intro hN
  apply RANSAC_error_of_first _ _ _ _ _ hN
  apply ransacCandidate_error_of_length
  unfold sampleFeatureCorrespondences
  rw [(hperm 0).length_eq]
  exact h

/-- Witness of C9 (amended): one iteration on a list of three correspondences. -/
theorem RANSAC_insufficient_witness :
    (translatedSquare.take 3).length < 4 ∧
    RANSAC (fun _ _ _ _ => translation10) (fun _ l => l) (translatedSquare.take 3) 1 4 =
      Except.error Fault.indexOutOfRange :=
  ⟨by simp [translatedSquare],
    (RANSAC_insufficient (fun _ _ _ _ => translation10) (fun _ l => l)
      (translatedSquare.take 3) 1 4 (by simp [translatedSquare])
      (fun _ => List.Perm.refl _)).2 (le_refl 1)⟩

/-! ## Properties of the corner scorer -/

/-- C10: with a blur that keeps the width and height of its argument, the response map of
`cornerResponse` has the width and height of the input; at every pixel `(x, y)` of the
image, with `(xx, xy, yy)` the three channels of `computeTensor` at `(x, y)` and
`R = (xx*yy - xy*xy) - k*(xx + yy)^2`, the response equals `R` when `R > 0` and `0`
otherwise; and no response value is negative. -/
theorem cornerResponse_value (lib : ImageLib) (im : Image) (k sigmaG factorSigma : ℚ)
    (hblur : ∀ (img : Image) (s : ℚ),
      (lib.gaussianBlur_separable img s).width = img.width ∧
      (lib.gaussianBlur_separable img s).height = img.height) :
    (cornerResponse lib im k sigmaG factorSigma).width = im.width ∧
    (cornerResponse lib im k sigmaG factorSigma).height = im.height ∧
    (∀ x y : Nat, x < im.width → y < im.height →
      (cornerResponse lib im k sigmaG factorSigma).pix x y 0 =
        if ((computeTensor lib im sigmaG factorSigma).pix x y 0 *
              (computeTensor lib im sigmaG factorSigma).pix x y 2 -
            (computeTensor lib im sigmaG factorSigma).pix x y 1 *
              (computeTensor lib im sigmaG factorSigma).pix x y 1) -
            k * ((computeTensor lib im sigmaG factorSigma).pix x y 0 +
              (computeTensor lib im sigmaG factorSigma).pix x y 2) ^ 2 > 0
        then
          ((computeTensor lib im sigmaG factorSigma).pix x y 0 *
              (computeTensor lib im sigmaG factorSigma).pix x y 2 -
            (computeTensor lib im sigmaG factorSigma).pix x y 1 *
              (computeTensor lib im sigmaG factorSigma).pix x y 1) -
            k * ((computeTensor lib im sigmaG factorSigma).pix x y 0 +
              (computeTensor lib im sigmaG factorSigma).pix x y 2) ^ 2
        else 0) ∧
    (∀ (x y : Int) (c : Nat), 0 ≤ (cornerResponse lib im k sigmaG factorSigma).pix x y c) := by
  refine ⟨(cornerResponse_dims lib im k sigmaG factorSigma).1,
    (cornerResponse_dims lib im k sigmaG factorSigma).2, ?_,
    cornerResponse_nonneg lib im k sigmaG factorSigma⟩
  intro x y hx hy
  obtain ⟨hw, hh⟩ := computeTensor_dims lib im sigmaG factorSigma hblur
  unfold cornerResponse
  simp only []
  rw [score_loop_pix (fun i j => harrisR (computeTensor lib im sigmaG factorSigma) k i j),
    hw, hh]
  simp only [List.mem_range, hx, hy, true_and, harrisR_eq, Image.zeros, gt_iff_lt]

/-- Witness of C10: the library of identity filters on a 1×1 image of value 1 with
`k = -1`: every channel of the tensor is 1, `R = (1*1 - 1*1) + (1 + 1)^2 = 4 > 0`, and the
response is 4. -/
theorem cornerResponse_value_witness :
    (cornerResponse ImageLib.identity
      { width := 1, height := 1, channels := 1, pix := fun _ _ _ => 1 } (-1) 1 1).pix 0 0 0 =
      4 := by
  have h := (cornerResponse_value ImageLib.identity
    { width := 1, height := 1, channels := 1, pix := fun _ _ _ => 1 } (-1) 1 1
    (fun _ _ => ⟨rfl, rfl⟩)).2.2.1 0 0 (by decide) (by decide)
  have hT : ∀ c : Nat, c < 3 → (computeTensor ImageLib.identity
      { width := 1, height := 1, channels := 1, pix := fun _ _ _ => 1 } 1 1).pix 0 0 c = 1 := by
    intro c hc
    interval_cases c <;>
      simp [computeTensor, ImageLib.identity, Image.set, Image.zeros, List.range_succ]
  simp only [Nat.cast_zero] at h
  rw [h, hT 0 (by decide), hT 1 (by decide), hT 2 (by decide)]
  norm_num

/-! ## Facts about the descriptor distance -/

theorem foldl_add_eq_sum (f : Nat → ℚ) (n : Nat) (init : ℚ) :
    (List.range n).foldl (fun (dist : ℚ) (j : Nat) => dist + f j) init =
      init + ∑ j ∈ Finset.range n, f j := by
  induction n with
  | zero => simp
  | succ n ih =>
    rw [List.range_succ, List.foldl_append, ih, Finset.sum_range_succ]
    simp [add_assoc]

theorem foldl_foldl_add_eq_sum (f : Nat → Nat → ℚ) (h w : Nat) (init : ℚ) :
    (List.range w).foldl
      (fun (dist : ℚ) (i : Nat) =>
        (List.range h).foldl (fun (dist : ℚ) (j : Nat) => dist + f i j) dist) init =
      init + ∑ i ∈ Finset.range w, ∑ j ∈ Finset.range h, f i j := by
  induction w with
  | zero => simp
  | succ w ih =>
    rw [List.range_succ, List.foldl_append, ih, Finset.sum_range_succ]
    simp [foldl_add_eq_sum, add_assoc]

/-- The accumulation loops of `l2Features` as a double sum. -/
theorem l2Features_eq_sum (f1 f2 : Feature) :
    l2Features f1 f2 =
      ∑ i ∈ Finset.range f1.desc.width, ∑ j ∈ Finset.range f1.desc.height,
        (f1.desc.pix (i : Int) (j : Int) 0 - f2.desc.pix (i : Int) (j : Int) 0) ^ 2 := by
  unfold l2Features
  rw [foldl_foldl_add_eq_sum
    (fun i j => (f1.desc.pix (i : Int) (j : Int) 0 - f2.desc.pix (i : Int) (j : Int) 0) ^ 2)]
  simp

/-! ## Properties of the descriptor distance -/

/-- C16: for two features whose descriptors have the same width and height,
`l2Features f1 f2` is the sum over all descriptor positions `(i, j)` of
`(f1.desc(i,j) - f2.desc(i,j))^2`; it is non-negative, symmetric in its two arguments, and
zero when the two descriptors are equal. -/
theorem l2Features_distance (f1 f2 : Feature)
    (hw : f1.desc.width = f2.desc.width) (hh : f1.desc.height = f2.desc.height) :
    l2Features f1 f2 =
      ∑ i ∈ Finset.range f1.desc.width, ∑ j ∈ Finset.range f1.desc.height,
        (f1.desc.pix (i : Int) (j : Int) 0 - f2.desc.pix (i : Int) (j : Int) 0) ^ 2 ∧
    0 ≤ l2Features f1 f2 ∧
    l2Features f1 f2 = l2Features f2 f1 ∧
    (f1.desc = f2.desc → l2Features f1 f2 = 0) := by
  refine ⟨l2Features_eq_sum f1 f2, ?_, ?_, ?_⟩
  · rw [l2Features_eq_sum]
    exact Finset.sum_nonneg fun i _ => Finset.sum_nonneg fun j _ => sq_nonneg _
  · rw [l2Features_eq_sum, l2Features_eq_sum, ← hw, ← hh]
    refine Finset.sum_congr rfl fun i _ => Finset.sum_congr rfl fun j _ => ?_
    ring
  · intro heq
    rw [l2Features_eq_sum, heq]
    simp

/-- Witness of C16: two one-pixel descriptors of values 0 and 3, at distance 9. -/
theorem l2Features_distance_witness :
    l2Features (Feature.single 0 0 0) (Feature.single 1 1 3) =
      l2Features (Feature.single 1 1 3) (Feature.single 0 0 0) :=
  (l2Features_distance (Feature.single 0 0 0) (Feature.single 1 1 3) rfl rfl).2.2.1

/-! ## Further properties of the feature matcher -/

/-- C18: `findCorrespondences` is directional: there are feature lists `A`, `B` and a
threshold for which the two directions return a different number of correspondences, and a
pair `(b, a)` matched from `B` to `A` whose reverse `(a, b)` is not matched from `A` to
`B`. -/
theorem findCorrespondences_directional :
    ∃ (A B : List Feature) (threshold : ℚ),
      (findCorrespondences A B threshold).length ≠
        (findCorrespondences B A threshold).length ∧
      ∃ a b : Feature,
        FeatureCorrespondence.mk b a ∈ findCorrespondences B A threshold ∧
        FeatureCorrespondence.mk a b ∉ findCorrespondences A B threshold := by
  have hAB : findCorrespondences [Feature.single 0 0 0, Feature.single 1 0 10]
      [Feature.single 2 0 1, Feature.single 3 0 2, Feature.single 4 0 11] 3 =
      [FeatureCorrespondence.mk (Feature.single 1 0 10) (Feature.single 4 0 11)] := by
    norm_num [findCorrespondences, scan, scanStep, scanInit, accepts, l2Features_single,
      fdiv, FloatQuotient.ge]
  have hBA : findCorrespondences
      [Feature.single 2 0 1, Feature.single 3 0 2, Feature.single 4 0 11]
      [Feature.single 0 0 0, Feature.single 1 0 10] 3 =
      [FeatureCorrespondence.mk (Feature.single 2 0 1) (Feature.single 0 0 0),
       FeatureCorrespondence.mk (Feature.single 3 0 2) (Feature.single 0 0 0),
       FeatureCorrespondence.mk (Feature.single 4 0 11) (Feature.single 1 0 10)] := by
    norm_num [findCorrespondences, scan, scanStep, scanInit, accepts, l2Features_single,
      fdiv, FloatQuotient.ge]
  refine ⟨[Feature.single 0 0 0, Feature.single 1 0 10],
    [Feature.single 2 0 1, Feature.single 3 0 2, Feature.single 4 0 11], 3, ?_,
    Feature.single 0 0 0, Feature.single 2 0 1, ?_, ?_⟩
  · rw [hAB, hBA]; simp
  · rw [hBA]; simp
  · rw [hAB]
    intro h
    have h1 : Feature.single 0 0 0 = Feature.single 1 0 10 := by
      have := List.mem_singleton.mp h
      exact congrArg FeatureCorrespondence.f1 this
    have hx := congrArg (fun f => f.point.x) h1
    simp [Feature.single] at hx

/-- C20: for every `fA` and every `B` with at least two features whose distances from `fA`
are all below 5000000, the inner loop of `findCorrespondences` (which starts with
`best_dif = 5000000` and `second_best_dif = 50000`) ends with `best_dif` the least distance
(a lower bound of all distances, attained in `B`), `best_feature` the first feature of `B`
attaining it, and `second_best_dif` the second-smallest distance counted with multiplicity,
which equals `best_dif` when the least distance is attained twice. -/
theorem scan_refines_reference (fA : Feature) (B : List Feature) (h2 : 2 ≤ B.length)
    (hs : ∀ fB ∈ B, l2Features fA fB < 5000000) :
    (scan fA B).best_dif = bestDistance fA B ∧
    (∀ fB ∈ B, (scan fA B).best_dif ≤ l2Features fA fB) ∧
    (∃ fB ∈ B, l2Features fA fB = (scan fA B).best_dif) ∧
    firstNearest fA B = some (scan fA B).best_feature ∧
    (scan fA B).second_best_dif = secondBestDistance fA B ∧
    (2 ≤ (B.map (l2Features fA)).count (bestDistance fA B) →
      (scan fA B).second_best_dif = (scan fA B).best_dif) := by
  obtain ⟨hw, hb, hsec, hfirst⟩ := scan_eq_reference fA B h2 hs
  refine ⟨hb, ?_, ?_, hfirst, hsec, ?_⟩
  · intro fB hfB
    rcases scan_best_spec fA B with ⟨hw0, _, _⟩ | ⟨_, _, i, _, _, hle, _⟩
    · rw [hw] at hw0; cases hw0
    · obtain ⟨j, hj⟩ := List.mem_iff_getElem?.mp hfB
      exact hle j fB hj
  · rcases scan_best_spec fA B with ⟨hw0, _, _⟩ | ⟨_, _, i, hi, hd, _, _⟩
    · rw [hw] at hw0; cases hw0
    · exact ⟨(scan fA B).best_feature, List.getElem?_mem hi, hd⟩
  · intro hcount
    rcases scan_sorted_spec fA B hs with hnil | ⟨_, ⟨h1, _⟩ | ⟨r, hr⟩⟩
    · subst hnil; simp at h2
    · have hlen := sortedDistances_length fA B
      rw [h1] at hlen; simp at hlen; omega
    · have hsorted := sortedDistances_sorted fA B
      rw [hr] at hsorted
      have hperm : (sortedDistances fA B).Perm (B.map (l2Features fA)) :=
        List.perm_insertionSort _ _
      rw [← hb, ← hperm.count_eq, hr, List.count_cons_self] at hcount
      have hmem : (scan fA B).best_dif ∈ (scan fA B).second_best_dif :: r :=
        List.count_pos_iff.mp (by omega)
      have hle1 : (scan fA B).best_dif ≤ (scan fA B).second_best_dif :=
        List.rel_of_sorted_cons hsorted _ (by simp)
      rcases List.mem_cons.mp hmem with heq | hr1
      · exact heq.symm
      · have hsorted2 := List.Sorted.of_cons hsorted
        exact le_antisymm (List.rel_of_sorted_cons hsorted2 _ hr1) hle1

/-- Witness of C20: the distances 4, 1, 1 from `fA`; the least distance 1 is attained
twice. -/
theorem scan_refines_reference_witness :
    (scan (Feature.single 0 0 0)
      [Feature.single 1 0 2, Feature.single 2 0 1, Feature.single 3 0 (-1)]).best_dif =
      bestDistance (Feature.single 0 0 0)
        [Feature.single 1 0 2, Feature.single 2 0 1, Feature.single 3 0 (-1)] :=
  (scan_refines_reference (Feature.single 0 0 0)
    [Feature.single 1 0 2, Feature.single 2 0 1, Feature.single 3 0 (-1)] (by simp)
    (by
      intro fB hB
      simp only [List.mem_cons, List.mem_singleton, List.not_mem_nil, or_false] at hB
      rcases hB with rfl | rfl | rfl <;> norm_num [l2Features_single])).1

/-! ## Further facts and properties of RANSAC -/

theorem countInliers_eq_count (l : List Bool) : countInliers l = l.count true := by
  unfold countInliers
  have key : ∀ (l : List Bool) (n : Nat),
      l.foldl (fun inlier_count inlier_bool =>
        if inlier_bool then inlier_count + 1 else inlier_count) n = n + l.count true := by
    intro l
    induction l with
    | nil => intro n; simp
    | cons b l ih =>
      intro n
      rw [List.foldl_cons, ih]
      cases b
      · simp [List.count_cons]
      · simp [List.count_cons]; omega
  simpa using key l 0

theorem inliers_length (H : Mat3) (L : List FeatureCorrespondence) (epsilon : ℚ) :
    (inliers H L epsilon).length = L.length := by
  rw [inliers_eq_map, List.length_map]

theorem ransacStep_of_candidate
    (cH : CorrespondencePair → CorrespondencePair → CorrespondencePair →
      CorrespondencePair → Mat3)
    (shuffle : Nat → List FeatureCorrespondence → List FeatureCorrespondence)
    (L : List FeatureCorrespondence) (epsilon : ℚ) (st : Mat3 × Nat) (k : Nat)
    (v : Mat3 × Nat)
    (hv : ransacCandidate cH (sampleFeatureCorrespondences shuffle k L) epsilon =
      Except.ok v) :
    ransacStep cH shuffle L epsilon st k = Except.ok (if v.2 ≥ st.2 then v else st) := by
  unfold ransacStep
  simp only [hv]
  show (if v.2 ≥ st.2 then Except.ok v else Except.ok st) = _
  by_cases h : v.2 ≥ st.2
  · rw [if_pos h, if_pos h]
  · rw [if_neg h, if_neg h]

/-- A list with four or more elements is its first four elements followed by a rest. -/
theorem exists_cons4 {α : Type} (l : List α) (h : 4 ≤ l.length) :
    ∃ (c0 c1 c2 c3 : α) (rest : List α), l = c0 :: c1 :: c2 :: c3 :: rest := by
  match l, h with
  | c0 :: c1 :: c2 :: c3 :: rest, _ => exact ⟨c0, c1, c2, c3, rest, rfl⟩

/-- C19: in every iteration of `RANSAC` (on a list with at least four elements) the
candidate `H` is scored on its own sample: the inlier count compared with the best so far
is the number of `true` entries of `inliers` on the first four correspondences of the
shuffled list, it is at most 4, and every list with the same first four elements gives the
same candidate and the same count. -/
theorem RANSAC_scores_sample
    (computeHomography : CorrespondencePair → CorrespondencePair → CorrespondencePair →
      CorrespondencePair → Mat3)
    (random_shuffle : Nat → List FeatureCorrespondence → List FeatureCorrespondence)
    (L : List FeatureCorrespondence) (epsilon : ℚ) (k : Nat)
    (h4 : 4 ≤ L.length) (hperm : ∀ k, (random_shuffle k L).Perm L) :
    ∃ (H : Mat3) (count : Nat),
      ransacCandidate computeHomography (sampleFeatureCorrespondences random_shuffle k L)
        epsilon = Except.ok (H, count) ∧
      count = (inliers H ((sampleFeatureCorrespondences random_shuffle k L).take 4)
        epsilon).count true ∧
      count ≤ 4 ∧
      (∀ st : Mat3 × Nat,
        ransacStep computeHomography random_shuffle L epsilon st k =
          Except.ok (if count ≥ st.2 then (H, count) else st)) ∧
      (∀ other : List FeatureCorrespondence,
        other.take 4 = (sampleFeatureCorrespondences random_shuffle k L).take 4 →
        ransacCandidate computeHomography other epsilon = Except.ok (H, count)) := by
  have hlen : 4 ≤ (sampleFeatureCorrespondences random_shuffle k L).length := by
    unfold sampleFeatureCorrespondences
    rw [(hperm k).length_eq]
    exact h4
  obtain ⟨c0, c1, c2, c3, rest, hl⟩ := exists_cons4 _ hlen
  have hcand := ransacCandidate_cons4 computeHomography c0 c1 c2 c3 rest epsilon
  rw [← hl] at hcand
  refine ⟨_, _, hcand, ?_, ?_, ?_, ?_⟩
  · rw [hl, countInliers_eq_count]
    rfl
  · rw [countInliers_eq_count]
    refine le_trans (List.count_le_length _ _) ?_
    rw [inliers_length]
    exact le_refl _
  · intro st
    exact ransacStep_of_candidate _ _ _ _ st k _ hcand
  · intro other hother
    rw [hl] at hother
    have hother_len : 4 ≤ other.length := by
      have := congrArg List.length hother
      simp only [List.length_take, List.length_cons] at this
      omega
    obtain ⟨d0, d1, d2, d3, rest1, ho⟩ := exists_cons4 other hother_len
    rw [ho] at hother
    simp only [List.take_succ_cons, List.take_zero, List.cons.injEq, and_true] at hother
    obtain ⟨e0, e1, e2, e3⟩ := hother
    rw [ho, e0, e1, e2, e3]
    exact ransacCandidate_cons4 computeHomography c0 c1 c2 c3 rest1 epsilon

/-- Witness of C19: the first iteration on the translated square. -/
theorem RANSAC_scores_sample_witness :
    ∃ (H : Mat3) (count : Nat),
      ransacCandidate (fun _ _ _ _ => translation10)
        (sampleFeatureCorrespondences (fun _ l => l) 0 translatedSquare) 1 =
        Except.ok (H, count) ∧ count ≤ 4 :=
  (RANSAC_scores_sample (fun _ _ _ _ => translation10) (fun _ l => l) translatedSquare 1 0
    (by simp [translatedSquare]) (fun _ => List.Perm.refl _)).imp
    fun _ h => h.imp fun _ h1 => ⟨h1.1, h1.2.2.1⟩

theorem stretchY_det : stretchY.det = 2 := by
  simp [stretchY, Matrix.det_fin_three, Matrix.vecHead, Matrix.vecTail]

/-- The stretch fits the four collinear samples and misses the fifth correspondence. -/
theorem stretchY_inliers :
    inliers stretchY collinearFive (1 / 2) = [true, true, true, true, false] := by
  rw [inliers_eq_map]
  simp [collinearFive, normLt, squaredNorm, stretchY, FeatureCorrespondence.toCorrespondencePair,
    Feature.single, Matrix.mulVec, Matrix.dotProduct, Fin.sum_univ_three, Matrix.vecHead,
    Matrix.vecTail]
  norm_num

theorem stretchY_candidate (k : Nat) :
    ransacCandidate (fun _ _ _ _ => stretchY)
      (sampleFeatureCorrespondences (fun _ l => l) k collinearFive) (1 / 2) =
      Except.ok (stretchY, 4) := by
  unfold sampleFeatureCorrespondences collinearFive
  rw [ransacCandidate_cons4]
  have hd : ¬ stretchY.det = 0 := by rw [stretchY_det]; norm_num
  simp only [hd, if_false]
  rw [inliers_eq_map]
  simp [countInliers, normLt, squaredNorm, stretchY,
    FeatureCorrespondence.toCorrespondencePair, Feature.single, Matrix.mulVec,
    Matrix.dotProduct, Fin.sum_univ_three, Matrix.vecHead, Matrix.vecTail]

/-- With a positive tolerance, a matrix that maps every first point onto the second point
makes every correspondence an inlier. -/
theorem countInliers_of_exact (H : Mat3) (L : List FeatureCorrespondence) (epsilon : ℚ)
    (heps : 0 < epsilon)
    (hfit : ∀ c ∈ L, H.mulVec c.toCorrespondencePair.point1 = c.toCorrespondencePair.point2) :
    countInliers (inliers H L epsilon) = L.length := by
  rw [countInliers_eq_count, inliers_eq_map, ← List.length_map L
    (fun c => normLt (H.mulVec c.toCorrespondencePair.point1 - c.toCorrespondencePair.point2)
      epsilon)]
  rw [List.count_eq_length]
  intro b hb
  obtain ⟨c, hc, hcb⟩ := List.mem_map.mp hb
  rw [← hcb, hfit c hc]
  simp [normLt, squaredNorm, heps]

/-- Two matrices that agree on three points that are not on one line are equal. -/
theorem eq_of_mulVec_eq_of_not_collinear (M N : Mat3) (a b c : Vec3f)
    (hgen : collinear a b c = false)
    (ha : M.mulVec a = N.mulVec a) (hb : M.mulVec b = N.mulVec b)
    (hc : M.mulVec c = N.mulVec c) : M = N := by
  have hdet : (Matrix.of ![a, b, c]).det ≠ 0 := by
    simpa [collinear] using hgen
  have hP : IsUnit ((Matrix.of ![a, b, c]).transpose).det := by
    rw [Matrix.det_transpose]
    exact isUnit_iff_ne_zero.mpr hdet
  have hmul : M * (Matrix.of ![a, b, c]).transpose = N * (Matrix.of ![a, b, c]).transpose := by
    ext i j
    have ha1 := congrFun ha i
    have hb1 := congrFun hb i
    have hc1 := congrFun hc i
    simp only [Matrix.mulVec, Matrix.dotProduct, Fin.sum_univ_three] at ha1 hb1 hc1
    fin_cases j
    · simpa [Matrix.mul_apply, Fin.sum_univ_three] using ha1
    · simpa [Matrix.mul_apply, Fin.sum_univ_three] using hb1
    · simpa [Matrix.mul_apply, Fin.sum_univ_three] using hc1
  calc M = M * (Matrix.of ![a, b, c]).transpose * ((Matrix.of ![a, b, c]).transpose)⁻¹ := by
        rw [Matrix.mul_nonsing_inv_cancel_right _ _ hP]
    _ = N * (Matrix.of ![a, b, c]).transpose * ((Matrix.of ![a, b, c]).transpose)⁻¹ := by
        rw [hmul]
    _ = N := Matrix.mul_nonsing_inv_cancel_right _ _ hP

/-- Two matrices that agree on four points that are not all on one line are equal. -/
theorem eq_of_mulVec_eq_of_not_allOnOneLine (M N : Mat3) (p0 p1 p2 p3 : Vec3f)
    (hgen : allOnOneLine p0 p1 p2 p3 = false)
    (h0 : M.mulVec p0 = N.mulVec p0) (h1 : M.mulVec p1 = N.mulVec p1)
    (h2 : M.mulVec p2 = N.mulVec p2) (h3 : M.mulVec p3 = N.mulVec p3) : M = N := by
  unfold allOnOneLine at hgen
  simp only [Bool.and_eq_false_iff] at hgen
  rcases hgen with ((h | h) | h) | h
  · exact eq_of_mulVec_eq_of_not_collinear M N p0 p1 p2 h h0 h1 h2
  · exact eq_of_mulVec_eq_of_not_collinear M N p0 p1 p3 h h0 h1 h3
  · exact eq_of_mulVec_eq_of_not_collinear M N p0 p2 p3 h h0 h2 h3
  · exact eq_of_mulVec_eq_of_not_collinear M N p1 p2 p3 h h1 h2 h3

/-- The inlier count of a candidate is at most 4. -/
theorem ransacCandidate_count_le
    (cH : CorrespondencePair → CorrespondencePair → CorrespondencePair →
      CorrespondencePair → Mat3)
    (l : List FeatureCorrespondence) (epsilon : ℚ) (v : Mat3 × Nat)
    (hv : ransacCandidate cH l epsilon = Except.ok v) : v.2 ≤ 4 := by
  by_cases hlen : 4 ≤ l.length
  · obtain ⟨c0, c1, c2, c3, rest, hl⟩ := exists_cons4 l hlen
    rw [hl, ransacCandidate_cons4] at hv
    cases hv
    show countInliers _ ≤ 4
    rw [countInliers_eq_count]
    refine le_trans (List.count_le_length _ _) ?_
    rw [inliers_length]
    exact le_refl _
  · rw [ransacCandidate_error_of_length cH l epsilon (by omega)] at hv
    cases hv

theorem perspective_det : perspective.det = 4 := by
  simp [perspective, Matrix.det_fin_three, Matrix.vecHead, Matrix.vecTail]
  norm_num

/-- Without normalisation of the third coordinate, `perspective` misses the two
correspondences whose first point has `x = 1`. -/
theorem perspective_inliers :
    inliers perspective perspectiveSquare (1 / 2) = [true, true, false, false] := by
  rw [inliers_eq_map]
  simp [perspectiveSquare, normLt, squaredNorm, perspective,
    FeatureCorrespondence.toCorrespondencePair, Feature.single, Matrix.mulVec,
    Matrix.dotProduct, Fin.sum_univ_three, Matrix.vecHead, Matrix.vecTail]
  norm_num

theorem perspective_candidate (k : Nat) :
    ransacCandidate (fun _ _ _ _ => perspective)
      (sampleFeatureCorrespondences (fun _ l => l) k perspectiveSquare) (1 / 2) =
      Except.ok (perspective, 2) := by
  unfold sampleFeatureCorrespondences
  conv_lhs => unfold perspectiveSquare
  rw [ransacCandidate_cons4]
  have hd : ¬ perspective.det = 0 := by rw [perspective_det]; norm_num
  simp only [hd, if_false]
  show Except.ok (perspective, countInliers (inliers perspective perspectiveSquare (1 / 2))) = _
  rw [perspective_inliers]
  rfl

theorem flattenY_det : flattenY.det = 0 := by
  simp [flattenY, Matrix.det_fin_three, Matrix.vecHead, Matrix.vecTail]

/-- The identity misses the two correspondences of the flattened square whose first point
has `y = 1`. -/
theorem flattenedSquare_inliers :
    inliers (1 : Mat3) flattenedSquare (1 / 2) = [true, true, false, false] := by
  rw [inliers_eq_map]
  simp [flattenedSquare, normLt, squaredNorm,
    FeatureCorrespondence.toCorrespondencePair, Feature.single]
  norm_num

theorem flattenY_candidate (k : Nat) :
    ransacCandidate (fun _ _ _ _ => flattenY)
      (sampleFeatureCorrespondences (fun _ l => l) k flattenedSquare) (1 / 2) =
      Except.ok ((1 : Mat3), 2) := by
  unfold sampleFeatureCorrespondences
  conv_lhs => unfold flattenedSquare
  rw [ransacCandidate_cons4]
  simp only [flattenY_det, if_true]
  show Except.ok ((1 : Mat3), countInliers (inliers (1 : Mat3) flattenedSquare (1 / 2))) = _
  rw [flattenedSquare_inliers]
  rfl

/-- One iteration of the loop returns the candidate of that iteration. -/
theorem RANSAC_one_iteration
    (cH : CorrespondencePair → CorrespondencePair → CorrespondencePair →
      CorrespondencePair → Mat3)
    (shuffle : Nat → List FeatureCorrespondence → List FeatureCorrespondence)
    (L : List FeatureCorrespondence) (epsilon : ℚ) (v : Mat3 × Nat)
    (hv : ransacCandidate cH (sampleFeatureCorrespondences shuffle 0 L) epsilon =
      Except.ok v) :
    RANSAC cH shuffle L 1 epsilon = Except.ok v.1 := by
  apply RANSAC_eq_of_loop _ _ _ 1 epsilon v
  have h1 : (1 : Int).toNat = 0 + 1 := rfl
  rw [h1, foldlM_range_succ _ _ ((1 : Mat3), 0) 0 rfl,
    ransacStep_of_candidate _ _ _ _ _ 0 _ hv]
  rw [if_pos (Nat.zero_le _)]

theorem collinearFive_sampleOnOneLine :
    sampleOnOneLine (sampleFeatureCorrespondences (fun _ l => l) 0 collinearFive) = true := by
  simp [sampleOnOneLine, sampleFeatureCorrespondences, collinearFive, allOnOneLine, collinear,
    FeatureCorrespondence.toCorrespondencePair, Feature.single, Matrix.det_fin_three,
    Matrix.vecHead, Matrix.vecTail]

theorem perspectiveSquare_sampleOnOneLine :
    sampleOnOneLine (sampleFeatureCorrespondences (fun _ l => l) 0 perspectiveSquare) =
      false := by
  simp [sampleOnOneLine, sampleFeatureCorrespondences, perspectiveSquare, allOnOneLine,
    collinear, FeatureCorrespondence.toCorrespondencePair, Feature.single,
    Matrix.det_fin_three, Matrix.vecHead, Matrix.vecTail]

theorem flattenedSquare_sampleOnOneLine :
    sampleOnOneLine (sampleFeatureCorrespondences (fun _ l => l) 0 flattenedSquare) =
      false := by
  simp [sampleOnOneLine, sampleFeatureCorrespondences, flattenedSquare, allOnOneLine,
    collinear, FeatureCorrespondence.toCorrespondencePair, Feature.single,
    Matrix.det_fin_three, Matrix.vecHead, Matrix.vecTail]

theorem translatedSquare_sampleOnOneLine (k : Nat) :
    sampleOnOneLine (sampleFeatureCorrespondences (fun _ l => l) k translatedSquare) =
      false := by
  simp [sampleOnOneLine, sampleFeatureCorrespondences, translatedSquare, allOnOneLine,
    collinear, FeatureCorrespondence.toCorrespondencePair, Feature.single,
    Matrix.det_fin_three, Matrix.vecHead, Matrix.vecTail]

/-- The translation maps every first point of the translated square onto its second
point. -/
theorem translatedSquare_fit :
    ∀ c ∈ translatedSquare,
      translation10.mulVec c.toCorrespondencePair.point1 =
        c.toCorrespondencePair.point2 := by
  intro c hc
  simp only [translatedSquare, List.mem_cons, List.mem_singleton, List.not_mem_nil,
    or_false] at hc
  rcases hc with rfl | rfl | rfl | rfl <;>
    · funext i
      fin_cases i <;>
        norm_num [translation10, FeatureCorrespondence.toCorrespondencePair,
          Feature.single, Matrix.mulVec, Matrix.dotProduct, Fin.sum_univ_three,
          Matrix.vecHead, Matrix.vecTail]

/-- C17, as stated, fails in three ways, each shown on one run of `RANSAC` with one
iteration and `epsilon = 1/2`.
(a) A sample on one line: the five correspondences are exactly consistent with the identity
`H0 = 1`, the solver returns the stretch, which maps each of the four sampled points (all
on the line `y = 0`) onto its image, and `RANSAC` returns the stretch, for which only four
of the five correspondences are inliers.
(b) A perspective map: every second point of `perspectiveSquare` is the image of its first
point under the non-singular `perspective` (`H0·(x1, y1, 1)` is a positive multiple of
`(x2, y2, 1)`), the four sampled points are not on one line, the solver returns
`perspective`, `RANSAC` returns it, and only two of the four correspondences are inliers,
because `inliers` compares `H·(x1, y1, 1)` with `(x2, y2, 1)` without normalising the third
coordinate.
(c) A singular map: every correspondence of `flattenedSquare` satisfies
`H0·(x1, y1, 1) = (x2, y2, 1)` for the singular `flattenY`, the four sampled points are not
on one line, the solver returns `flattenY`,
`RANSAC` replaces it by the identity and returns the identity, for which only two of the
four correspondences are inliers. -/
theorem RANSAC_noiseless_counterexample :
    (4 ≤ collinearFive.length ∧
      (∀ c ∈ collinearFive,
        (1 : Mat3).mulVec c.toCorrespondencePair.point1 = c.toCorrespondencePair.point2) ∧
      (∀ c ∈ (sampleFeatureCorrespondences (fun _ l => l) 0 collinearFive).take 4,
        stretchY.mulVec c.toCorrespondencePair.point1 = c.toCorrespondencePair.point2) ∧
      RANSAC (fun _ _ _ _ => stretchY) (fun _ l => l) collinearFive 1 (1 / 2) =
        Except.ok stretchY ∧
      countInliers (inliers stretchY collinearFive (1 / 2)) = 4 ∧
      collinearFive.length = 5 ∧
      sampleOnOneLine (sampleFeatureCorrespondences (fun _ l => l) 0 collinearFive) = true) ∧
    (perspective.det ≠ 0 ∧
      (∀ c ∈ perspectiveSquare, ∃ w : ℚ, 0 < w ∧
        perspective.mulVec c.toCorrespondencePair.point1 =
          w • c.toCorrespondencePair.point2) ∧
      RANSAC (fun _ _ _ _ => perspective) (fun _ l => l) perspectiveSquare 1 (1 / 2) =
        Except.ok perspective ∧
      countInliers (inliers perspective perspectiveSquare (1 / 2)) = 2 ∧
      perspectiveSquare.length = 4 ∧
      sampleOnOneLine (sampleFeatureCorrespondences (fun _ l => l) 0 perspectiveSquare) =
        false) ∧
    (flattenY.det = 0 ∧
      (∀ c ∈ flattenedSquare,
        flattenY.mulVec c.toCorrespondencePair.point1 = c.toCorrespondencePair.point2) ∧
      RANSAC (fun _ _ _ _ => flattenY) (fun _ l => l) flattenedSquare 1 (1 / 2) =
        Except.ok 1 ∧
      countInliers (inliers (1 : Mat3) flattenedSquare (1 / 2)) = 2 ∧
      flattenedSquare.length = 4 ∧
      sampleOnOneLine (sampleFeatureCorrespondences (fun _ l => l) 0 flattenedSquare) =
        false) := by
  refine ⟨⟨by simp [collinearFive], ?_, ?_, ?_, ?_, by simp [collinearFive],
      collinearFive_sampleOnOneLine⟩,
    ⟨by rw [perspective_det]; norm_num, ?_, ?_, ?_, by simp [perspectiveSquare],
      perspectiveSquare_sampleOnOneLine⟩,
    ⟨flattenY_det, ?_, ?_, ?_, by simp [flattenedSquare], flattenedSquare_sampleOnOneLine⟩⟩
  · intro c hc
    simp only [collinearFive, List.mem_cons, List.mem_singleton, List.not_mem_nil,
      or_false] at hc
    rcases hc with rfl | rfl | rfl | rfl | rfl <;>
      simp [FeatureCorrespondence.toCorrespondencePair, Feature.single]
  · intro c hc
    simp only [sampleFeatureCorrespondences, collinearFive, List.take_succ_cons, List.take_zero,
      List.mem_cons, List.mem_singleton, List.not_mem_nil, or_false] at hc
    rcases hc with rfl | rfl | rfl | rfl <;>
      · funext i
        fin_cases i <;>
          simp [stretchY, FeatureCorrespondence.toCorrespondencePair, Feature.single,
            Matrix.mulVec, Matrix.dotProduct, Fin.sum_univ_three, Matrix.vecHead,
            Matrix.vecTail]
  · exact RANSAC_one_iteration _ _ _ _ _ (stretchY_candidate 0)
  · rw [stretchY_inliers]
    rfl
  · intro c hc
    simp only [perspectiveSquare, List.mem_cons, List.mem_singleton, List.not_mem_nil,
      or_false] at hc
    rcases hc with rfl | rfl | rfl | rfl
    · refine ⟨1, by norm_num, ?_⟩
      funext i
      fin_cases i <;>
        simp [perspective, FeatureCorrespondence.toCorrespondencePair, Feature.single,
          Matrix.mulVec, Matrix.dotProduct, Fin.sum_univ_three, Matrix.vecHead,
          Matrix.vecTail]
    · refine ⟨1, by norm_num, ?_⟩
      funext i
      fin_cases i <;>
        simp [perspective, FeatureCorrespondence.toCorrespondencePair, Feature.single,
          Matrix.mulVec, Matrix.dotProduct, Fin.sum_univ_three, Matrix.vecHead,
          Matrix.vecTail]
    · refine ⟨2, by norm_num, ?_⟩
      funext i
      fin_cases i <;>
        norm_num [perspective, FeatureCorrespondence.toCorrespondencePair, Feature.single,
          Matrix.mulVec, Matrix.dotProduct, Fin.sum_univ_three, Matrix.vecHead,
          Matrix.vecTail]
    · refine ⟨2, by norm_num, ?_⟩
      funext i
      fin_cases i <;>
        norm_num [perspective, FeatureCorrespondence.toCorrespondencePair, Feature.single,
          Matrix.mulVec, Matrix.dotProduct, Fin.sum_univ_three, Matrix.vecHead,
          Matrix.vecTail]
  · exact RANSAC_one_iteration _ _ _ _ _ (perspective_candidate 0)
  · rw [perspective_inliers]
    rfl
  · intro c hc
    simp only [flattenedSquare, List.mem_cons, List.mem_singleton, List.not_mem_nil,
      or_false] at hc
    rcases hc with rfl | rfl | rfl | rfl <;>
      · funext i
        fin_cases i <;>
          simp [flattenY, FeatureCorrespondence.toCorrespondencePair, Feature.single,
            Matrix.mulVec, Matrix.dotProduct, Fin.sum_univ_three, Matrix.vecHead,
            Matrix.vecTail]
  · exact RANSAC_one_iteration _ _ _ _ _ (flattenY_candidate 0)
  · rw [flattenedSquare_inliers]
    rfl

/-- C17 (amended): for every non-singular matrix `H0` and every list of four or more
correspondences exactly consistent with `H0` in homogeneous coordinates without
normalisation (`H0·(x1, y1, 1) = (x2, y2, 1)` for every correspondence), every
`epsilon > 0` and every `Niter >= 1`, assuming that in every iteration the four-point solver
returns a matrix that maps each of the four sampled `point1` onto its `point2` in the same
sense, and that the four `point1` sampled in the last iteration are not all on one line,
`RANSAC` returns a matrix `H`, `H` is `H0`, and `H` makes every correspondence of the full
list an inlier: the count of true entries of `inliers(H, full list, epsilon)` equals the
length of the list. -/
theorem RANSAC_noiseless
    (computeHomography : CorrespondencePair → CorrespondencePair → CorrespondencePair →
      CorrespondencePair → Mat3)
    (random_shuffle : Nat → List FeatureCorrespondence → List FeatureCorrespondence)
    (L : List FeatureCorrespondence) (Niter : Int) (epsilon : ℚ) (H0 : Mat3)
    (h4 : 4 ≤ L.length) (hperm : ∀ k, (random_shuffle k L).Perm L)
    (hN : 1 ≤ Niter) (heps : 0 < epsilon) (hdet : H0.det ≠ 0)
    (hcons : ∀ c ∈ L,
      H0.mulVec c.toCorrespondencePair.point1 = c.toCorrespondencePair.point2)
    (hfit : ∀ (k : Nat) (c0 c1 c2 c3 : FeatureCorrespondence), k < Niter.toNat →
      (sampleFeatureCorrespondences random_shuffle k L).take 4 = [c0, c1, c2, c3] →
      ∀ c ∈ [c0, c1, c2, c3],
        (computeHomography c0.toCorrespondencePair c1.toCorrespondencePair
          c2.toCorrespondencePair c3.toCorrespondencePair).mulVec
            c.toCorrespondencePair.point1 = c.toCorrespondencePair.point2)
    (hgen : sampleOnOneLine
      (sampleFeatureCorrespondences random_shuffle (Niter.toNat - 1) L) = false) :
    ∃ H : Mat3,
      RANSAC computeHomography random_shuffle L Niter epsilon = Except.ok H ∧
      H = H0 ∧
      countInliers (inliers H L epsilon) = L.length := by
  have hlast : ransacCandidate computeHomography
      (sampleFeatureCorrespondences random_shuffle (Niter.toNat - 1) L) epsilon =
      Except.ok (H0, 4) := by
    have hlen : 4 ≤ (sampleFeatureCorrespondences random_shuffle (Niter.toNat - 1) L).length := by
      unfold sampleFeatureCorrespondences
      rw [(hperm _).length_eq]
      exact h4
    obtain ⟨c0, c1, c2, c3, rest, hl⟩ := exists_cons4 _ hlen
    have hmem : ∀ c ∈ [c0, c1, c2, c3], c ∈ L := by
      intro c hc
      apply (hperm (Niter.toNat - 1)).subset
      have hsub : c ∈ sampleFeatureCorrespondences random_shuffle (Niter.toNat - 1) L := by
        rw [hl]
        simp only [List.mem_cons, List.mem_singleton, List.not_mem_nil, or_false] at hc
        rcases hc with rfl | rfl | rfl | rfl <;> simp
      exact hsub
    have hf := hfit (Niter.toNat - 1) c0 c1 c2 c3 (by omega) (by rw [hl]; rfl)
    have hagree : ∀ c ∈ [c0, c1, c2, c3],
        (computeHomography c0.toCorrespondencePair c1.toCorrespondencePair
          c2.toCorrespondencePair c3.toCorrespondencePair).mulVec
            c.toCorrespondencePair.point1 = H0.mulVec c.toCorrespondencePair.point1 := by
      intro c hc
      rw [hf c hc, hcons c (hmem c hc)]
    rw [hl] at hgen
    have hM : computeHomography c0.toCorrespondencePair c1.toCorrespondencePair
        c2.toCorrespondencePair c3.toCorrespondencePair = H0 :=
      eq_of_mulVec_eq_of_not_allOnOneLine _ _ _ _ _ _ hgen
        (hagree c0 (by simp)) (hagree c1 (by simp)) (hagree c2 (by simp))
        (hagree c3 (by simp))
    rw [hl, ransacCandidate_cons4, hM, if_neg hdet,
      countInliers_of_exact H0 [c0, c1, c2, c3] epsilon heps
        (fun c hc => hcons c (hmem c hc))]
    rfl
  obtain ⟨st, hst, hinv⟩ := ransac_loop_spec computeHomography random_shuffle L epsilon
    (fun k => (ransacCandidate_ok_of_perm computeHomography random_shuffle L epsilon h4
      hperm k).elim fun v hv => ⟨v, hv.1⟩) Niter.toNat
  refine ⟨st.1, RANSAC_eq_of_loop _ _ _ _ _ st hst, ?_⟩
  have hst0 : st = (H0, 4) := by
    rcases hinv with ⟨h0, _⟩ | ⟨i, hi, hc, _, hlt⟩
    · omega
    · by_cases hi1 : i = Niter.toNat - 1
      · rw [hi1, hlast] at hc
        cases hc
        rfl
      · have h1 := hlt (Niter.toNat - 1) (H0, 4) (by omega) (by omega) hlast
        have h2 := ransacCandidate_count_le _ _ _ _ hc
        have h3 : 4 < st.2 := h1
        omega
  rw [hst0]
  exact ⟨rfl, countInliers_of_exact H0 L epsilon heps hcons⟩

/-- Witness of C17 (amended): the translated square with a solver that returns the
translation, three iterations. -/
theorem RANSAC_noiseless_witness :
    ∃ H : Mat3,
      RANSAC (fun _ _ _ _ => translation10) (fun _ l => l) translatedSquare 3 1 =
        Except.ok H ∧
      H = translation10 ∧
      countInliers (inliers H translatedSquare 1) = translatedSquare.length :=
  RANSAC_noiseless (fun _ _ _ _ => translation10) (fun _ l => l) translatedSquare 3 1
    translation10 (by simp [translatedSquare]) (fun _ => List.Perm.refl _) (by decide)
    (by norm_num) (by rw [translation10_det]; norm_num)
    translatedSquare_fit
    (fun _ c0 c1 c2 c3 _ htake c hc => translatedSquare_fit c (by
      rw [← htake] at hc
      exact List.mem_of_mem_take hc))
    (translatedSquare_sampleOnOneLine _)

/-! ## Facts about the corner extractor -/

theorem truncToInt_natCast (n : Nat) : truncToInt (n : ℚ) = (n : Int) := by
  unfold truncToInt
  rw [if_pos (Nat.cast_nonneg n)]
  exact Int.floor_natCast n

/-- The loop values are the integers from `start` that are below the bound. -/
theorem mem_forLoopRange (start : Int) (bound : ℚ) (i : Int) :
    i ∈ forLoopRange start bound ↔ start ≤ i ∧ (i : ℚ) < bound := by
  unfold forLoopRange
  rw [List.mem_map, ← Int.lt_ceil]
  constructor
  · rintro ⟨t, ht, rfl⟩
    rw [List.mem_range] at ht
    omega
  · rintro ⟨h1, h2⟩
    refine ⟨(i - start).toNat, ?_, ?_⟩
    · rw [List.mem_range]; omega
    · omega

theorem forLoopRange_pairwise (start : Int) (bound : ℚ) :
    (forLoopRange start bound).Pairwise (fun a b => a < b) := by
  unfold forLoopRange
  rw [List.pairwise_map]
  refine (List.pairwise_lt_range _).imp ?_
  intro a b hab
  omega

theorem push_row_eq_filter (cond : Int → Prop) [DecidablePred cond] (i : Int) :
    ∀ (ys : List Int) (acc : List Point),
      ys.foldl (fun (hc : List Point) (j : Int) =>
        if cond j then hc ++ [Point.mk i j] else hc) acc =
      acc ++ (ys.filter (fun j => decide (cond j))).map (Point.mk i)
  | [], acc => by simp
  | j :: ys, acc => by
    rw [List.foldl_cons, push_row_eq_filter cond i ys]
    by_cases h : cond j <;> simp [List.filter_cons, h]

/-- The two push-back loops of `HarrisCorners` list, column by column, the accepted
pixels of each column. -/
theorem push_loops_eq_flatMap (cond : Int → Int → Prop) [∀ i, DecidablePred (cond i)]
    (ys : List Int) :
    ∀ (xs : List Int) (acc : List Point),
      xs.foldl (fun (hc : List Point) (i : Int) =>
        ys.foldl (fun (hc : List Point) (j : Int) =>
          if cond i j then hc ++ [Point.mk i j] else hc) hc) acc =
      acc ++ xs.flatMap (fun i => (ys.filter (fun j => decide (cond i j))).map (Point.mk i))
  | [], acc => by simp
  | i :: xs, acc => by
    rw [List.foldl_cons, push_loops_eq_flatMap cond ys xs, push_row_eq_filter (cond i) i ys]
    simp

theorem HarrisCorners_eq_flatMap (lib : ImageLib) (im : Image)
    (k sigmaG factorSigma maxiDiam boundarySize : ℚ) :
    HarrisCorners lib im k sigmaG factorSigma maxiDiam boundarySize =
      (forLoopRange (truncToInt boundarySize) ((im.width : ℚ) - boundarySize)).flatMap
        (fun i =>
          ((forLoopRange (truncToInt boundarySize) ((im.height : ℚ) - boundarySize)).filter
            (fun j => decide
              ((lib.maximum_filter (cornerResponse lib im k sigmaG factorSigma) maxiDiam).pix
                  i j 0 > 0 ∧
                (cornerResponse lib im k sigmaG factorSigma).pix i j 0 =
                  (lib.maximum_filter (cornerResponse lib im k sigmaG factorSigma)
                    maxiDiam).pix i j 0))).map (Point.mk i)) := by
  unfold HarrisCorners
  simp only []
  rw [push_loops_eq_flatMap
    (fun i j =>
      (lib.maximum_filter (cornerResponse lib im k sigmaG factorSigma) maxiDiam).pix i j 0 > 0 ∧
        (cornerResponse lib im k sigmaG factorSigma).pix i j 0 =
          (lib.maximum_filter (cornerResponse lib im k sigmaG factorSigma) maxiDiam).pix i j 0),
    (cornerResponse_dims lib im k sigmaG factorSigma).1,
    (cornerResponse_dims lib im k sigmaG factorSigma).2]
  simp

/-- The pixels returned by `HarrisCorners`. -/
theorem mem_HarrisCorners (lib : ImageLib) (im : Image)
    (k sigmaG factorSigma maxiDiam boundarySize : ℚ) (x y : Int) :
    Point.mk x y ∈ HarrisCorners lib im k sigmaG factorSigma maxiDiam boundarySize ↔
      (truncToInt boundarySize ≤ x ∧ (x : ℚ) < (im.width : ℚ) - boundarySize) ∧
      (truncToInt boundarySize ≤ y ∧ (y : ℚ) < (im.height : ℚ) - boundarySize) ∧
      (lib.maximum_filter (cornerResponse lib im k sigmaG factorSigma) maxiDiam).pix
        x y 0 > 0 ∧
      (cornerResponse lib im k sigmaG factorSigma).pix x y 0 =
        (lib.maximum_filter (cornerResponse lib im k sigmaG factorSigma) maxiDiam).pix
          x y 0 := by
  rw [HarrisCorners_eq_flatMap, List.mem_flatMap]
  constructor
  · rintro ⟨i, hi, hmem⟩
    rw [List.mem_map] at hmem
    obtain ⟨j, hj, hp⟩ := hmem
    rw [List.mem_filter, decide_eq_true_eq] at hj
    have hx : i = x := congrArg Point.x hp
    have hy : j = y := congrArg Point.y hp
    subst hx hy
    exact ⟨(mem_forLoopRange _ _ _).mp hi, (mem_forLoopRange _ _ _).mp hj.1, hj.2⟩
  · rintro ⟨hx, hy, hc⟩
    refine ⟨x, (mem_forLoopRange _ _ _).mpr hx, ?_⟩
    rw [List.mem_map]
    refine ⟨y, ?_, rfl⟩
    rw [List.mem_filter, decide_eq_true_eq]
    exact ⟨(mem_forLoopRange _ _ _).mpr hy, hc⟩

/-- The response at a pixel of the structure tensor (the core of the scoring loop). -/
theorem cornerResponse_pix (lib : ImageLib) (im : Image) (k sigmaG factorSigma : ℚ)
    (x y : Nat) (hx : x < (computeTensor lib im sigmaG factorSigma).width)
    (hy : y < (computeTensor lib im sigmaG factorSigma).height) :
    (cornerResponse lib im k sigmaG factorSigma).pix x y 0 =
      if 0 < harrisR (computeTensor lib im sigmaG factorSigma) k x y then
        harrisR (computeTensor lib im sigmaG factorSigma) k x y
      else 0 := by
  unfold cornerResponse
  simp only []
  rw [score_loop_pix (fun i j => harrisR (computeTensor lib im sigmaG factorSigma) k i j)]
  simp only [List.mem_range, hx, hy, true_and, Image.zeros]

theorem computeTensor_uniform_pix (im : Image) (sigmaG factorSigma : ℚ) (x y : Int)
    (c : Nat) :
    (computeTensor ImageLib.uniform im sigmaG factorSigma).pix x y c =
      if c = 1 then 0 else 1 := by
  rfl

/-- With the uniform library and `k = 3/20` the response is `1 - 4 * (3/20) = 2/5` at every
pixel of the image. -/
theorem cornerResponse_uniform_pix (im : Image) (sigmaG factorSigma : ℚ) (x y : Nat)
    (hx : x < im.width) (hy : y < im.height) :
    (cornerResponse ImageLib.uniform im (3 / 20) sigmaG factorSigma).pix x y 0 = 2 / 5 := by
  obtain ⟨hw, hh⟩ := computeTensor_dims ImageLib.uniform im sigmaG factorSigma
    (fun _ _ => ⟨rfl, rfl⟩)
  rw [cornerResponse_pix _ _ _ _ _ x y (by rw [hw]; exact hx) (by rw [hh]; exact hy),
    harrisR_eq]
  simp only [computeTensor_uniform_pix]
  norm_num

/-- The corners found with the uniform library, `k = 3/20` and an integer margin `n`: all
pixels of the image from `n` to `width - 1 - n` and from `n` to `height - 1 - n`. -/
theorem mem_HarrisCorners_uniform (im : Image) (sigmaG factorSigma maxiDiam : ℚ) (n : Nat)
    (x y : Nat) (hx1 : n ≤ x) (hx2 : x + n < im.width) (hy1 : n ≤ y)
    (hy2 : y + n < im.height) :
    Point.mk x y ∈
      HarrisCorners ImageLib.uniform im (3 / 20) sigmaG factorSigma maxiDiam (n : ℚ) := by
  rw [mem_HarrisCorners, truncToInt_natCast]
  have hr := cornerResponse_uniform_pix im sigmaG factorSigma x y (by omega) (by omega)
  have hm : (ImageLib.uniform.maximum_filter
      (cornerResponse ImageLib.uniform im (3 / 20) sigmaG factorSigma) maxiDiam) =
      cornerResponse ImageLib.uniform im (3 / 20) sigmaG factorSigma := rfl
  rw [hm, hr]
  refine ⟨⟨by exact_mod_cast hx1, ?_⟩, ⟨by exact_mod_cast hy1, ?_⟩, by norm_num, rfl⟩
  · have : ((x + n : Nat) : ℚ) < (im.width : ℚ) := by exact_mod_cast hx2
    push_cast at this ⊢
    linarith
  · have : ((y + n : Nat) : ℚ) < (im.height : ℚ) := by exact_mod_cast hy2
    push_cast at this ⊢
    linarith

/-- The margin of `HarrisCorners` for an integer `boundarySize = n`: the loop bounds
select the coordinates from `n` to `size - 1 - n`. -/
theorem margin_natCast (n size : Nat) (x : Int) :
    (truncToInt (n : ℚ) ≤ x ∧ (x : ℚ) < (size : ℚ) - (n : ℚ)) ↔
      ((n : Int) ≤ x ∧ x ≤ (size : Int) - 1 - (n : Int)) := by
  rw [truncToInt_natCast]
  have h : ((x : ℚ) < (size : ℚ) - (n : ℚ)) ↔ x < (size : Int) - (n : Int) := by
    constructor
    · intro h; exact_mod_cast h
    · intro h; exact_mod_cast h
  rw [h]
  constructor
  · rintro ⟨h1, h2⟩; exact ⟨h1, by omega⟩
  · rintro ⟨h1, h2⟩; exact ⟨h1, by omega⟩

/-- The corners are listed column by column: strictly increasing in `x`, and in `y` within
a column. -/
theorem HarrisCorners_pairwise (lib : ImageLib) (im : Image)
    (k sigmaG factorSigma maxiDiam boundarySize : ℚ) :
    (HarrisCorners lib im k sigmaG factorSigma maxiDiam boundarySize).Pairwise
      (fun p q => p.x < q.x ∨ (p.x = q.x ∧ p.y < q.y)) := by
  rw [HarrisCorners_eq_flatMap, List.pairwise_flatMap]
  constructor
  · intro i _
    rw [List.pairwise_map]
    refine ((forLoopRange_pairwise _ _).filter _).imp ?_
    intro a b hab
    exact Or.inr ⟨rfl, hab⟩
  · refine (forLoopRange_pairwise _ _).imp ?_
    intro i1 i2 hi p hp q hq
    obtain ⟨_, _, rfl⟩ := List.mem_map.mp hp
    obtain ⟨_, _, rfl⟩ := List.mem_map.mp hq
    exact Or.inl hi

/-! ## Properties of the corner extractor -/

/-- C11: a pixel `(x, y)` is in the list returned by `HarrisCorners` if and only if it lies
inside the boundary margin on all four sides (the bounds of the two loops: from the
truncated `boundarySize` and below `width - boundarySize`, likewise for `y`; for an integer
`boundarySize = n` these are `n <= x <= width - 1 - n` and `n <= y <= height - 1 - n`), the
maximum-filtered response at `(x, y)` is strictly positive, and the response at `(x, y)`
equals it; nothing else is required, so every pixel of a plateau is returned; and when no
pixel satisfies the conditions the result is the empty list. -/
theorem HarrisCorners_acceptance (lib : ImageLib) (im : Image)
    (k sigmaG factorSigma maxiDiam boundarySize : ℚ) :
    (∀ x y : Int,
      Point.mk x y ∈ HarrisCorners lib im k sigmaG factorSigma maxiDiam boundarySize ↔
        (truncToInt boundarySize ≤ x ∧ (x : ℚ) < (im.width : ℚ) - boundarySize) ∧
        (truncToInt boundarySize ≤ y ∧ (y : ℚ) < (im.height : ℚ) - boundarySize) ∧
        (lib.maximum_filter (cornerResponse lib im k sigmaG factorSigma) maxiDiam).pix
          x y 0 > 0 ∧
        (cornerResponse lib im k sigmaG factorSigma).pix x y 0 =
          (lib.maximum_filter (cornerResponse lib im k sigmaG factorSigma) maxiDiam).pix
            x y 0) ∧
    (∀ n : Nat, boundarySize = (n : ℚ) → ∀ x y : Int,
      (Point.mk x y ∈ HarrisCorners lib im k sigmaG factorSigma maxiDiam boundarySize ↔
        ((n : Int) ≤ x ∧ x ≤ (im.width : Int) - 1 - (n : Int)) ∧
        ((n : Int) ≤ y ∧ y ≤ (im.height : Int) - 1 - (n : Int)) ∧
        (lib.maximum_filter (cornerResponse lib im k sigmaG factorSigma) maxiDiam).pix
          x y 0 > 0 ∧
        (cornerResponse lib im k sigmaG factorSigma).pix x y 0 =
          (lib.maximum_filter (cornerResponse lib im k sigmaG factorSigma) maxiDiam).pix
            x y 0)) ∧
    ((∀ x y : Int,
        ¬ ((truncToInt boundarySize ≤ x ∧ (x : ℚ) < (im.width : ℚ) - boundarySize) ∧
          (truncToInt boundarySize ≤ y ∧ (y : ℚ) < (im.height : ℚ) - boundarySize) ∧
          (lib.maximum_filter (cornerResponse lib im k sigmaG factorSigma) maxiDiam).pix
            x y 0 > 0 ∧
          (cornerResponse lib im k sigmaG factorSigma).pix x y 0 =
            (lib.maximum_filter (cornerResponse lib im k sigmaG factorSigma) maxiDiam).pix
              x y 0)) →
      HarrisCorners lib im k sigmaG factorSigma maxiDiam boundarySize = []) := by
  refine ⟨fun x y => mem_HarrisCorners lib im k sigmaG factorSigma maxiDiam boundarySize x y,
    ?_, ?_⟩
  · intro n hn x y
    rw [mem_HarrisCorners, hn, margin_natCast, margin_natCast]
  · intro hnone
    rw [List.eq_nil_iff_forall_not_mem]
    intro p hp
    exact hnone p.x p.y
      ((mem_HarrisCorners lib im k sigmaG factorSigma maxiDiam boundarySize p.x p.y).mp hp)

/-- C12, as stated, fails: on a 3×3 image with `boundarySize = 1` the pixel `(1, 1)`, which
is exactly one pixel from every edge (`x = boundarySize = width - 1 - boundarySize`), is
returned as a corner. -/
theorem HarrisCorners_boundary_counterexample :
    ((1 : Int) = ((1 : Nat) : Int) ∧
      (1 : Int) = ((Image.zeros 3 3 1).width : Int) - 1 - ((1 : Nat) : Int)) ∧
    Point.mk 1 1 ∈
      HarrisCorners ImageLib.uniform (Image.zeros 3 3 1) (3 / 20) 1 1 1 ((1 : Nat) : ℚ) :=
  ⟨⟨rfl, rfl⟩,
    mem_HarrisCorners_uniform (Image.zeros 3 3 1) 1 1 1 1 1 1 (le_refl 1) (by decide)
      (le_refl 1) (by decide)⟩

/-- C12 (amended): for every image of width `w` and height `h` and every non-negative
integer `boundarySize = n`, a pixel that is less than `n` pixels from an image edge
(`x < n`, `x > w - 1 - n`, `y < n` or `y > h - 1 - n`) is never returned as a corner, while
a pixel with `n <= x <= w - 1 - n` and `n <= y <= h - 1 - n` that has a positive response
equal to its neighbourhood maximum is returned. -/
theorem HarrisCorners_boundary (lib : ImageLib) (im : Image)
    (k sigmaG factorSigma maxiDiam : ℚ) (n : Nat) (x y : Int) :
    ((x < (n : Int) ∨ (im.width : Int) - 1 - (n : Int) < x ∨
        y < (n : Int) ∨ (im.height : Int) - 1 - (n : Int) < y) →
      Point.mk x y ∉ HarrisCorners lib im k sigmaG factorSigma maxiDiam (n : ℚ)) ∧
    (((n : Int) ≤ x ∧ x ≤ (im.width : Int) - 1 - (n : Int)) →
      ((n : Int) ≤ y ∧ y ≤ (im.height : Int) - 1 - (n : Int)) →
      (lib.maximum_filter (cornerResponse lib im k sigmaG factorSigma) maxiDiam).pix
        x y 0 > 0 →
      (cornerResponse lib im k sigmaG factorSigma).pix x y 0 =
        (lib.maximum_filter (cornerResponse lib im k sigmaG factorSigma) maxiDiam).pix
          x y 0 →
      Point.mk x y ∈ HarrisCorners lib im k sigmaG factorSigma maxiDiam (n : ℚ)) := by
  rw [mem_HarrisCorners, margin_natCast, margin_natCast]
  constructor
  · rintro hout ⟨hx, hy, _⟩
    omega
  · intro hx hy hpos heq
    exact ⟨hx, hy, hpos, heq⟩

/-- Witness of C12 (amended): on a 3×3 image with `boundarySize = 1` the pixel `(0, 1)` is
not returned. -/
theorem HarrisCorners_boundary_witness :
    Point.mk 0 1 ∉
      HarrisCorners ImageLib.uniform (Image.zeros 3 3 1) (3 / 20) 1 1 1 ((1 : Nat) : ℚ) :=
  (HarrisCorners_boundary ImageLib.uniform (Image.zeros 3 3 1) (3 / 20) 1 1 1 1 0 1).1
    (Or.inl (by decide))

/-- C13, as stated, fails: on a 2×2 image where every pixel is a corner the list is
`(0,0), (0,1), (1,0), (1,1)`: the point `(0, 1)` precedes the point `(1, 0)`, whose `y` is
smaller. -/
theorem HarrisCorners_order_counterexample :
    HarrisCorners ImageLib.uniform (Image.zeros 2 2 1) (3 / 20) 1 1 1 0 =
      [Point.mk 0 0, Point.mk 0 1, Point.mk 1 0, Point.mk 1 1] := by
  have hrange : forLoopRange 0 2 = [0, 1] := by
    unfold forLoopRange
    have hc : ⌈(2 : ℚ)⌉ = 2 := by exact_mod_cast Int.ceil_natCast (α := ℚ) 2
    rw [hc]
    rfl
  have ht : truncToInt 0 = 0 := by simp [truncToInt]
  have hm : ∀ r : Image, ImageLib.uniform.maximum_filter r 1 = r := fun _ => rfl
  have h00 := cornerResponse_uniform_pix (Image.zeros 2 2 1) 1 1 0 0 (by decide) (by decide)
  have h01 := cornerResponse_uniform_pix (Image.zeros 2 2 1) 1 1 0 1 (by decide) (by decide)
  have h10 := cornerResponse_uniform_pix (Image.zeros 2 2 1) 1 1 1 0 (by decide) (by decide)
  have h11 := cornerResponse_uniform_pix (Image.zeros 2 2 1) 1 1 1 1 (by decide) (by decide)
  simp only [Nat.cast_zero, Nat.cast_one] at h00 h01 h10 h11
  rw [HarrisCorners_eq_flatMap, ht]
  have hw : ((Image.zeros 2 2 1).width : ℚ) - 0 = 2 := by simp [Image.zeros]
  have hh : ((Image.zeros 2 2 1).height : ℚ) - 0 = 2 := by simp [Image.zeros]
  rw [hw, hh, hrange]
  simp only [hm, List.flatMap_cons, List.flatMap_nil, List.filter_cons, List.filter_nil,
    h00, h01, h10, h11]
  norm_num

/-- C13 (amended): the points returned by `HarrisCorners` are in the order of its two
loops, column by column: a point with a smaller `x` precedes every point with a larger
`x`, and within one column the points are in increasing `y`; no point occurs twice. -/
theorem HarrisCorners_order (lib : ImageLib) (im : Image)
    (k sigmaG factorSigma maxiDiam boundarySize : ℚ) :
    (HarrisCorners lib im k sigmaG factorSigma maxiDiam boundarySize).Pairwise
      (fun p q => p.x < q.x ∨ (p.x = q.x ∧ p.y < q.y)) ∧
    (HarrisCorners lib im k sigmaG factorSigma maxiDiam boundarySize).Nodup := by
  refine ⟨HarrisCorners_pairwise lib im k sigmaG factorSigma maxiDiam boundarySize, ?_⟩
  refine (HarrisCorners_pairwise lib im k sigmaG factorSigma maxiDiam boundarySize).imp ?_
  intro p q hpq heq
  rw [heq] at hpq
  rcases hpq with h | ⟨_, h⟩
  · exact lt_irrefl _ h
  · exact lt_irrefl _ h

/-! ## Facts about the descriptor builder -/

theorem truncToInt_intCast (z : Int) : truncToInt (z : ℚ) = z := by
  unfold truncToInt
  split
  · exact Int.floor_intCast z
  · exact Int.ceil_intCast z

theorem ImageOf.set_pix {K : Type} (im : ImageOf K) (x y : Int) (c : Nat) (v : K)
    (a b : Int) (d : Nat) :
    (im.set x y c v).pix a b d = if a = x ∧ b = y ∧ d = c then v else im.pix a b d :=
  rfl

/-- A row of writes leaves the other columns as they are. -/
theorem writeRow_other {K κ : Type} (x0 : Int) (fy : κ → Int) (v : κ → K) :
    ∀ (ys : List κ) (out : ImageOf K) (a b : Int) (c : Nat), a ≠ x0 →
      (ys.foldl (fun (out : ImageOf K) (j : κ) => out.set x0 (fy j) 0 (v j)) out).pix a b c =
        out.pix a b c
  | [], _, _, _, _, _ => rfl
  | j :: ys, out, a, b, c, h => by
    rw [List.foldl_cons, writeRow_other x0 fy v ys _ a b c h, ImageOf.set_pix,
      if_neg (fun hh => h hh.1)]

/-- After a row of writes every written position holds its value, when writes to the same
position carry the same value. -/
theorem writeRow_hit {K κ : Type} (x0 : Int) (fy : κ → Int) (v : κ → K) (ys : List κ)
    (hcons : ∀ j ∈ ys, ∀ j1 ∈ ys, fy j = fy j1 → v j = v j1) (out : ImageOf K) :
    ∀ j ∈ ys,
      (ys.foldl (fun (out : ImageOf K) (j : κ) => out.set x0 (fy j) 0 (v j)) out).pix
        x0 (fy j) 0 = v j := by
  induction ys using List.reverseRecOn with
  | nil => intro j hj; simp at hj
  | append_singleton ys j1 ih =>
    intro j hj
    rw [List.foldl_append, List.foldl_cons, List.foldl_nil, ImageOf.set_pix]
    by_cases hy : fy j = fy j1
    · rw [if_pos ⟨rfl, hy, rfl⟩]
      exact (hcons j hj j1 (by simp) hy).symm
    · have hne : ¬ (x0 = x0 ∧ fy j = fy j1 ∧ (0 : Nat) = 0) := fun h => hy h.2.1
      rw [if_neg hne]
      have hj' : j ∈ ys := by
        rcases List.mem_append.mp hj with h | h
        · exact h
        · have : j = j1 := by simpa using h
          exact absurd (congrArg fy this) hy
      exact ih (fun a ha b hb => hcons a (by simp [ha]) b (by simp [hb])) j hj'

/-- After the two nested write loops every written position holds its value, when writes
to the same position carry the same value. -/
theorem writeLoop_hit {K ι κ : Type} (fx : ι → Int) (fy : κ → Int) (v : ι → κ → K)
    (xs : List ι) (ys : List κ)
    (hcons : ∀ i ∈ xs, ∀ i1 ∈ xs, ∀ j ∈ ys, ∀ j1 ∈ ys,
      fx i = fx i1 → fy j = fy j1 → v i j = v i1 j1)
    (out : ImageOf K) :
    ∀ i ∈ xs, ∀ j ∈ ys,
      (xs.foldl (fun (out : ImageOf K) (i : ι) =>
        ys.foldl (fun (out : ImageOf K) (j : κ) => out.set (fx i) (fy j) 0 (v i j)) out)
        out).pix (fx i) (fy j) 0 = v i j := by
  induction xs using List.reverseRecOn with
  | nil => intro i hi; simp at hi
  | append_singleton xs i1 ih =>
    intro i hi j hj
    rw [List.foldl_append]
    simp only [List.foldl_cons, List.foldl_nil]
    by_cases hx : fx i = fx i1
    · rw [hx, writeRow_hit (fx i1) fy (v i1) ys
        (fun a ha b hb hab => hcons i1 (by simp) i1 (by simp) a ha b hb rfl hab) _ j hj]
      exact (hcons i hi i1 (by simp) j hj j hj hx rfl).symm
    · rw [writeRow_other (fx i1) fy (v i1) ys _ _ _ _ hx]
      have hi' : i ∈ xs := by
        rcases List.mem_append.mp hi with h | h
        · exact h
        · have : i = i1 := by simpa using h
          exact absurd (congrArg fx this) hx
      exact ih (fun a ha a1 ha1 b hb b1 hb1 =>
        hcons a (by simp [ha]) a1 (by simp [ha1]) b hb b1 hb1) i hi' j hj

/-- The write loops keep the width, the height and the number of channels. -/
theorem writeLoop_dims {K ι κ : Type} (fx : ι → Int) (fy : κ → Int) (v : ι → κ → K)
    (xs : List ι) (ys : List κ) (out : ImageOf K) :
    (xs.foldl (fun (out : ImageOf K) (i : ι) =>
        ys.foldl (fun (out : ImageOf K) (j : κ) => out.set (fx i) (fy j) 0 (v i j)) out)
        out).width = out.width ∧
    (xs.foldl (fun (out : ImageOf K) (i : ι) =>
        ys.foldl (fun (out : ImageOf K) (j : κ) => out.set (fx i) (fy j) 0 (v i j)) out)
        out).height = out.height ∧
    (xs.foldl (fun (out : ImageOf K) (i : ι) =>
        ys.foldl (fun (out : ImageOf K) (j : κ) => out.set (fx i) (fy j) 0 (v i j)) out)
        out).channels = out.channels := by
  apply foldl_preserves (fun o : ImageOf K =>
    o.width = out.width ∧ o.height = out.height ∧ o.channels = out.channels)
  · intro o i ho
    apply foldl_preserves (fun o : ImageOf K =>
      o.width = out.width ∧ o.height = out.height ∧ o.channels = out.channels)
    · intro o j ho
      exact ho
    · exact ho
  · exact ⟨rfl, rfl, rfl⟩

theorem subtractMean_dims {K : Type} [Field K] (o : ImageOf K) :
    (subtractMean o).width = o.width ∧ (subtractMean o).height = o.height ∧
      (subtractMean o).channels = o.channels :=
  writeLoop_dims (fun i : Nat => (i : Int)) (fun j : Nat => (j : Int))
    (fun i j => o.pix (i : Int) (j : Int) 0 - o.mean) _ _ o

theorem subtractMean_pix {K : Type} [Field K] (o : ImageOf K) (a b : Nat)
    (ha : a < o.width) (hb : b < o.height) :
    (subtractMean o).pix (a : Int) (b : Int) 0 = o.pix (a : Int) (b : Int) 0 - o.mean :=
  writeLoop_hit (fun i : Nat => (i : Int)) (fun j : Nat => (j : Int))
    (fun i j => o.pix (i : Int) (j : Int) 0 - o.mean) _ _
    (fun i _ i1 _ j _ j1 _ hi hj => by
      have h1 : i = i1 := Int.ofNat.inj hi
      have h2 : j = j1 := Int.ofNat.inj hj
      rw [h1, h2])
    o a (List.mem_range.mpr ha) b (List.mem_range.mpr hb)

theorem divideByDeviation_dims {K : Type} [Field K] (sqrtK : K → K) (divK : K → K → K)
    (s : ImageOf K) :
    (divideByDeviation sqrtK divK s).width = s.width ∧
      (divideByDeviation sqrtK divK s).height = s.height ∧
      (divideByDeviation sqrtK divK s).channels = s.channels :=
  writeLoop_dims (fun i : Nat => (i : Int)) (fun j : Nat => (j : Int))
    (fun i j => divK (s.pix (i : Int) (j : Int) 0) (sqrtK s.var)) _ _ s

theorem divideByDeviation_pix {K : Type} [Field K] (sqrtK : K → K) (divK : K → K → K)
    (s : ImageOf K) (a b : Nat) (ha : a < s.width) (hb : b < s.height) :
    (divideByDeviation sqrtK divK s).pix (a : Int) (b : Int) 0 =
      divK (s.pix (a : Int) (b : Int) 0) (sqrtK s.var) :=
  writeLoop_hit (fun i : Nat => (i : Int)) (fun j : Nat => (j : Int))
    (fun i j => divK (s.pix (i : Int) (j : Int) 0) (sqrtK s.var)) _ _
    (fun i _ i1 _ j _ j1 _ hi hj => by
      have h1 : i = i1 := Int.ofNat.inj hi
      have h2 : j = j1 := Int.ofNat.inj hj
      rw [h1, h2])
    s a (List.mem_range.mpr ha) b (List.mem_range.mpr hb)

/-- The dimensions of the window for an integer radius `r`: a square of side `2r + 1` with
one channel. -/
theorem descriptorWindow_dims {K : Type} [Field K] (blurredIm : ImageOf K) (p : Point)
    (r : Nat) :
    (descriptorWindow blurredIm p (r : ℚ)).width = 2 * r + 1 ∧
      (descriptorWindow blurredIm p (r : ℚ)).height = 2 * r + 1 ∧
      (descriptorWindow blurredIm p (r : ℚ)).channels = 1 := by
  have hside : (truncToInt ((r : ℚ) * 2 + 1)).toNat = 2 * r + 1 := by
    have : ((r : ℚ) * 2 + 1) = ((2 * r + 1 : Nat) : ℚ) := by push_cast; ring
    rw [this, truncToInt_natCast]
    exact Int.toNat_natCast _
  unfold descriptorWindow
  simp only []
  obtain ⟨h1, h2, h3⟩ := writeLoop_dims (K := K)
    (fun i : Int => truncToInt ((i : ℚ) - ((p.x : ℚ) - (r : ℚ))))
    (fun j : Int => truncToInt ((j : ℚ) - ((p.y : ℚ) - (r : ℚ))))
    (fun i j => blurredIm.pix i j 0)
    (forLoopRange (truncToInt ((p.x : ℚ) - (r : ℚ))) ((p.x : ℚ) + (r : ℚ) + 1))
    (forLoopRange (truncToInt ((p.y : ℚ) - (r : ℚ))) ((p.y : ℚ) + (r : ℚ) + 1))
    (ImageOf.zeros (truncToInt ((r : ℚ) * 2 + 1)).toNat
      (truncToInt ((r : ℚ) * 2 + 1)).toNat 1)
  rw [h1, h2, h3]
  simp only [ImageOf.zeros, hside, and_self]

/-- The window for an integer radius `r`: position `(a, b)` holds the pixel
`(p.x - r + a, p.y - r + b)` of the blurred image. -/
theorem descriptorWindow_pix {K : Type} [Field K] (blurredIm : ImageOf K) (p : Point)
    (r : Nat) (a b : Nat) (ha : a < 2 * r + 1) (hb : b < 2 * r + 1) :
    (descriptorWindow blurredIm p (r : ℚ)).pix (a : Int) (b : Int) 0 =
      blurredIm.pix (p.x - r + a) (p.y - r + b) 0 := by
  have hidx : ∀ (c i : Int), truncToInt ((i : ℚ) - ((c : ℚ) - (r : ℚ))) = i - c + r := by
    intro c i
    have : ((i : ℚ) - ((c : ℚ) - (r : ℚ))) = ((i - c + r : Int) : ℚ) := by push_cast; ring
    rw [this, truncToInt_intCast]
  have hmem : ∀ (c : Int) (t : Nat), t < 2 * r + 1 →
      c - r + t ∈ forLoopRange (truncToInt ((c : ℚ) - (r : ℚ))) ((c : ℚ) + (r : ℚ) + 1) := by
    intro c t ht
    rw [mem_forLoopRange]
    have h1 : ((c : ℚ) - (r : ℚ)) = ((c - r : Int) : ℚ) := by push_cast; ring
    rw [h1, truncToInt_intCast]
    refine ⟨by omega, ?_⟩
    have h2 : ((c : ℚ) + (r : ℚ) + 1) = ((c + r + 1 : Int) : ℚ) := by push_cast; ring
    rw [h2]
    exact_mod_cast (by omega : c - (r : Int) + (t : Int) < c + r + 1)
  have key := writeLoop_hit (K := K)
    (fun i : Int => truncToInt ((i : ℚ) - ((p.x : ℚ) - (r : ℚ))))
    (fun j : Int => truncToInt ((j : ℚ) - ((p.y : ℚ) - (r : ℚ))))
    (fun i j => blurredIm.pix i j 0)
    (forLoopRange (truncToInt ((p.x : ℚ) - (r : ℚ))) ((p.x : ℚ) + (r : ℚ) + 1))
    (forLoopRange (truncToInt ((p.y : ℚ) - (r : ℚ))) ((p.y : ℚ) + (r : ℚ) + 1))
    (fun i _ i1 _ j _ j1 _ hi hj => by
      simp only [hidx] at hi hj
      have h1 : i = i1 := by omega
      have h2 : j = j1 := by omega
      rw [h1, h2])
    (ImageOf.zeros (truncToInt ((r : ℚ) * 2 + 1)).toNat
      (truncToInt ((r : ℚ) * 2 + 1)).toNat 1)
    (p.x - r + a) (hmem p.x a ha) (p.y - r + b) (hmem p.y b hb)
  have ea : truncToInt (((p.x - r + a : Int) : ℚ) - ((p.x : ℚ) - (r : ℚ))) = (a : Int) := by
    rw [hidx]; omega
  have eb : truncToInt (((p.y - r + b : Int) : ℚ) - ((p.y : ℚ) - (r : ℚ))) = (b : Int) := by
    rw [hidx]; omega
  have key1 : (descriptorWindow blurredIm p (r : ℚ)).pix
      (truncToInt (((p.x - r + a : Int) : ℚ) - ((p.x : ℚ) - (r : ℚ))))
      (truncToInt (((p.y - r + b : Int) : ℚ) - ((p.y : ℚ) - (r : ℚ)))) 0 =
      blurredIm.pix (p.x - r + a) (p.y - r + b) 0 := key
  rw [ea, eb] at key1
  exact key1

theorem total_of_one_channel {K : Type} [Field K] (im : ImageOf K) (hc : im.channels = 1) :
    im.total =
      ∑ x ∈ Finset.range im.width, ∑ y ∈ Finset.range im.height,
        im.pix (x : Int) (y : Int) 0 := by
  unfold ImageOf.total
  rw [hc]
  simp

theorem var_of_one_channel {K : Type} [Field K] (im : ImageOf K) (hc : im.channels = 1) :
    im.var =
      (∑ x ∈ Finset.range im.width, ∑ y ∈ Finset.range im.height,
        (im.pix (x : Int) (y : Int) 0 - im.mean) ^ 2) / ((im.width * im.height : Nat) : K) := by
  unfold ImageOf.var ImageOf.numberOfElements
  rw [hc]
  simp

theorem mean_of_one_channel {K : Type} [Field K] (im : ImageOf K) (hc : im.channels = 1) :
    im.mean = im.total / ((im.width * im.height : Nat) : K) := by
  unfold ImageOf.mean ImageOf.numberOfElements
  rw [hc]
  simp

/-- After the subtraction of the mean the elements of a one-channel image sum to zero. -/
theorem subtractMean_total {K : Type} [Field K] (o : ImageOf K) (hc : o.channels = 1)
    (hn : ((o.width * o.height : Nat) : K) ≠ 0) : (subtractMean o).total = 0 := by
  obtain ⟨hw, hh, hch⟩ := subtractMean_dims o
  rw [total_of_one_channel _ (hch.trans hc), hw, hh]
  have hcongr : ∑ x ∈ Finset.range o.width, ∑ y ∈ Finset.range o.height,
      (subtractMean o).pix (x : Int) (y : Int) 0 =
      ∑ x ∈ Finset.range o.width, ∑ y ∈ Finset.range o.height,
        (o.pix (x : Int) (y : Int) 0 - o.mean) := by
    refine Finset.sum_congr rfl fun x hx => Finset.sum_congr rfl fun y hy => ?_
    exact subtractMean_pix o x y (Finset.mem_range.mp hx) (Finset.mem_range.mp hy)
  rw [hcongr]
  simp only [Finset.sum_sub_distrib, Finset.sum_const, Finset.card_range, nsmul_eq_mul]
  rw [mean_of_one_channel o hc, total_of_one_channel o hc]
  push_cast at hn ⊢
  field_simp
  ring

theorem subtractMean_mean {K : Type} [Field K] (o : ImageOf K) (hc : o.channels = 1)
    (hn : ((o.width * o.height : Nat) : K) ≠ 0) : (subtractMean o).mean = 0 := by
  unfold ImageOf.mean
  rw [subtractMean_total o hc hn, zero_div]

/-- The subtraction of the mean keeps the variance. -/
theorem subtractMean_var {K : Type} [Field K] (o : ImageOf K) (hc : o.channels = 1)
    (hn : ((o.width * o.height : Nat) : K) ≠ 0) : (subtractMean o).var = o.var := by
  obtain ⟨hw, hh, hch⟩ := subtractMean_dims o
  rw [var_of_one_channel _ (hch.trans hc), var_of_one_channel o hc, hw, hh,
    subtractMean_mean o hc hn]
  congr 1
  refine Finset.sum_congr rfl fun x hx => Finset.sum_congr rfl fun y hy => ?_
  rw [subtractMean_pix o x y (Finset.mem_range.mp hx) (Finset.mem_range.mp hy), sub_zero]

/-- The division by a non-zero deviation keeps a zero mean. -/
theorem divideByDeviation_mean {K : Type} [Field K] (sqrtK : K → K) (divK : K → K → K)
    (s : ImageOf K) (hc : s.channels = 1) (hmean : s.total = 0)
    (hdev : sqrtK s.var ≠ 0) (hdiv : ∀ a b : K, b ≠ 0 → divK a b = a / b) :
    (divideByDeviation sqrtK divK s).mean = 0 := by
  obtain ⟨hw, hh, hch⟩ := divideByDeviation_dims sqrtK divK s
  unfold ImageOf.mean
  rw [total_of_one_channel _ (hch.trans hc), hw, hh]
  have hcongr : ∑ x ∈ Finset.range s.width, ∑ y ∈ Finset.range s.height,
      (divideByDeviation sqrtK divK s).pix (x : Int) (y : Int) 0 =
      ∑ x ∈ Finset.range s.width, ∑ y ∈ Finset.range s.height,
        s.pix (x : Int) (y : Int) 0 / sqrtK s.var := by
    refine Finset.sum_congr rfl fun x hx => Finset.sum_congr rfl fun y hy => ?_
    rw [divideByDeviation_pix sqrtK divK s x y (Finset.mem_range.mp hx)
      (Finset.mem_range.mp hy), hdiv _ _ hdev]
  rw [hcongr]
  simp only [← Finset.sum_div]
  rw [← total_of_one_channel s hc, hmean, zero_div, zero_div]

/-- The division by a non-zero deviation divides the variance of a zero-mean image by the
square of the deviation. -/
theorem divideByDeviation_var {K : Type} [Field K] (sqrtK : K → K) (divK : K → K → K)
    (s : ImageOf K) (hc : s.channels = 1) (hmean : s.total = 0)
    (hdev : sqrtK s.var ≠ 0) (hdiv : ∀ a b : K, b ≠ 0 → divK a b = a / b) :
    (divideByDeviation sqrtK divK s).var = s.var / sqrtK s.var ^ 2 := by
  obtain ⟨hw, hh, hch⟩ := divideByDeviation_dims sqrtK divK s
  have hm0 : s.mean = 0 := by unfold ImageOf.mean; rw [hmean, zero_div]
  have hv : s.var =
      (∑ x ∈ Finset.range s.width, ∑ y ∈ Finset.range s.height,
        s.pix (x : Int) (y : Int) 0 ^ 2) / ((s.width * s.height : Nat) : K) := by
    rw [var_of_one_channel s hc, hm0]
    simp only [sub_zero]
  have hcongr : ∑ x ∈ Finset.range s.width, ∑ y ∈ Finset.range s.height,
      ((divideByDeviation sqrtK divK s).pix (x : Int) (y : Int) 0 - 0) ^ 2 =
      ∑ x ∈ Finset.range s.width, ∑ y ∈ Finset.range s.height,
        s.pix (x : Int) (y : Int) 0 ^ 2 / sqrtK s.var ^ 2 := by
    refine Finset.sum_congr rfl fun x hx => Finset.sum_congr rfl fun y hy => ?_
    rw [divideByDeviation_pix sqrtK divK s x y (Finset.mem_range.mp hx)
      (Finset.mem_range.mp hy), hdiv _ _ hdev, sub_zero, div_pow]
  calc (divideByDeviation sqrtK divK s).var
      = (∑ x ∈ Finset.range s.width, ∑ y ∈ Finset.range s.height,
          s.pix (x : Int) (y : Int) 0 ^ 2 / sqrtK s.var ^ 2) /
          ((s.width * s.height : Nat) : K) := by
        rw [var_of_one_channel _ (hch.trans hc), hw, hh,
          divideByDeviation_mean sqrtK divK s hc hmean hdev hdiv, hcongr]
    _ = (∑ x ∈ Finset.range s.width, ∑ y ∈ Finset.range s.height,
          s.pix (x : Int) (y : Int) 0 ^ 2) / ((s.width * s.height : Nat) : K) /
          sqrtK s.var ^ 2 := by
        simp only [← Finset.sum_div]
        rw [div_right_comm]
    _ = s.var / sqrtK s.var ^ 2 := by rw [← hv]

theorem var_nonneg_real (im : ImageOf ℝ) : 0 ≤ im.var := by
  unfold ImageOf.var
  refine div_nonneg ?_ (Nat.cast_nonneg _)
  exact Finset.sum_nonneg fun x _ => Finset.sum_nonneg fun y _ =>
    Finset.sum_nonneg fun c _ => sq_nonneg _

/-- The variance of the window of the ramp image around `(1, 1)` with radius 1. -/
theorem rampImage_window_var :
    (descriptorWindow (rampImage ℝ) (Point.mk 1 1) ((1 : Nat) : ℚ)).var = 2 / 3 := by
  obtain ⟨hw, hh, hc⟩ := descriptorWindow_dims (rampImage ℝ) (Point.mk 1 1) 1
  have hpix : ∀ a b : Nat, a < 3 → b < 3 →
      (descriptorWindow (rampImage ℝ) (Point.mk 1 1) ((1 : Nat) : ℚ)).pix (a : Int) (b : Int) 0 =
        (a : ℝ) := by
    intro a b ha hb
    rw [descriptorWindow_pix (rampImage ℝ) (Point.mk 1 1) 1 a b (by omega) (by omega)]
    simp [rampImage]
  have hmean : (descriptorWindow (rampImage ℝ) (Point.mk 1 1) ((1 : Nat) : ℚ)).mean = 1 := by
    rw [mean_of_one_channel _ hc, total_of_one_channel _ hc, hw, hh]
    have : ∑ x ∈ Finset.range (2 * 1 + 1), ∑ y ∈ Finset.range (2 * 1 + 1),
        (descriptorWindow (rampImage ℝ) (Point.mk 1 1) ((1 : Nat) : ℚ)).pix
          (x : Int) (y : Int) 0 =
        ∑ x ∈ Finset.range (2 * 1 + 1), ∑ _y ∈ Finset.range (2 * 1 + 1), (x : ℝ) := by
      refine Finset.sum_congr rfl fun x hx => Finset.sum_congr rfl fun y hy => ?_
      exact hpix x y (Finset.mem_range.mp hx) (Finset.mem_range.mp hy)
    rw [this]
    simp [Finset.sum_range_succ]
    norm_num
  rw [var_of_one_channel _ hc, hmean, hw, hh]
  have : ∑ x ∈ Finset.range (2 * 1 + 1), ∑ y ∈ Finset.range (2 * 1 + 1),
      ((descriptorWindow (rampImage ℝ) (Point.mk 1 1) ((1 : Nat) : ℚ)).pix
        (x : Int) (y : Int) 0 - 1) ^ 2 =
      ∑ x ∈ Finset.range (2 * 1 + 1), ∑ _y ∈ Finset.range (2 * 1 + 1), ((x : ℝ) - 1) ^ 2 := by
    refine Finset.sum_congr rfl fun x hx => Finset.sum_congr rfl fun y hy => ?_
    rw [hpix x y (Finset.mem_range.mp hx) (Finset.mem_range.mp hy)]
  rw [this]
  simp [Finset.sum_range_succ]
  norm_num

/-! ## Properties of the descriptor builder -/

/-- C14: over exact real arithmetic (`descriptor` run on a real image with the real square
root and any division `divR` that is the real quotient for a non-zero divisor), for every
blurred image, every point `p` and every integer radius `r` such that the `(2r+1)×(2r+1)`
window around `p` has non-zero variance, the patch returned by `descriptor` is a square of
side `2r + 1` whose values have mean 0 and variance 1, for the mean and the variance of the
image class. -/
theorem descriptor_normalised (divR : ℝ → ℝ → ℝ)
    (hdiv : ∀ a b : ℝ, b ≠ 0 → divR a b = a / b)
    (blurredIm : ImageOf ℝ) (p : Point) (r : Nat)
    (hvar : (descriptorWindow blurredIm p (r : ℚ)).var ≠ 0) :
    (descriptor Real.sqrt divR blurredIm p (r : ℚ)).width = 2 * r + 1 ∧
    (descriptor Real.sqrt divR blurredIm p (r : ℚ)).height = 2 * r + 1 ∧
    (descriptor Real.sqrt divR blurredIm p (r : ℚ)).mean = 0 ∧
    (descriptor Real.sqrt divR blurredIm p (r : ℚ)).var = 1 := by
  obtain ⟨hw, hh, hc⟩ := descriptorWindow_dims blurredIm p r
  obtain ⟨hsw, hsh, hsc⟩ := subtractMean_dims (descriptorWindow blurredIm p (r : ℚ))
  obtain ⟨hdw, hdh, _⟩ := divideByDeviation_dims Real.sqrt divR
    (subtractMean (descriptorWindow blurredIm p (r : ℚ)))
  have hn : (((descriptorWindow blurredIm p (r : ℚ)).width *
      (descriptorWindow blurredIm p (r : ℚ)).height : Nat) : ℝ) ≠ 0 := by
    rw [hw, hh]
    positivity
  have htotal := subtractMean_total (descriptorWindow blurredIm p (r : ℚ)) hc hn
  have hsvar := subtractMean_var (descriptorWindow blurredIm p (r : ℚ)) hc hn
  have hdev : Real.sqrt (subtractMean (descriptorWindow blurredIm p (r : ℚ))).var ≠ 0 := by
    rw [hsvar]
    exact (Real.sqrt_ne_zero (var_nonneg_real _)).mpr hvar
  unfold descriptor
  simp only []
  refine ⟨by rw [hdw, hsw, hw], by rw [hdh, hsh, hh], ?_, ?_⟩
  · exact divideByDeviation_mean Real.sqrt divR _ (hsc.trans hc) htotal hdev hdiv
  · rw [divideByDeviation_var Real.sqrt divR _ (hsc.trans hc) htotal hdev hdiv, hsvar,
      Real.sq_sqrt (var_nonneg_real _)]
    exact div_self hvar

/-- Witness of C14: the window of radius 1 around `(1, 1)` of the ramp image, of variance
`2/3`, with the real quotient as division. -/
theorem descriptor_normalised_witness :
    (descriptor Real.sqrt (fun a b => a / b) (rampImage ℝ) (Point.mk 1 1)
      ((1 : Nat) : ℚ)).mean = 0 ∧
    (descriptor Real.sqrt (fun a b => a / b) (rampImage ℝ) (Point.mk 1 1)
      ((1 : Nat) : ℚ)).var = 1 :=
  have h := descriptor_normalised (fun a b => a / b) (fun _ _ _ => rfl) (rampImage ℝ)
    (Point.mk 1 1) 1 (by rw [rampImage_window_var]; norm_num)
  ⟨h.2.2.1, h.2.2.2⟩

theorem foldl_push_eq_map {α β : Type} (g : α → β) :
    ∀ (l : List α) (acc : List β),
      l.foldl (fun (acc : List β) (a : α) => acc ++ [g a]) acc = acc ++ l.map g
  | [], acc => by simp
  | a :: l, acc => by
    rw [List.foldl_cons, foldl_push_eq_map g l]
    simp

/-- The push-back loop of `computeFeatures` is a map over the corners. -/
theorem computeFeatures_eq_map (lib : ImageLib) (sqrtf : ℚ → ℚ) (divf : ℚ → ℚ → ℚ)
    (im : Image) (cornersL : List Point) (sigmaBlurDescriptor radiusDescriptor : ℚ) :
    computeFeatures lib sqrtf divf im cornersL sigmaBlurDescriptor radiusDescriptor =
      cornersL.map (fun point =>
        Feature.mk point
          (descriptor sqrtf divf
            (lib.gaussianBlur_separable (lib.lumiChromi im).1
              sigmaBlurDescriptor).toImageOf point radiusDescriptor).toImage) := by
  unfold computeFeatures
  simp only []
  rw [foldl_push_eq_map]
  simp

/-- C15: `computeFeatures` returns one feature per corner, in the order of the corners:
the list has the length of the corner list, and for every index `i` the point of the
`i`-th feature is the `i`-th corner and its descriptor is
`descriptor(blurred luminance, i-th corner, radiusDescriptor)`. -/
theorem computeFeatures_positional (lib : ImageLib) (sqrtf : ℚ → ℚ) (divf : ℚ → ℚ → ℚ)
    (im : Image) (cornersL : List Point) (sigmaBlurDescriptor radiusDescriptor : ℚ) :
    (computeFeatures lib sqrtf divf im cornersL sigmaBlurDescriptor radiusDescriptor).length =
      cornersL.length ∧
    ∀ (i : Nat) (p : Point), cornersL[i]? = some p →
      ∃ f : Feature,
        (computeFeatures lib sqrtf divf im cornersL sigmaBlurDescriptor
          radiusDescriptor)[i]? = some f ∧
        f.point = p ∧
        f.desc =
          (descriptor sqrtf divf
            (lib.gaussianBlur_separable (lib.lumiChromi im).1
              sigmaBlurDescriptor).toImageOf p radiusDescriptor).toImage := by
  rw [computeFeatures_eq_map]
  refine ⟨List.length_map _ _, ?_⟩
  intro i p hp
  refine ⟨Feature.mk p
    (descriptor sqrtf divf
      (lib.gaussianBlur_separable (lib.lumiChromi im).1
        sigmaBlurDescriptor).toImageOf p radiusDescriptor).toImage, ?_, rfl, rfl⟩
  rw [List.getElem?_map, hp]
  rfl

/-- Witness of C15: two corners of the wide ramp image, both with their window of radius 1
inside the image. -/
theorem computeFeatures_positional_witness :
    ∃ f : Feature,
      (computeFeatures ImageLib.identity (fun v => v) (fun a b => a / b) wideRamp
        [Point.mk 1 1, Point.mk 2 1] 1 1)[1]? = some f ∧
      f.point = Point.mk 2 1 ∧
      f.desc =
        (descriptor (fun v => v) (fun a b => a / b)
          (ImageLib.identity.gaussianBlur_separable
            (ImageLib.identity.lumiChromi wideRamp).1 1).toImageOf
          (Point.mk 2 1) 1).toImage :=
  (computeFeatures_positional ImageLib.identity (fun v => v) (fun a b => a / b) wideRamp
    [Point.mk 1 1, Point.mk 2 1] 1 1).2 1 (Point.mk 2 1) rfl

/-! ## The feature matcher on fewer than two features -/

theorem scan_nil (f1 : Feature) : scan f1 [] = scanInit f1 := rfl

/-- The scan of a single feature: below the sentinel it becomes the best and the sentinel
becomes the second best; otherwise nothing is set. -/
theorem scan_singleton (f1 b : Feature) :
    scan f1 [b] =
      if l2Features f1 b < 5000000 then
        { best_dif := l2Features f1 b, best_feature := b,
          second_best_dif := 5000000, second_best_feature := f1, was_set := true }
      else scanInit f1 := by
  by_cases h : l2Features f1 b < 5000000
  · rw [if_pos h]
    simp [scan, scanStep, scanInit, h]
  · rw [if_neg h]
    have h2 : ¬ l2Features f1 b < 50000 := fun h3 => h (lt_trans h3 (by norm_num))
    simp [scan, scanStep, scanInit, h, h2]

/-- The float quotient by a non-zero divisor is the quotient of the field. -/
theorem fdiv_ge_of_ne_zero (a b c : ℚ) (hb : b ≠ 0) :
    (fdiv a b).ge c = true ↔ c ≤ a / b := by
  simp [fdiv, hb, FloatQuotient.ge]

/-- C21: when `B` is empty `findCorrespondences` returns nothing; when `B` is a single
feature `b`, a feature `fA` of `A` yields the correspondence `(fA, b)` if and only if
`d = l2Features(fA, b)` is below 5000000 and the float quotient `5000000 / d` is at least
the squared threshold (for `d ≠ 0` the quotient of the rationals, for `d = 0` the value
`+inf`, which passes): the missing second-best distance is the sentinel 5000000. -/
theorem findCorrespondences_few_features (A : List Feature) (b : Feature) (threshold : ℚ) :
    findCorrespondences A [] threshold = [] ∧
    findCorrespondences A [b] threshold =
      A.filterMap (fun fA =>
        if l2Features fA b < 5000000 ∧
            (fdiv 5000000 (l2Features fA b)).ge (threshold ^ 2) = true then
          some (FeatureCorrespondence.mk fA b)
        else none) ∧
    (∀ fA : Feature, l2Features fA b ≠ 0 →
      ((fdiv 5000000 (l2Features fA b)).ge (threshold ^ 2) = true ↔
        threshold ^ 2 ≤ 5000000 / l2Features fA b)) ∧
    (∀ fA : Feature, l2Features fA b = 0 →
      (fdiv 5000000 (l2Features fA b)).ge (threshold ^ 2) = true) := by
  refine ⟨?_, ?_, fun fA h => fdiv_ge_of_ne_zero _ _ _ h, ?_⟩
  · rw [findCorrespondences_eq_filterMap]
    have hnone : ∀ fA ∈ A,
        (if accepts (scan fA []) (threshold ^ 2) = true then
          some (FeatureCorrespondence.mk fA (scan fA []).best_feature) else none) =
        (fun _ => (none : Option FeatureCorrespondence)) fA := by
      intro fA _
      simp [scan_nil, accepts, scanInit]
    rw [filterMap_congr_mem _ _ A hnone]
    induction A with
    | nil => rfl
    | cons a A ih => simp [List.filterMap_cons]
  · rw [findCorrespondences_eq_filterMap]
    apply filterMap_congr_mem
    intro fA _
    rw [scan_singleton]
    by_cases h : l2Features fA b < 5000000
    · rw [if_pos h]
      simp only [accepts, Bool.and_true, h, true_and]
    · rw [if_neg h]
      simp [accepts, scanInit, h]
  · intro fA h
    simp [fdiv, h, FloatQuotient.ge]

/-! ## Corners as inputs of the descriptor -/

/-- The loop of `descriptor` over a coordinate `c` with an integer radius `r` runs from
`c - r` to `c + r`. -/
theorem mem_descriptor_range (c : Int) (r : Nat) (i : Int) :
    i ∈ forLoopRange (truncToInt ((c : ℚ) - (r : ℚ))) ((c : ℚ) + (r : ℚ) + 1) ↔
      c - r ≤ i ∧ i ≤ c + r := by
  rw [mem_forLoopRange]
  have h1 : ((c : ℚ) - (r : ℚ)) = ((c - r : Int) : ℚ) := by push_cast; ring
  have h2 : ((c : ℚ) + (r : ℚ) + 1) = ((c + r + 1 : Int) : ℚ) := by push_cast; ring
  rw [h1, truncToInt_intCast, h2, Int.cast_lt]
  constructor
  · rintro ⟨ha, hb⟩; exact ⟨ha, by omega⟩
  · rintro ⟨ha, hb⟩; exact ⟨ha, by omega⟩

/-- C22: for every image of width `w` and height `h` and all non-negative integers
`boundarySize >= radiusDescriptor`, every point `(x, y)` returned by `HarrisCorners`
satisfies `0 <= x - radiusDescriptor`, `x + radiusDescriptor <= w - 1`,
`0 <= y - radiusDescriptor` and `y + radiusDescriptor <= h - 1`; hence every index `i` of
the first loop of `descriptor` and every index `j` of its second loop, the coordinates at
which the blurred image is read, satisfy `0 <= i < w` and `0 <= j < h`. -/
theorem HarrisCorners_safe_for_descriptor (lib : ImageLib) (im : Image)
    (k sigmaG factorSigma maxiDiam : ℚ) (boundarySize radiusDescriptor : Nat)
    (hrb : radiusDescriptor ≤ boundarySize) (p : Point)
    (hp : p ∈ HarrisCorners lib im k sigmaG factorSigma maxiDiam (boundarySize : ℚ)) :
    (0 ≤ p.x - (radiusDescriptor : Int) ∧
      p.x + (radiusDescriptor : Int) ≤ (im.width : Int) - 1 ∧
      0 ≤ p.y - (radiusDescriptor : Int) ∧
      p.y + (radiusDescriptor : Int) ≤ (im.height : Int) - 1) ∧
    (∀ i ∈ forLoopRange (truncToInt ((p.x : ℚ) - (radiusDescriptor : ℚ)))
        ((p.x : ℚ) + (radiusDescriptor : ℚ) + 1), 0 ≤ i ∧ i < (im.width : Int)) ∧
    (∀ j ∈ forLoopRange (truncToInt ((p.y : ℚ) - (radiusDescriptor : ℚ)))
        ((p.y : ℚ) + (radiusDescriptor : ℚ) + 1), 0 ≤ j ∧ j < (im.height : Int)) := by
  have hp1 : Point.mk p.x p.y ∈
      HarrisCorners lib im k sigmaG factorSigma maxiDiam (boundarySize : ℚ) := hp
  rw [mem_HarrisCorners, margin_natCast, margin_natCast] at hp1
  obtain ⟨⟨hx1, hx2⟩, ⟨hy1, hy2⟩, _⟩ := hp1
  have hrb1 : (radiusDescriptor : Int) ≤ (boundarySize : Int) := by exact_mod_cast hrb
  refine ⟨⟨by omega, by omega, by omega, by omega⟩, ?_, ?_⟩
  · intro i hi
    rw [mem_descriptor_range] at hi
    omega
  · intro j hj
    rw [mem_descriptor_range] at hj
    omega

/-- Witness of C22: the corner `(1, 1)` of a 3×3 image with `boundarySize = 1` and
`radiusDescriptor = 1`. -/
theorem HarrisCorners_safe_for_descriptor_witness :
    Point.mk 1 1 ∈
      HarrisCorners ImageLib.uniform (Image.zeros 3 3 1) (3 / 20) 1 1 1 ((1 : Nat) : ℚ) ∧
    (0 ≤ (Point.mk 1 1).x - ((1 : Nat) : Int) ∧
      (Point.mk 1 1).x + ((1 : Nat) : Int) ≤ ((Image.zeros 3 3 1).width : Int) - 1 ∧
      0 ≤ (Point.mk 1 1).y - ((1 : Nat) : Int) ∧
      (Point.mk 1 1).y + ((1 : Nat) : Int) ≤ ((Image.zeros 3 3 1).height : Int) - 1) :=
  have hmem : Point.mk 1 1 ∈
      HarrisCorners ImageLib.uniform (Image.zeros 3 3 1) (3 / 20) 1 1 1 ((1 : Nat) : ℚ) :=
    mem_HarrisCorners_uniform (Image.zeros 3 3 1) 1 1 1 1 1 1 (le_refl 1) (by decide)
      (le_refl 1) (by decide)
  ⟨hmem, (HarrisCorners_safe_for_descriptor ImageLib.uniform (Image.zeros 3 3 1) (3 / 20)
    1 1 1 1 1 (le_refl 1) (Point.mk 1 1) hmem).1⟩

end Panorama
